import Mathlib

/-!
nxsh: lexer, parser, evaluator and JSON builtins

A shallow embedding of `pkg/parser` (tokens, AST nodes, the lexer and the
recursive-descent parser) and of `pkg/evaluator` (object model, environment, the
builtins `get`, `where`, `select`, `cd`, and the tree-walking `Eval`).

Conventions of the embedding:

* Go's `interface{}` holding a decoded JSON value is the inductive `JVal`.
  A `map[string]interface{}` is an association list read with `List.lookup`
  (first binding of a key wins), so every list denotes a map.
* `float64` is a type parameter `F`; the library routines whose results depend
  on floating point, on the process table or on the file system
  (`strconv.ParseFloat`, `fmt.Sprintf("%v", _)`, `strconv.Unquote`,
  `json.Unmarshal`, `json.MarshalIndent`, `os/exec`, `os.Chdir`) are the fields
  of a `Platform`, over which every theorem is universally quantified.
* a Go `Object` that may be `nil` is an `Option (Object F)`.
* a Go `string` is a Lean `String`; the only separator the evaluator splits on is
  the ASCII `.`, so splitting by characters and by bytes agree on UTF-8 text.
* the evaluation of an expression reads the environment and changes only the
  outside world (working directory, processes), whose state `w : W` is threaded
  through `evalExpr`; statements also return the environment.
* a Go pointer that may be nil is an `Option`; a `Statement` interface value that
  holds a nil pointer is a constructor of its own, and reading a field through
  it is a run-time panic, the result `none` of `evalStatement`.
* the loops of the lexer and of the parser are recursions on a number of rounds
  that is fixed from the length of the input and is large enough for the loop
  to end by its own condition.
-/

namespace Nxsh

/-! ## Tokens (pkg/parser/token.go) -/

/-- The token categories of `token.go`. -/
inductive TokenType
  | ILLEGAL | EOF
  | IDENT | INT | STRING
  | ASSIGN | PIPE | EQ | NEQ | GT | LT | GTE | LTE | DOT
  | COMMA | SEMICOLON | LPAREN | RPAREN | LBRACE | RBRACE | LBRACKET | RBRACKET
  | LET | CD | VARS | EXIT | GET | WHERE | SELECT | IF | ELSE | FOR | DEF | TRUE | FALSE
  deriving DecidableEq, Repr

/-- A lexical token: its category and the exact source text. -/
structure Token where
  type : TokenType
  literal : String
  deriving DecidableEq, Repr

/-! ## AST nodes (pkg/parser/ast.go) -/

/-- The struct `Identifier` of `ast.go` (used for the name of a `let`). -/
structure Identifier where
  token : Token
  value : String
  deriving DecidableEq, Repr

mutual
/-- The nodes implementing Go's `Expression` interface. -/
inductive Expression
  | identifier (token : Token) (value : String)
  | stringLiteral (token : Token) (value : String)
  | commandExpression (cmd : CommandExpression)
  | pipelineExpression (token : Token) (left : Expression) (right : Expression)
/-- The struct `CommandExpression`: a command name and its arguments. -/
inductive CommandExpression
  | mk (token : Token) (name : Expression) (args : List Expression)
end

/-- A value of Go's `Statement` interface: a pointer to a `LetStatement` or to an
`ExpressionStatement`. The pointer may be nil: a nil `*LetStatement` or a nil
`*ExpressionStatement` converted to `Statement` is an interface value that is
itself not nil (`nilLetStatement`, `nilExpressionStatement`). -/
inductive Statement
  | letStatement (token : Token) (name : Identifier) (value : Expression)
  | expressionStatement (token : Token) (expression : Expression)
  | nilLetStatement
  | nilExpressionStatement

/-- The root node: an ordered sequence of statements. -/
structure Program where
  statements : List Statement

/-- Go's `parser.Node` interface, restricted to the node types of `ast.go`. -/
inductive Node
  | program (p : Program)
  | statement (s : Statement)
  | expression (e : Expression)

/-! ## JSON values and runtime objects (pkg/evaluator/object.go) -/

/-- A decoded JSON value as held in a Go `interface{}`: `nil`, `bool`, `float64`,
`string`, `[]interface{}` and `map[string]interface{}`. `nilArray` is the nil
slice of type `[]interface{}` (what `var results []interface{}` is before the
first `append`); it has no elements and matches `case []interface{}`. -/
inductive JVal (F : Type)
  | null
  | bool (b : Bool)
  | number (x : F)
  | string (s : String)
  | array (elems : List (JVal F))
  | nilArray
  | object (fields : List (String × JVal F))

/-- The four entries of the package-level table `builtins`. -/
inductive BuiltinFn
  | cd | get | where_ | select
  deriving DecidableEq, Repr

/-- The object variants of `object.go`. -/
inductive Object (F : Type)
  | string (value : String)
  | json (value : JVal F)
  | null
  | error (message : String)
  | builtin (fn : BuiltinFn)

/-- The method `Type()` of each object variant. -/
def Object.Type {F : Type} : Object F → String
  | .string _ => "STRING"
  | .json _ => "JSON"
  | .null => "NULL"
  | .error _ => "ERROR"
  | .builtin _ => "BUILTIN"

/-- The helper `isError`: a non-nil object whose type is `ERROR`. -/
def isError {F : Type} : Option (Object F) → Bool
  | some (.error _) => true
  | _ => false

/-- The type assertion `v.([]interface{})`: the elements of a slice, nil or not. -/
def JVal.asSlice {F : Type} : JVal F → Option (List (JVal F))
  | .array xs => some xs
  | .nilArray => some []
  | _ => none

/-- The type assertion `v.(map[string]interface{})`. -/
def JVal.asMap {F : Type} : JVal F → Option (List (String × JVal F))
  | .object kvs => some kvs
  | _ => none

/-- The slice built by `var results []interface{}` followed by one `append` per
element of `l`: nil when nothing was appended. -/
def appendAll {F : Type} (l : List (JVal F)) : JVal F :=
  match l with
  | [] => .nilArray
  | _ :: _ => .array l

/-! ## Library routines -/

/-- The library and operating-system routines the evaluator calls. -/
structure Platform (F W : Type) where
  /-- Go library call `strconv.ParseFloat(s, 64)`; `none` when it returns an error. -/
  parseFloat : String → Option F
  /-- Go library call `fmt.Sprintf("%v", x)` for a `float64`. -/
  formatFloat : F → String
  /-- Go comparison `x == y` on `float64`. -/
  feq : F → F → Bool
  /-- Go comparison `x < y` on `float64`. -/
  flt : F → F → Bool
  /-- Go comparison `x <= y` on `float64`. -/
  fle : F → F → Bool
  /-- Go library call `fmt.Sprintf("%v", v)` for a slice or a map. -/
  formatComposite : JVal F → String
  /-- Go library call `strconv.Unquote(s)`; `none` when it returns an error. -/
  unquote : String → Option String
  /-- Go library call `json.MarshalIndent(v, "", "  ")` as used by `Json.Inspect`. -/
  marshalIndent : JVal F → String
  /-- Go library call `json.Unmarshal(out, &v)`; `none` when it returns an error. -/
  unmarshal : String → Option (JVal F)
  /-- Go library call `os.UserHomeDir()`. -/
  userHomeDir : W → Except String String
  /-- Go library call `os.Chdir(path)`: the new state, or the error text. -/
  chdir : W → String → Except String W
  /-- Running `exec.Command(name, args...)` with the given standard input
  (`none`: the session's own): the state afterwards, and the captured standard
  output or the text of the error of `cmd.Run()`. -/
  run : W → String → List String → Option String → W × Except String String

/-- Go library call `strings.TrimPrefix(s, ".")`. -/
def trimLeadingDot (s : String) : String :=
  match s.data with
  | '.' :: rest => String.mk rest
  | _ => s

/-- Go library call `strings.Split` on the one-byte separator `.`, over the characters. -/
def splitDotChars : List Char → List (List Char)
  | [] => [[]]
  | c :: cs =>
    if c = '.' then [] :: splitDotChars cs
    else match splitDotChars cs with
      | [] => [[c]]
      | seg :: rest => (c :: seg) :: rest

/-- Go library call `strings.Split(s, ".")`. -/
def splitDot (s : String) : List String :=
  (splitDotChars s.data).map String.mk

/-- The path of a builtin argument: `strings.Split(strings.TrimPrefix(v, "."), ".")`. -/
def parsePath (v : String) : List String :=
  splitDot (trimLeadingDot v)

/-! ## Builtins (pkg/evaluator/evaluator.go) -/

/-- The function `accessField`: recursive navigation; `none` is Go's `(nil, false)`. -/
def accessField {F : Type} (data : JVal F) : List String → Option (JVal F)
  | [] => some data
  | currentKey :: remainingPath =>
    match data with
    | .object obj =>
      match obj.lookup currentKey with
      | none => none
      | some value => accessField value remainingPath
    | _ => none

/-- Go library call `fmt.Sprintf("%v", v)` for a decoded JSON value. -/
def sprintV {F W : Type} (P : Platform F W) : JVal F → String
  | .null => "<nil>"
  | .bool b => if b then "true" else "false"
  | .number x => P.formatFloat x
  | .string s => s
  | v => P.formatComposite v

/-- The function `nativeToNshObject`. -/
def nativeToNshObject {F W : Type} (P : Platform F W) : JVal F → Object F
  | .null => .null
  | .object kvs => .json (.object kvs)
  | .array xs => .json (.array xs)
  | .nilArray => .json .nilArray
  | v => .string (sprintV P v)

/-- The array loop of `builtinGet` (`for _, item := range data`), with the slice
`results` built so far. -/
def getLoop {F : Type} (path : List String) : List (JVal F) → List (JVal F) → List (JVal F)
  | [], results => results
  | item :: items, results =>
    match accessField item path with
    | some result => getLoop path items (results ++ [result])
    | none => getLoop path items results

/-- The function `builtinGet`. -/
def builtinGet {F W : Type} (P : Platform F W) (input : Option (Object F))
    (args : List (Object F)) : Object F :=
  match input with
  | none => .error "get: requiere una entrada de un pipeline"
  | some (.json jsonInput) =>
    match args with
    | [.string pathArg] =>
      let path := parsePath pathArg
      match jsonInput with
      | .object data =>
        match accessField (.object data) path with
        | none => .null
        | some result => nativeToNshObject P result
      | .array data => .json (appendAll (getLoop path data []))
      | .nilArray => .json (appendAll (getLoop path [] []))
      | _ => .error "get: la entrada no es un objeto o array JSON válido"
    | [arg] => .error ("get: el argumento de ruta debe ser una cadena, se obtuvo " ++ arg.Type)
    | _ => .error "uso: get <.campo.anidado>"
  | some other => .error ("get: la entrada debe ser de tipo JSON, se obtuvo " ++ other.Type)

/-- Go library call `strconv.ParseBool`; `none` when it returns an error. -/
def parseBool (s : String) : Option Bool :=
  if s = "1" ∨ s = "t" ∨ s = "T" ∨ s = "TRUE" ∨ s = "true" ∨ s = "True" then some true
  else if s = "0" ∨ s = "f" ∨ s = "F" ∨ s = "FALSE" ∨ s = "false" ∨ s = "False" then some false
  else none

/-- The double quote that `evaluateCondition` puts around the literal. -/
def dquote : String := String.singleton (Char.ofNat 34)

/-- The last part of `evaluateCondition`: comparison of the textual forms. -/
def compareStrings {F W : Type} (P : Platform F W) (lhs : JVal F) (op rhsStr : String) :
    Except String Bool :=
  let lhsStr := sprintV P lhs
  let rhsStrUnquoted := (P.unquote (dquote ++ rhsStr ++ dquote)).getD rhsStr
  if op = "==" then .ok (lhsStr == rhsStrUnquoted)
  else if op = "!=" then .ok (lhsStr != rhsStrUnquoted)
  else .error ("operador no soportado para el tipo de dato: " ++ op)

/-- The second part of `evaluateCondition`: the boolean rule, then the string rule. -/
def compareBools {F W : Type} (P : Platform F W) (lhs : JVal F) (op rhsStr : String) :
    Except String Bool :=
  match lhs, parseBool rhsStr with
  | .bool lhsBool, some rhsBool =>
    if op = "==" then .ok (lhsBool == rhsBool)
    else if op = "!=" then .ok (lhsBool != rhsBool)
    else .error ("operador booleano no válido: " ++ op)
  | _, _ => compareStrings P lhs op rhsStr

/-- The function `evaluateCondition`: `.ok b` is Go's `(b, nil)`, `.error m` is an error with text `m`. -/
def evaluateCondition {F W : Type} (P : Platform F W) (lhs : JVal F) (op rhsStr : String) :
    Except String Bool :=
  match lhs, P.parseFloat rhsStr with
  | .number lhsFloat, some rhsFloat =>
    if op = "==" then .ok (P.feq lhsFloat rhsFloat)
    else if op = "!=" then .ok (!P.feq lhsFloat rhsFloat)
    else if op = ">" then .ok (P.flt rhsFloat lhsFloat)
    else if op = "<" then .ok (P.flt lhsFloat rhsFloat)
    else if op = ">=" then .ok (P.fle rhsFloat lhsFloat)
    else if op = "<=" then .ok (P.fle lhsFloat rhsFloat)
    else .error ("operador numérico desconocido: " ++ op)
  | _, _ => compareBools P lhs op rhsStr

/-- The apostrophe used in error texts. -/
def apostrophe : String := String.singleton (Char.ofNat 39)

/-- The filtering loop of `builtinWhere` (`for _, item := range items`), with the
slice `results` built so far; `.error m` is the early `return newError(...)`. -/
def whereLoop {F W : Type} (P : Platform F W) (path : List String) (op valueStr : String) :
    List (JVal F) → List (JVal F) → Except String (List (JVal F))
  | [], results => .ok results
  | item :: items, results =>
    match accessField item path with
    | none => whereLoop P path op valueStr items results
    | some itemValue =>
      match evaluateCondition P itemValue op valueStr with
      | .error err => .error ("error en " ++ apostrophe ++ "where" ++ apostrophe ++ ": " ++ err)
      | .ok isMatch =>
        if isMatch then whereLoop P path op valueStr items (results ++ [item])
        else whereLoop P path op valueStr items results

/-- The function `builtinWhere`. -/
def builtinWhere {F W : Type} (P : Platform F W) (input : Option (Object F))
    (args : List (Object F)) : Object F :=
  match input with
  | none => .error "where: requiere una entrada de un pipeline"
  | some (.json jsonInput) =>
    let itemsOpt : Option (List (JVal F)) :=
      match jsonInput.asSlice with
      | some items => some items
      | none =>
        match jsonInput.asMap with
        | some itemMap => some [.object itemMap]
        | none => none
    match itemsOpt with
    | none => .error "where: solo puede filtrar arrays de objetos"
    | some items =>
      match args with
      | [pathArg, opArg, valArg] =>
        match pathArg, opArg, valArg with
        | .string pathValue, .string op, .string valueStr =>
          match whereLoop P (parsePath pathValue) op valueStr items [] with
          | .error msg => .error msg
          | .ok results => .json (appendAll results)
        | _, _, _ => .error "where: los argumentos deben ser cadenas"
      | _ => .error "uso: where <.campo> <operador> <valor>"
  | some other => .error ("where: la entrada debe ser de tipo JSON, se obtuvo " ++ other.Type)

/-- The assignment `m[k] = v` on a Go map. -/
def mapSet {F : Type} (m : List (String × JVal F)) (k : String) (v : JVal F) :
    List (String × JVal F) :=
  m.filter (fun kv => kv.1 != k) ++ [(k, v)]

/-- The pre-parsing loop of `builtinSelect` over the arguments; `none` is the early
return on an argument that is not a `String`. -/
def selectPaths {F : Type} : List (Object F) → Option (List (List String))
  | [] => some []
  | .string v :: rest => (selectPaths rest).map (fun paths => parsePath v :: paths)
  | _ :: _ => none

/-- The body of the closure `processObject` of `builtinSelect`, as a loop over the
remaining paths with the map `newObj` built so far. The key is
`path[len(path)-1]`; a path is a result of `strings.Split`, which is never empty,
so the index is in range. -/
def processObjectLoop {F : Type} (itemData : List (String × JVal F)) :
    List (List String) → List (String × JVal F) → List (String × JVal F)
  | [], newObj => newObj
  | path :: paths, newObj =>
    match accessField (.object itemData) path, path.getLast? with
    | some value, some newKey => processObjectLoop itemData paths (mapSet newObj newKey value)
    | _, _ => processObjectLoop itemData paths newObj

/-- The closure `processObject` of `builtinSelect`. -/
def processObject {F : Type} (paths : List (List String)) (itemData : List (String × JVal F)) :
    List (String × JVal F) :=
  processObjectLoop itemData paths []

/-- The array loop of `builtinSelect`, with the slice `results` built so far. -/
def selectLoop {F : Type} (paths : List (List String)) :
    List (JVal F) → List (JVal F) → List (JVal F)
  | [], results => results
  | item :: items, results =>
    match item with
    | .object itemMap =>
      let newObj := processObject paths itemMap
      if newObj.length > 0 then selectLoop paths items (results ++ [.object newObj])
      else selectLoop paths items results
    | _ => selectLoop paths items results

/-- The function `builtinSelect`. -/
def builtinSelect {F : Type} (input : Option (Object F)) (args : List (Object F)) : Object F :=
  match input with
  | none => .error "select: requiere una entrada de un pipeline"
  | some (.json jsonInput) =>
    if args.length < 1 then .error "uso: select <.campo1> <.campo2> ..."
    else
      match selectPaths args with
      | none => .error "select: todos los argumentos deben ser cadenas de ruta"
      | some paths =>
        match jsonInput with
        | .object data => .json (.object (processObject paths data))
        | .array data => .json (appendAll (selectLoop paths data []))
        | .nilArray => .json (appendAll (selectLoop paths [] []))
        | _ => .error "select: solo puede operar sobre objetos o arrays de objetos JSON"
  | some other => .error ("select: la entrada debe ser de tipo JSON, se obtuvo " ++ other.Type)

/-- The function `builtinCd`; it ignores the pipeline input. -/
def builtinCd {F W : Type} (P : Platform F W) (w : W) (args : List (Object F)) : Object F × W :=
  if args.length > 1 then (.error "cd: demasiados argumentos", w)
  else
    let pathOrErr : Except (Object F) String :=
      match args with
      | [] =>
        match P.userHomeDir w with
        | .error err => .error (.error ("cd: no se pudo encontrar el directorio home: " ++ err))
        | .ok home => .ok home
      | .string value :: _ => .ok value
      | arg :: _ => .error (.error ("cd: el argumento debe ser una cadena, se obtuvo " ++ arg.Type))
    match pathOrErr with
    | .error e => (e, w)
    | .ok path =>
      match P.chdir w path with
      | .error err => (.error ("cd: " ++ err), w)
      | .ok w1 => (.null, w1)

/-! ## Environment (pkg/evaluator/environment.go) -/

/-- The variable store: Go's `map[string]Object`. -/
structure Environment (F : Type) where
  store : String → Option (Object F)

/-- The function `NewEnvironment`. -/
def NewEnvironment {F : Type} : Environment F := ⟨fun _ => none⟩

/-- The function `Environment.Get`: `none` is Go's `ok == false`. -/
def Environment.Get {F : Type} (e : Environment F) (name : String) : Option (Object F) :=
  e.store name

/-- The function `Environment.Set`: the store after `e.store[name] = val`. -/
def Environment.Set {F : Type} (e : Environment F) (name : String) (val : Object F) :
    Environment F :=
  ⟨fun n => if n = name then some val else e.store n⟩

/-! ## Evaluator (pkg/evaluator/evaluator.go) -/

/-- The method `Inspect()` of each object variant. -/
def Object.Inspect {F W : Type} (P : Platform F W) : Object F → String
  | .string value => value
  | .json value => P.marshalIndent value
  | .null => "null"
  | .error message => "Error: " ++ message
  | .builtin _ => "builtin function"

/-- The lookup `builtins[name]` in the package-level table. -/
def builtins (name : String) : Option BuiltinFn :=
  if name = "cd" then some .cd
  else if name = "get" then some .get
  else if name = "where" then some .where_
  else if name = "select" then some .select
  else none

/-- The call `builtin.Fn(input, args...)`. -/
def callBuiltin {F W : Type} (P : Platform F W) (fn : BuiltinFn) (w : W)
    (input : Option (Object F)) (args : List (Object F)) : Object F × W :=
  match fn with
  | .cd => builtinCd P w args
  | .get => (builtinGet P input args, w)
  | .where_ => (builtinWhere P input args, w)
  | .select => (builtinSelect input args, w)

/-- The function `evalIdentifier`. -/
def evalIdentifier {F : Type} (value : String) (env : Environment F) : Object F :=
  match env.Get value with
  | some val => val
  | none =>
    match builtins value with
    | some fn => .builtin fn
    | none => .string value

/-- The end of `evalCommandExpression`, once the name and the arguments are
evaluated: the builtin call, or the external process and the coercion of its
output. -/
def runCommand {F W : Type} (P : Platform F W) (nameObj : Object F) (args : List (Object F))
    (w : W) (input : Option (Object F)) : Object F × W :=
  match nameObj with
  | .builtin fn => callBuiltin P fn w input args
  | _ =>
    let cmdName := nameObj.Inspect P
    let argStrings := args.map (Object.Inspect P)
    match P.run w cmdName argStrings (input.map (Object.Inspect P)) with
    | (w1, .error err) =>
      (.error ("error ejecutando " ++ apostrophe ++ cmdName ++ apostrophe ++ ": " ++ err), w1)
    | (w1, .ok output) =>
      match P.unmarshal output with
      | some jsonData => (.json jsonData, w1)
      | none => (.string output, w1)

mutual
/-- The function `Eval` at an `Expression` node. The environment is only read here; the state
`w` of the outside world is threaded through. -/
def evalExpr {F W : Type} (P : Platform F W) (env : Environment F) :
    Expression → W → Object F × W
  | .identifier _ value, w => (evalIdentifier value env, w)
  | .stringLiteral _ value, w => (.string value, w)
  | .commandExpression cmdExpr, w => evalCommandExpression P env cmdExpr w none
  | .pipelineExpression _ left right, w =>
    match evalExpr P env left w with
    | (leftResult, w1) =>
      if isError (some leftResult) then (leftResult, w1)
      else evalPipelineChain P env right w1 leftResult
/-- The function `evalPipelineChain`. -/
def evalPipelineChain {F W : Type} (P : Platform F W) (env : Environment F) :
    Expression → W → Object F → Object F × W
  | .commandExpression cmdExpr, w, input =>
    evalCommandExpression P env cmdExpr w (some input)
  | .pipelineExpression _ left right, w, input =>
    match evalPipelineChain P env left w input with
    | (intermediateResult, w1) =>
      if isError (some intermediateResult) then (intermediateResult, w1)
      else evalPipelineChain P env right w1 intermediateResult
  | _, w, _ => (.error "lado derecho del pipe inválido: se esperaba un comando", w)
/-- The function `evalCommandExpression`. -/
def evalCommandExpression {F W : Type} (P : Platform F W) (env : Environment F) :
    CommandExpression → W → Option (Object F) → Object F × W
  | .mk _ name args, w, input =>
    let bound : Option (String × Object F) :=
      match name with
      | .identifier _ value => (env.Get value).map (fun val => (value, val))
      | _ => none
    match bound with
    | some (value, val) =>
      if args.length > 0 then
        (.error ("la variable " ++ apostrophe ++ value ++ apostrophe ++
          " no es un comando y no acepta argumentos"), w)
      else (val, w)
    | none =>
      match evalExpr P env name w with
      | (nameObj, w1) =>
        if isError (some nameObj) then (nameObj, w1)
        else
          match evalArgs P env args w1 [] with
          | (.error evaluatedArg, w2) => (evaluatedArg, w2)
          | (.ok argObjs, w2) => runCommand P nameObj argObjs w2 input
/-- The argument loop of `evalCommandExpression`, with the slice `args` built so
far; `.error e` is the early return of an argument that evaluated to an error. -/
def evalArgs {F W : Type} (P : Platform F W) (env : Environment F) :
    List Expression → W → List (Object F) → Except (Object F) (List (Object F)) × W
  | [], w, acc => (.ok acc, w)
  | argExpr :: rest, w, acc =>
    match evalExpr P env argExpr w with
    | (evaluatedArg, w1) =>
      if isError (some evaluatedArg) then (.error evaluatedArg, w1)
      else evalArgs P env rest w1 (acc ++ [evaluatedArg])
end

/-- The function `Eval` at a `Statement` node: the result, the environment and the outside
world afterwards. `none` is the run-time panic of reading a field through a nil
pointer (`node.Value`, `node.Expression`). -/
def evalStatement {F W : Type} (P : Platform F W) (env : Environment F) (w : W) :
    Statement → Option (Object F × Environment F × W)
  | .expressionStatement _ expression =>
    match evalExpr P env expression w with
    | (r, w1) => some (r, env, w1)
  | .letStatement _ name value =>
    match evalExpr P env value w with
    | (val, w1) =>
      if isError (some val) then some (val, env, w1)
      else some (.null, env.Set name.value val, w1)
  | .nilLetStatement => none
  | .nilExpressionStatement => none

/-- The loop of `evalProgram` over the remaining statements, with the variable
`result` (`none` inside the triple is Go's nil `Object`; the outer `none` is a
panic). -/
def evalProgramLoop {F W : Type} (P : Platform F W) :
    List Statement → Environment F → W → Option (Object F) →
      Option (Option (Object F) × Environment F × W)
  | [], env, w, result => some (result, env, w)
  | statement :: rest, env, w, _ =>
    match evalStatement P env w statement with
    | none => none
    | some (r, env1, w1) =>
      if isError (some r) then some (some r, env1, w1)
      else evalProgramLoop P rest env1 w1 (some r)

/-- The function `evalProgram`. -/
def evalProgram {F W : Type} (P : Platform F W) (program : Program) (env : Environment F)
    (w : W) : Option (Option (Object F) × Environment F × W) :=
  evalProgramLoop P program.statements env w none

/-- The function `Eval`: the dispatch on the node type. The result is the object
returned (`none`: Go's nil `Object`), the environment and the outside world
afterwards; the outer `none` is a run-time panic. -/
def Eval {F W : Type} (P : Platform F W) (node : Node) (env : Environment F) (w : W) :
    Option (Option (Object F) × Environment F × W) :=
  match node with
  | .program p => evalProgram P p env w
  | .statement s =>
    match evalStatement P env w s with
    | none => none
    | some (r, env1, w1) => some (some r, env1, w1)
  | .expression e =>
    match evalExpr P env e w with
    | (r, w1) => some (some r, env, w1)

/-! ## Lexer (pkg/parser/lexer.go)

The lexer reads its input byte by byte (`rune(l.input[i])`). Here the input is a
Lean `String` read character by character. Every byte the lexer tests for is
ASCII and no byte of a multi-byte UTF-8 character is, so on UTF-8 text the
tokens and their literals are the same. -/

/-- The rune `0`, which the lexer uses for the end of the input. -/
def NUL : Char := Char.ofNat 0

/-- The struct `Lexer`. -/
structure Lexer where
  input : String
  position : Nat
  readPosition : Nat
  ch : Char

/-- The method `readChar`. -/
def Lexer.readChar (l : Lexer) : Lexer :=
  { l with
    ch := if l.readPosition ≥ l.input.data.length then NUL
      else l.input.data.getD l.readPosition NUL
    position := l.readPosition
    readPosition := l.readPosition + 1 }

/-- The function `NewLexer`. -/
def NewLexer (input : String) : Lexer :=
  Lexer.readChar ⟨input, 0, 0, NUL⟩

/-- The method `peekChar`. -/
def Lexer.peekChar (l : Lexer) : Char :=
  if l.readPosition ≥ l.input.data.length then NUL
  else l.input.data.getD l.readPosition NUL

/-- The function `newToken`. -/
def newToken (tokenType : TokenType) (ch : Char) : Token :=
  ⟨tokenType, String.singleton ch⟩

/-- The function `LookupIdent`, with the table `keywords`. -/
def LookupIdent (ident : String) : TokenType :=
  if ident = "let" then .LET
  else if ident = "cd" then .CD
  else if ident = "vars" then .VARS
  else if ident = "exit" then .EXIT
  else if ident = "get" then .GET
  else if ident = "where" then .WHERE
  else if ident = "select" then .SELECT
  else if ident = "if" then .IF
  else if ident = "else" then .ELSE
  else if ident = "for" then .FOR
  else if ident = "def" then .DEF
  else if ident = "true" then .TRUE
  else if ident = "false" then .FALSE
  else .IDENT

/-- The condition of the loop of `skipWhitespace`: space, tab, line feed,
carriage return. -/
def isWhitespace (ch : Char) : Bool :=
  ch = ' ' || ch = Char.ofNat 9 || ch = Char.ofNat 10 || ch = Char.ofNat 13

/-- The function `isIdentifierChar`: everything outside the deny-list (white
space, `|`, `=`, round, curly and square brackets, both quotes, the rune `0`). -/
def isIdentifierChar (ch : Char) : Bool :=
  !(ch = ' ' || ch = Char.ofNat 9 || ch = Char.ofNat 10 || ch = Char.ofNat 13 ||
    ch = '|' || ch = '=' || ch = '(' || ch = ')' || ch = Char.ofNat 123 ||
    ch = Char.ofNat 125 || ch = '[' || ch = ']' || ch = Char.ofNat 34 ||
    ch = Char.ofNat 39 || ch = NUL)

/-- The function `isDigit`: `unicode.IsDigit` on a rune made from one byte, that
is an ASCII digit (no rune from `0x80` to `0xFF` is a decimal digit). -/
def isDigit (ch : Char) : Bool :=
  decide ('0' ≤ ch ∧ ch ≤ '9')

/-- The Go slice expression `s[a:b]`, for `a ≤ b ≤ len(s)`. Outside that range Go
panics and this function clamps; `sliceChecked` below keeps the panic, and the
lexer is shown to stay within the range. -/
def slice (s : String) (a b : Nat) : String :=
  String.mk ((s.data.drop a).take (b - a))

/-- The loop `for cond(l.ch) { l.readChar() }`. A loop of this form ends at the
latest when `readChar` passes the end of the input and sets `ch` to the rune `0`,
on which every condition used is false; that takes at most `len(input) + 1`
rounds, which is the number of rounds the callers allow. -/
def Lexer.readWhile (cond : Char → Bool) : Nat → Lexer → Lexer
  | 0, l => l
  | fuel + 1, l => if cond l.ch then Lexer.readWhile cond fuel l.readChar else l

/-- The method `skipWhitespace`. -/
def Lexer.skipWhitespace (l : Lexer) : Lexer :=
  Lexer.readWhile isWhitespace (l.input.data.length + 1) l

/-- The method `readIdentifier`: the text read and the lexer afterwards. -/
def Lexer.readIdentifier (l : Lexer) : String × Lexer :=
  let position := l.position
  let l1 := Lexer.readWhile isIdentifierChar (l.input.data.length + 1) l
  (slice l1.input position l1.position, l1)

/-- The method `readNumber`: the text read and the lexer afterwards. -/
def Lexer.readNumber (l : Lexer) : String × Lexer :=
  let position := l.position
  let l1 := Lexer.readWhile isDigit (l.input.data.length + 1) l
  (slice l1.input position l1.position, l1)

/-- The loop of `readString`: `readChar`, then stop on the quote or on the rune
`0`. It stops at the latest at the end of the input, after at most `len(input)`
rounds. -/
def Lexer.readStringLoop (quote : Char) : Nat → Lexer → Lexer
  | 0, l => l
  | fuel + 1, l =>
    let l1 := l.readChar
    if l1.ch = quote ∨ l1.ch = NUL then l1 else Lexer.readStringLoop quote fuel l1

/-- The method `readString`: the text between the quotes and the lexer afterwards. -/
def Lexer.readString (l : Lexer) (quote : Char) : String × Lexer :=
  let position := l.position + 1
  let l1 := Lexer.readStringLoop quote (l.input.data.length + 1) l
  (slice l1.input position l1.position, l1)

/-- The two-character operators of `NextToken`: when the next character is `=`
the token `two` with both characters, else the token `one` with the current
character; then the closing `readChar`. -/
def Lexer.oneOrTwo (l : Lexer) (two one : TokenType) : Token × Lexer :=
  if l.peekChar = '=' then
    let ch := l.ch
    let l1 := l.readChar
    (⟨two, String.singleton ch ++ String.singleton l1.ch⟩, l1.readChar)
  else (newToken one l.ch, l.readChar)

/-- The method `NextToken`: the token and the lexer afterwards. -/
def Lexer.NextToken (l0 : Lexer) : Token × Lexer :=
  let l := l0.skipWhitespace
  if l.ch = '=' then l.oneOrTwo .EQ .ASSIGN
  else if l.ch = '|' then (newToken .PIPE l.ch, l.readChar)
  else if l.ch = ';' then (newToken .SEMICOLON l.ch, l.readChar)
  else if l.ch = '(' then (newToken .LPAREN l.ch, l.readChar)
  else if l.ch = ')' then (newToken .RPAREN l.ch, l.readChar)
  else if l.ch = Char.ofNat 123 then (newToken .LBRACE l.ch, l.readChar)
  else if l.ch = Char.ofNat 125 then (newToken .RBRACE l.ch, l.readChar)
  else if l.ch = '[' then (newToken .LBRACKET l.ch, l.readChar)
  else if l.ch = ']' then (newToken .RBRACKET l.ch, l.readChar)
  else if l.ch = ',' then (newToken .COMMA l.ch, l.readChar)
  else if l.ch = '.' then
    if !isIdentifierChar l.peekChar then (newToken .DOT l.ch, l.readChar)
    else
      match l.readIdentifier with
      | (literal, l1) => (⟨LookupIdent literal, literal⟩, l1)
  else if l.ch = '>' then l.oneOrTwo .GTE .GT
  else if l.ch = '<' then l.oneOrTwo .LTE .LT
  else if l.ch = '!' then l.oneOrTwo .NEQ .ILLEGAL
  else if l.ch = Char.ofNat 34 ∨ l.ch = Char.ofNat 39 then
    match l.readString l.ch with
    | (literal, l1) => (⟨.STRING, literal⟩, l1.readChar)
  else if l.ch = NUL then (⟨.EOF, ""⟩, l.readChar)
  else if isIdentifierChar l.ch then
    match l.readIdentifier with
    | (literal, l1) => (⟨LookupIdent literal, literal⟩, l1)
  else if isDigit l.ch then
    match l.readNumber with
    | (literal, l1) => (⟨.INT, literal⟩, l1)
  else (newToken .ILLEGAL l.ch, l.readChar)

/-- The first `n` tokens that successive calls of `NextToken` return. -/
def Lexer.tokens : Nat → Lexer → List Token
  | 0, _ => []
  | n + 1, l =>
    match l.NextToken with
    | (tok, l1) => tok :: Lexer.tokens n l1

/-! ## Textual reconstruction of nodes (pkg/parser/ast.go) -/

mutual
/-- The method `String()` of the expression nodes. -/
def Expression.String : Expression → String
  | .identifier _ value => value
  | .stringLiteral token _ => dquote ++ token.literal ++ dquote
  | .commandExpression cmd => CommandExpression.String cmd
  | .pipelineExpression _ left right =>
    "(" ++ Expression.String left ++ " | " ++ Expression.String right ++ ")"
/-- The method `String()` of `CommandExpression`: the name and the arguments
joined by one space. -/
def CommandExpression.String : CommandExpression → String
  | .mk _ name args => " ".intercalate (Expression.String name :: Expression.Strings args)
/-- The texts of the arguments, in order. -/
def Expression.Strings : List Expression → List String
  | [] => []
  | arg :: rest => Expression.String arg :: Expression.Strings rest
end

/-! ## Parser (pkg/parser/parser.go) -/

/-- The text of a token type, the value of the Go constant. -/
def TokenType.text : TokenType → String
  | .ILLEGAL => "ILLEGAL" | .EOF => "EOF"
  | .IDENT => "IDENT" | .INT => "INT" | .STRING => "STRING"
  | .ASSIGN => "=" | .PIPE => "|" | .EQ => "==" | .NEQ => "!=" | .GT => ">" | .LT => "<"
  | .GTE => ">=" | .LTE => "<=" | .DOT => "."
  | .COMMA => "," | .SEMICOLON => ";" | .LPAREN => "(" | .RPAREN => ")"
  | .LBRACE => "\x7b" | .RBRACE => "\x7d" | .LBRACKET => "[" | .RBRACKET => "]"
  | .LET => "LET" | .CD => "CD" | .VARS => "VARS" | .EXIT => "EXIT" | .GET => "GET"
  | .WHERE => "WHERE" | .SELECT => "SELECT" | .IF => "IF" | .ELSE => "ELSE" | .FOR => "FOR"
  | .DEF => "DEF" | .TRUE => "TRUE" | .FALSE => "FALSE"

/-- The struct `Parser`. -/
structure Parser where
  l : Lexer
  errors : List String
  curToken : Token
  peekToken : Token

/-- The struct `LetStatement`, as `parseLetStatement` returns a pointer to it. -/
structure LetStatement where
  token : Token
  name : Identifier
  value : Expression

/-- The struct `ExpressionStatement`, as `parseExpressionStatement` returns a
pointer to it. -/
structure ExpressionStatement where
  token : Token
  expression : Expression

/-- The method `nextToken`. -/
def Parser.nextToken (p : Parser) : Parser :=
  match p.l.NextToken with
  | (tok, l1) => { p with curToken := p.peekToken, peekToken := tok, l := l1 }

/-- The function `NewParser`: the state after its two calls of `nextToken`, which
put the first two tokens of the lexer in `curToken` and `peekToken`. -/
def NewParser (l : Lexer) : Parser :=
  match l.NextToken with
  | (t1, l1) =>
    match l1.NextToken with
    | (t2, l2) => ⟨l2, [], t1, t2⟩

/-- The method `Errors`. -/
def Parser.Errors (p : Parser) : List String := p.errors

/-- The method `peekError`. -/
def Parser.peekError (p : Parser) (t : TokenType) : Parser :=
  { p with errors := p.errors ++ ["se esperaba que el siguiente token fuera " ++ t.text ++
      ", pero se obtuvo " ++ p.peekToken.type.text] }

/-- The method `curTokenIs`. -/
def Parser.curTokenIs (p : Parser) (t : TokenType) : Bool := p.curToken.type = t

/-- The method `peekTokenIs`. -/
def Parser.peekTokenIs (p : Parser) (t : TokenType) : Bool := p.peekToken.type = t

/-- The method `expectPeek`. -/
def Parser.expectPeek (p : Parser) (t : TokenType) : Bool × Parser :=
  if p.peekTokenIs t then (true, p.nextToken) else (false, p.peekError t)

/-- The method `isCommandStartToken`. -/
def Parser.isCommandStartToken (p : Parser) : Bool :=
  p.curToken.type = .IDENT || p.curToken.type = .GET || p.curToken.type = .WHERE ||
    p.curToken.type = .SELECT || p.curToken.type = .CD || p.curToken.type = .VARS ||
    p.curToken.type = .EXIT

/-- The number of rounds allowed to each loop and to the recursion of the
parser. Every round reads at least one token and goes on only while the token
tested is not `EOF`, and the lexer returns `EOF` from its call number
`len(input) + 1` on, so the bound is not reached. -/
def Parser.fuel (p : Parser) : Nat := p.l.input.data.length + 4

/-- The loop of `parsePathExpression`, with the text written to `path` so far. -/
def Parser.parsePathLoop : Nat → Parser → String → String × Parser
  | 0, p, path => (path, p)
  | fuel + 1, p, path =>
    if p.curTokenIs .DOT && p.peekTokenIs .IDENT then
      Parser.parsePathLoop fuel p.nextToken (path ++ p.nextToken.curToken.literal)
    else if p.curTokenIs .IDENT && p.peekTokenIs .DOT then
      Parser.parsePathLoop fuel p.nextToken (path ++ p.nextToken.curToken.literal)
    else (path, p)

/-- The method `parsePathExpression`. -/
def Parser.parsePathExpression (p : Parser) : Option Expression × Parser :=
  let startToken := p.curToken
  match Parser.parsePathLoop p.fuel p p.curToken.literal with
  | (path, p1) => (some (.identifier startToken path), p1)

/-- The method `parsePrimaryExpression`; `none` is the nil `Expression`. -/
def Parser.parsePrimaryExpression (p : Parser) : Option Expression × Parser :=
  match p.curToken.type with
  | .IDENT | .GET | .WHERE | .SELECT | .INT | .TRUE | .FALSE
  | .EQ | .NEQ | .GT | .LT | .GTE | .LTE =>
    (some (.identifier p.curToken p.curToken.literal), p)
  | .STRING => (some (.stringLiteral p.curToken p.curToken.literal), p)
  | .DOT => p.parsePathExpression
  | _ =>
    (none, { p with errors := p.errors ++
      ["no se pudo parsear la expresión que empieza con " ++ apostrophe ++
        p.curToken.literal ++ apostrophe] })

/-- The argument loop of `parseCommandExpression`, with `cmd.Args` so far. -/
def Parser.parseArgsLoop : Nat → Parser → List Expression → List Expression × Parser
  | 0, p, args => (args, p)
  | fuel + 1, p, args =>
    if !p.peekTokenIs .PIPE && !p.peekTokenIs .EOF then
      match p.nextToken.parsePrimaryExpression with
      | (some arg, p1) => Parser.parseArgsLoop fuel p1 (args ++ [arg])
      | (none, p1) => Parser.parseArgsLoop fuel p1 args
    else (args, p)

/-- The method `parseCommandExpression`; `none` is the nil `Expression`. -/
def Parser.parseCommandExpression (p : Parser) : Option Expression × Parser :=
  if !p.isCommandStartToken then (none, p)
  else
    match Parser.parseArgsLoop p.fuel p [] with
    | (args, p1) =>
      (some (.commandExpression (.mk p.curToken (.identifier p.curToken p.curToken.literal)
        args)), p1)

/-- The method `parseExpression`, with the number of nested calls allowed. -/
def Parser.parseExpressionFuel : Nat → Parser → Option Expression × Parser
  | 0, p => (none, p)
  | fuel + 1, p =>
    match (if p.isCommandStartToken then p.parseCommandExpression
      else p.parsePrimaryExpression) with
    | (left, p1) =>
      if p1.peekTokenIs .PIPE then
        match left with
        | none =>
          (none, { p1 with errors := p1.errors ++
            ["expresión inválida antes del pipe " ++ apostrophe ++ "|" ++ apostrophe] })
        | some leftExpr =>
          let p2 := p1.nextToken
          let pipeToken := p2.curToken
          let p3 := p2.nextToken
          match Parser.parseExpressionFuel fuel p3 with
          | (none, p4) =>
            (none, { p4 with errors := p4.errors ++
              ["expresión vacía o inválida después del pipe " ++ apostrophe ++ "|" ++
                apostrophe] })
          | (some right, p4) => (some (.pipelineExpression pipeToken leftExpr right), p4)
      else (left, p1)

/-- The method `parseExpression`. -/
def Parser.parseExpression (p : Parser) : Option Expression × Parser :=
  Parser.parseExpressionFuel p.fuel p

/-- The method `parseLetStatement`; `none` is the nil `*LetStatement`. -/
def Parser.parseLetStatement (p : Parser) : Option LetStatement × Parser :=
  let token := p.curToken
  match p.expectPeek .IDENT with
  | (false, p1) => (none, p1)
  | (true, p1) =>
    let name : Identifier := ⟨p1.curToken, p1.curToken.literal⟩
    match p1.expectPeek .ASSIGN with
    | (false, p2) => (none, p2)
    | (true, p2) =>
      match p2.nextToken.parseExpression with
      | (none, p3) =>
        (none, { p3 with errors := p3.errors ++
          ["no se encontró una expresión válida después de " ++ apostrophe ++ "=" ++
            apostrophe ++ " en la declaración let"] })
      | (some value, p3) => (some ⟨token, name, value⟩, p3)

/-- The method `parseExpressionStatement`; `none` is the nil
`*ExpressionStatement`. -/
def Parser.parseExpressionStatement (p : Parser) : Option ExpressionStatement × Parser :=
  let token := p.curToken
  match p.parseExpression with
  | (none, p1) => (none, p1)
  | (some expression, p1) => (some ⟨token, expression⟩, p1)

/-- The method `parseStatement`. It returns a `Statement` interface value, `none`
being the nil interface. The pointer that `parseLetStatement` or
`parseExpressionStatement` returns is converted to `Statement` by the `return`;
a nil pointer becomes an interface value that holds the nil pointer and is not
nil, so the result is never `none`. -/
def Parser.parseStatement (p : Parser) : Option Statement × Parser :=
  match p.curToken.type with
  | .LET =>
    match p.parseLetStatement with
    | (some stmt, p1) => (some (.letStatement stmt.token stmt.name stmt.value), p1)
    | (none, p1) => (some .nilLetStatement, p1)
  | _ =>
    match p.parseExpressionStatement with
    | (some stmt, p1) => (some (.expressionStatement stmt.token stmt.expression), p1)
    | (none, p1) => (some .nilExpressionStatement, p1)

/-- The loop of `ParseProgram`, with `program.Statements` so far. -/
def Parser.parseProgramLoop : Nat → Parser → List Statement → List Statement × Parser
  | 0, p, statements => (statements, p)
  | fuel + 1, p, statements =>
    if p.curToken.type ≠ .EOF then
      match p.parseStatement with
      | (some stmt, p1) => Parser.parseProgramLoop fuel p1.nextToken (statements ++ [stmt])
      | (none, p1) => Parser.parseProgramLoop fuel p1.nextToken statements
    else (statements, p)

/-- The method `ParseProgram`: the program and the parser afterwards. -/
def Parser.ParseProgram (p : Parser) : Program × Parser :=
  match Parser.parseProgramLoop p.fuel p [] with
  | (statements, p1) => (⟨statements⟩, p1)

/-! ## A concrete platform for evaluating examples -/

/-- The value of a run of decimal digits, `none` on any other character. -/
def digitsValue : List Char → Nat → Option Nat
  | [], acc => some acc
  | c :: cs, acc =>
    if 48 ≤ c.toNat ∧ c.toNat ≤ 57 then digitsValue cs (acc * 10 + (c.toNat - 48)) else none

/-- A decimal integer literal with an optional minus sign. On such literals
`strconv.ParseFloat` returns the same number. The other literals that
`strconv.ParseFloat` accepts, such as `29.5`, `1e3` or `+5`, are rejected here,
so this function stands for the Go call on decimal integer literals only; the
examples use no other number. -/
def parseDecimal (s : String) : Option Int :=
  match s.data with
  | [] => none
  | '-' :: d :: ds => (digitsValue (d :: ds) 0).map (fun n => -(n : Int))
  | cs => (digitsValue cs 0).map (fun n => (n : Int))

/-- The decimal digits of a natural number, most significant first, with fuel. -/
def natDigits : Nat → Nat → List Char → List Char
  | 0, _, acc => acc
  | fuel + 1, n, acc =>
    if n < 10 then Char.ofNat (48 + n) :: acc
    else natDigits fuel (n / 10) (Char.ofNat (48 + n % 10) :: acc)

/-- The decimal form of an integer, which is what `%v` prints for an integral
`float64` of absolute value below `1e6`; from `1e6` on `%v` prints an exponent,
as in `1e+06`, and this function does not. The examples stay below `1e6`. -/
def formatDecimal (x : Int) : String :=
  match x with
  | .ofNat n => String.mk (natDigits (n + 1) n [])
  | .negSucc n => String.mk ('-' :: natDigits (n + 2) (n + 1) [])

/-- Go library call `strconv.Unquote` on a double-quoted text without backslash, inner double
quote or line break: the text between the quotes. Other inputs are rejected. -/
def unquotePlain (s : String) : Option String :=
  match s.data with
  | [] => none
  | q :: rest =>
    match rest.reverse with
    | [] => none
    | q2 :: revBody =>
      if q.toNat = 34 ∧ q2.toNat = 34 ∧
          revBody.all (fun c => c.toNat != 34 && c.toNat != 92 && c.toNat != 10) then
        some (String.mk revBody.reverse)
      else none

/-- A platform on which the examples below are evaluated: the numbers are the
integers, written in decimal; no external command can be started and the
working directory cannot be changed. -/
def examplePlatform : Platform Int Unit where
  parseFloat := parseDecimal
  formatFloat := formatDecimal
  feq := fun x y => decide (x = y)
  flt := fun x y => decide (x < y)
  fle := fun x y => decide (x ≤ y)
  formatComposite := fun _ => "composite"
  unquote := unquotePlain
  marshalIndent := fun _ => "json"
  unmarshal := fun _ => none
  userHomeDir := fun _ => .error "no home"
  chdir := fun _ _ => .error "no such directory"
  run := fun w _ _ _ => (w, .error "executable file not found")

/-- A token of type `IDENT`. -/
def identToken (lit : String) : Token := ⟨.IDENT, lit⟩

/-! ## Reference definitions used in the statements -/

/-- One navigation step in the words of the specification: the current data must
be an object and the segment must exist as a key. -/
def stepInto {F : Type} (cur : Option (JVal F)) (key : String) : Option (JVal F) :=
  cur.bind (fun v => v.asMap.bind (fun obj => obj.lookup key))

/-- Field navigation as the specification words it, iterating over the segments:
start at the data, step into each segment in turn, any mismatch is not-found. -/
def accessFieldRef {F : Type} (data : JVal F) (path : List String) : Option (JVal F) :=
  path.foldl stepInto (some data)

/-- The comparison rules of `where`, in the order in which they are tried. -/
inductive Rule
  | numeric | boolean | text
  deriving DecidableEq, Repr

/-- The first applicable rule: numeric when the field is a number and the literal
parses as a number; else boolean when the field is a boolean and the literal
parses as a boolean; else the comparison of textual forms. -/
def selectedRule {F W : Type} (P : Platform F W) (field : JVal F) (literal : String) : Rule :=
  match field, P.parseFloat literal with
  | .number _, some _ => .numeric
  | _, _ =>
    match field, parseBool literal with
    | .bool _, some _ => .boolean
    | _, _ => .text

/-- The operators a rule supports: the six comparisons for the numeric rule,
`==` and `!=` for the boolean rule and for the textual rule. -/
def Rule.supports : Rule → String → Bool
  | .numeric, op =>
    decide (op = "==" ∨ op = "!=" ∨ op = ">" ∨ op = "<" ∨ op = ">=" ∨ op = "<=")
  | .boolean, op => decide (op = "==" ∨ op = "!=")
  | .text, op => decide (op = "==" ∨ op = "!=")

/-- The elements `where` keeps: the field at the path is found and the condition
evaluates to true. -/
def whereKeeps {F W : Type} (P : Platform F W) (path : List String) (op literal : String)
    (item : JVal F) : Bool :=
  match accessField item path with
  | some field =>
    match evaluateCondition P field op literal with
    | .ok true => true
    | _ => false
  | none => false

/-- The value that the last requested path which resolves in `d` and has `k` as
its final segment finds; `none` when no requested path is such. -/
def lastResolved {F : Type} (d : List (String × JVal F)) :
    List (List String) → String → Option (JVal F)
  | [], _ => none
  | path :: paths, k =>
    match lastResolved d paths k with
    | some v => some v
    | none => if path.getLast? = some k then accessField (.object d) path else none

/-- The projection of one array element by `select`: the object of the projected
fields when the element is an object in which some requested path resolves. -/
def selectElement {F : Type} (paths : List (List String)) (x : JVal F) : Option (JVal F) :=
  match x.asMap with
  | some m =>
    if paths.any (fun path => (accessField (.object m) path).isSome) then
      some (.object (processObject paths m))
    else none
  | none => none

/-- The lexer whose current character is the one at index `p` of the input: the
state `readChar` leaves when it reads index `p`. -/
def Lexer.atPos (input : String) (p : Nat) : Lexer :=
  ⟨input, p, p + 1, input.data.getD p NUL⟩

/-- A word that lexes as one `IDENT` token: not empty, no character of the
deny-list, not one of the 13 keywords, not starting with `;`, `,`, `>`, `<` or
`!`, and not the single character `.`. -/
def IdentWord (s : String) : Prop :=
  s ≠ "" ∧ (∀ c ∈ s.data, isIdentifierChar c = true) ∧
  s ∉ ["let", "cd", "vars", "exit", "get", "where", "select", "if", "else", "for",
    "def", "true", "false"] ∧
  (∀ c, s.data.head? = some c → c ≠ ';' ∧ c ≠ ',' ∧ c ≠ '>' ∧ c ≠ '<' ∧ c ≠ '!') ∧
  s ≠ "."

/-- The command node that `parseCommandExpression` builds for a name without
arguments that lexes as `IDENT`. -/
def bareCommand (name : String) : Expression :=
  .commandExpression (.mk ⟨.IDENT, name⟩ (.identifier ⟨.IDENT, name⟩ name) [])

/-! ## Parser states and token runs used in the statements about parsing -/

/-- The lexer states that `NewLexer` and `NextToken` produce: `readPosition` is
`position + 1` and `ch` is the character at `position`, or the rune `0` past the
end. -/
def Lexer.WellFormed (l : Lexer) : Prop :=
  l = Lexer.atPos l.input l.position

/-- A bound on the number of calls of `nextToken` after which `curToken` is `EOF`
for good: two for the tokens held in `curToken` and `peekToken`, and one for
each character the lexer has not read. -/
def Parser.remaining (p : Parser) : Nat :=
  if p.l.position < p.l.input.data.length then 2 + (p.l.input.data.length - p.l.position)
  else if p.peekToken.type ≠ .EOF then 2
  else if p.curToken.type ≠ .EOF then 1
  else 0

/-- The parser `p'` is a later state of the parser `p`: same input, a lexer in a
state that `NextToken` produces, no more tokens left than in `p`, and the error
list of `p` possibly extended. -/
structure Parser.Advances (p p' : Parser) : Prop where
  wf : p'.l.WellFormed
  input : p'.l.input = p.l.input
  remaining : p'.remaining ≤ p.remaining
  errors : p.errors <+: p'.errors

/-- The next `n + 1` tokens a parser will put in `curToken`: the one in
`peekToken` and the first `n` that its lexer returns. -/
def Parser.upcoming (p : Parser) (n : Nat) : List Token :=
  p.peekToken :: Lexer.tokens n p.l

/-- The token types that `parsePrimaryExpression` turns into a node without
reading further: `IDENT`, `STRING`, `INT`, the keywords `get`, `where`, `select`,
`true`, `false`, and the comparison operators. -/
def isArgumentToken (t : TokenType) : Bool :=
  t = .IDENT || t = .STRING || t = .INT || t = .GET || t = .WHERE || t = .SELECT ||
    t = .TRUE || t = .FALSE || t = .EQ || t = .NEQ || t = .GT || t = .LT || t = .GTE ||
    t = .LTE

/-- The argument node of a token: a `StringLiteral` for a `STRING` token, an
`Identifier` otherwise, with the literal of the token as value. -/
def argumentNode (t : Token) : Expression :=
  if t.type = .STRING then .stringLiteral t t.literal else .identifier t t.literal

/-- The tokens go `IDENT, DOT, IDENT, ..., IDENT`: at least one, an `IDENT` first
and last, a `DOT` between two of them. -/
def alternatesIdentDot : List Token → Bool
  | [] => false
  | [t] => t.type = .IDENT
  | t :: d :: rest => t.type = .IDENT && d.type = .DOT && alternatesIdentDot rest

/-- The literals of the tokens written one after the other. -/
def concatLiterals : List Token → String
  | [] => ""
  | t :: rest => t.literal ++ concatLiterals rest

/-! ## The lexer with the run-time panics of Go made explicit

The functions below read `lexer.go` a second time, with every index expression
`s[i]` and every slice expression `s[a:b]` returning `none` where Go raises a
run-time panic. The parser has no such expression: it reads the input only
through `nextToken`. -/

/-- The Go index expression `s[i]` on a string: `none` is the panic for an index
out of range. -/
def indexChecked (s : String) (i : Nat) : Option Char := s.data[i]?

/-- The Go slice expression `s[a:b]` on a string: `none` is the panic that Go
raises unless `a ≤ b ≤ len(s)`. -/
def sliceChecked (s : String) (a b : Nat) : Option String :=
  if a ≤ b ∧ b ≤ s.data.length then some (String.mk ((s.data.drop a).take (b - a))) else none

/-- The method `readChar`, `none` when `l.input[l.readPosition]` panics. -/
def Lexer.readCharChecked (l : Lexer) : Option Lexer :=
  if l.readPosition ≥ l.input.data.length then
    some { l with ch := NUL, position := l.readPosition, readPosition := l.readPosition + 1 }
  else
    match indexChecked l.input l.readPosition with
    | none => none
    | some c =>
      some { l with ch := c, position := l.readPosition, readPosition := l.readPosition + 1 }

/-- The function `NewLexer`, `none` when its `readChar` panics. -/
def NewLexerChecked (input : String) : Option Lexer :=
  Lexer.readCharChecked ⟨input, 0, 0, NUL⟩

/-- The method `peekChar`, `none` when `l.input[l.readPosition]` panics. -/
def Lexer.peekCharChecked (l : Lexer) : Option Char :=
  if l.readPosition ≥ l.input.data.length then some NUL
  else indexChecked l.input l.readPosition

/-- The loop `for cond(l.ch) { l.readChar() }`, `none` when a `readChar` panics. -/
def Lexer.readWhileChecked (cond : Char → Bool) : Nat → Lexer → Option Lexer
  | 0, l => some l
  | fuel + 1, l =>
    if cond l.ch then
      match l.readCharChecked with
      | none => none
      | some l1 => Lexer.readWhileChecked cond fuel l1
    else some l

/-- The method `skipWhitespace`, `none` when it panics. -/
def Lexer.skipWhitespaceChecked (l : Lexer) : Option Lexer :=
  Lexer.readWhileChecked isWhitespace (l.input.data.length + 1) l

/-- The method `readIdentifier`, `none` when a `readChar` or the slice
`l.input[position:l.position]` panics. -/
def Lexer.readIdentifierChecked (l : Lexer) : Option (String × Lexer) :=
  let position := l.position
  match Lexer.readWhileChecked isIdentifierChar (l.input.data.length + 1) l with
  | none => none
  | some l1 =>
    match sliceChecked l1.input position l1.position with
    | none => none
    | some literal => some (literal, l1)

/-- The method `readNumber`, `none` when a `readChar` or the slice
`l.input[position:l.position]` panics. -/
def Lexer.readNumberChecked (l : Lexer) : Option (String × Lexer) :=
  let position := l.position
  match Lexer.readWhileChecked isDigit (l.input.data.length + 1) l with
  | none => none
  | some l1 =>
    match sliceChecked l1.input position l1.position with
    | none => none
    | some literal => some (literal, l1)

/-- The loop of `readString`, `none` when a `readChar` panics. -/
def Lexer.readStringLoopChecked (quote : Char) : Nat → Lexer → Option Lexer
  | 0, l => some l
  | fuel + 1, l =>
    match l.readCharChecked with
    | none => none
    | some l1 =>
      if l1.ch = quote ∨ l1.ch = NUL then some l1
      else Lexer.readStringLoopChecked quote fuel l1

/-- The method `readString`, `none` when a `readChar` or the slice
`l.input[position:l.position]` panics. -/
def Lexer.readStringChecked (l : Lexer) (quote : Char) : Option (String × Lexer) :=
  let position := l.position + 1
  match Lexer.readStringLoopChecked quote (l.input.data.length + 1) l with
  | none => none
  | some l1 =>
    match sliceChecked l1.input position l1.position with
    | none => none
    | some literal => some (literal, l1)

/-- The end of `NextToken` once the token is set: the closing `l.readChar()`
and `return tok`; `none` when the `readChar` panics. -/
def Lexer.finishChecked (l : Lexer) (tok : Token) : Option (Token × Lexer) :=
  match l.readCharChecked with
  | none => none
  | some l1 => some (tok, l1)

/-- The two-character operators of `NextToken`, `none` when `peekChar` or a
`readChar` panics. -/
def Lexer.oneOrTwoChecked (l : Lexer) (two one : TokenType) : Option (Token × Lexer) :=
  match l.peekCharChecked with
  | none => none
  | some next =>
    if next = '=' then
      match l.readCharChecked with
      | none => none
      | some l1 => l1.finishChecked ⟨two, String.singleton l.ch ++ String.singleton l1.ch⟩
    else l.finishChecked (newToken one l.ch)

/-- The method `NextToken`, `none` when any index or slice expression it
reaches panics. -/
def Lexer.NextTokenChecked (l0 : Lexer) : Option (Token × Lexer) :=
  match l0.skipWhitespaceChecked with
  | none => none
  | some l =>
    if l.ch = '=' then l.oneOrTwoChecked .EQ .ASSIGN
    else if l.ch = '|' then l.finishChecked (newToken .PIPE l.ch)
    else if l.ch = ';' then l.finishChecked (newToken .SEMICOLON l.ch)
    else if l.ch = '(' then l.finishChecked (newToken .LPAREN l.ch)
    else if l.ch = ')' then l.finishChecked (newToken .RPAREN l.ch)
    else if l.ch = Char.ofNat 123 then l.finishChecked (newToken .LBRACE l.ch)
    else if l.ch = Char.ofNat 125 then l.finishChecked (newToken .RBRACE l.ch)
    else if l.ch = '[' then l.finishChecked (newToken .LBRACKET l.ch)
    else if l.ch = ']' then l.finishChecked (newToken .RBRACKET l.ch)
    else if l.ch = ',' then l.finishChecked (newToken .COMMA l.ch)
    else if l.ch = '.' then
      match l.peekCharChecked with
      | none => none
      | some next =>
        if !isIdentifierChar next then l.finishChecked (newToken .DOT l.ch)
        else
          match l.readIdentifierChecked with
          | none => none
          | some (literal, l1) => some (⟨LookupIdent literal, literal⟩, l1)
    else if l.ch = '>' then l.oneOrTwoChecked .GTE .GT
    else if l.ch = '<' then l.oneOrTwoChecked .LTE .LT
    else if l.ch = '!' then l.oneOrTwoChecked .NEQ .ILLEGAL
    else if l.ch = Char.ofNat 34 ∨ l.ch = Char.ofNat 39 then
      match l.readStringChecked l.ch with
      | none => none
      | some (literal, l1) => l1.finishChecked ⟨.STRING, literal⟩
    else if l.ch = NUL then l.finishChecked ⟨.EOF, ""⟩
    else if isIdentifierChar l.ch then
      match l.readIdentifierChecked with
      | none => none
      | some (literal, l1) => some (⟨LookupIdent literal, literal⟩, l1)
    else if isDigit l.ch then
      match l.readNumberChecked with
      | none => none
      | some (literal, l1) => some (⟨.INT, literal⟩, l1)
    else l.finishChecked (newToken .ILLEGAL l.ch)

/-- The method `nextToken` of the parser, `none` when `NextToken` panics. -/
def Parser.nextTokenChecked (p : Parser) : Option Parser :=
  match p.l.NextTokenChecked with
  | none => none
  | some (tok, l1) => some { p with curToken := p.peekToken, peekToken := tok, l := l1 }

/-- The function `NewParser`, `none` when one of its two calls of `nextToken`
panics. -/
def NewParserChecked (l : Lexer) : Option Parser :=
  match l.NextTokenChecked with
  | none => none
  | some (t1, l1) =>
    match l1.NextTokenChecked with
    | none => none
    | some (t2, l2) => some ⟨l2, [], t1, t2⟩

/-! ## The parser over the lexer with explicit panics

The parser has no index, slice or type-assertion expression of its own and
dereferences no pointer that can be nil; it can only fail through `nextToken`.
The functions below read `parser.go` a second time with `nextTokenChecked` in
the place of `nextToken`; `none` is a panic raised in the lexer. -/

/-- The method `expectPeek`, `none` when `nextToken` panics. -/
def Parser.expectPeekChecked (p : Parser) (t : TokenType) : Option (Bool × Parser) :=
  if p.peekTokenIs t then
    match p.nextTokenChecked with
    | none => none
    | some p1 => some (true, p1)
  else some (false, p.peekError t)

/-- The loop of `parsePathExpression`, `none` when `nextToken` panics. -/
def Parser.parsePathLoopChecked : Nat → Parser → String → Option (String × Parser)
  | 0, p, path => some (path, p)
  | fuel + 1, p, path =>
    if p.curTokenIs .DOT && p.peekTokenIs .IDENT then
      match p.nextTokenChecked with
      | none => none
      | some p1 => Parser.parsePathLoopChecked fuel p1 (path ++ p1.curToken.literal)
    else if p.curTokenIs .IDENT && p.peekTokenIs .DOT then
      match p.nextTokenChecked with
      | none => none
      | some p1 => Parser.parsePathLoopChecked fuel p1 (path ++ p1.curToken.literal)
    else some (path, p)

/-- The method `parsePathExpression`, `none` when `nextToken` panics. -/
def Parser.parsePathExpressionChecked (p : Parser) : Option (Option Expression × Parser) :=
  let startToken := p.curToken
  match Parser.parsePathLoopChecked p.fuel p p.curToken.literal with
  | none => none
  | some (path, p1) => some (some (.identifier startToken path), p1)

/-- The method `parsePrimaryExpression`, `none` when `nextToken` panics. -/
def Parser.parsePrimaryExpressionChecked (p : Parser) : Option (Option Expression × Parser) :=
  match p.curToken.type with
  | .IDENT | .GET | .WHERE | .SELECT | .INT | .TRUE | .FALSE
  | .EQ | .NEQ | .GT | .LT | .GTE | .LTE =>
    some (some (.identifier p.curToken p.curToken.literal), p)
  | .STRING => some (some (.stringLiteral p.curToken p.curToken.literal), p)
  | .DOT => p.parsePathExpressionChecked
  | _ =>
    some (none, { p with errors := p.errors ++
      ["no se pudo parsear la expresión que empieza con " ++ apostrophe ++
        p.curToken.literal ++ apostrophe] })

/-- The argument loop of `parseCommandExpression`, `none` when `nextToken`
panics. -/
def Parser.parseArgsLoopChecked :
    Nat → Parser → List Expression → Option (List Expression × Parser)
  | 0, p, args => some (args, p)
  | fuel + 1, p, args =>
    if !p.peekTokenIs .PIPE && !p.peekTokenIs .EOF then
      match p.nextTokenChecked with
      | none => none
      | some p0 =>
        match p0.parsePrimaryExpressionChecked with
        | none => none
        | some (some arg, p1) => Parser.parseArgsLoopChecked fuel p1 (args ++ [arg])
        | some (none, p1) => Parser.parseArgsLoopChecked fuel p1 args
    else some (args, p)

/-- The method `parseCommandExpression`, `none` when `nextToken` panics. -/
def Parser.parseCommandExpressionChecked (p : Parser) : Option (Option Expression × Parser) :=
  if !p.isCommandStartToken then some (none, p)
  else
    match Parser.parseArgsLoopChecked p.fuel p [] with
    | none => none
    | some (args, p1) =>
      some (some (.commandExpression (.mk p.curToken (.identifier p.curToken p.curToken.literal)
        args)), p1)

/-- The method `parseExpression` with the number of nested calls allowed, `none`
when `nextToken` panics. -/
def Parser.parseExpressionFuelChecked : Nat → Parser → Option (Option Expression × Parser)
  | 0, p => some (none, p)
  | fuel + 1, p =>
    match (if p.isCommandStartToken then p.parseCommandExpressionChecked
      else p.parsePrimaryExpressionChecked) with
    | none => none
    | some (left, p1) =>
      if p1.peekTokenIs .PIPE then
        match left with
        | none =>
          some (none, { p1 with errors := p1.errors ++
            ["expresión inválida antes del pipe " ++ apostrophe ++ "|" ++ apostrophe] })
        | some leftExpr =>
          match p1.nextTokenChecked with
          | none => none
          | some p2 =>
            let pipeToken := p2.curToken
            match p2.nextTokenChecked with
            | none => none
            | some p3 =>
              match Parser.parseExpressionFuelChecked fuel p3 with
              | none => none
              | some (none, p4) =>
                some (none, { p4 with errors := p4.errors ++
                  ["expresión vacía o inválida después del pipe " ++ apostrophe ++ "|" ++
                    apostrophe] })
              | some (some right, p4) =>
                some (some (.pipelineExpression pipeToken leftExpr right), p4)
      else some (left, p1)

/-- The method `parseExpression`, `none` when `nextToken` panics. -/
def Parser.parseExpressionChecked (p : Parser) : Option (Option Expression × Parser) :=
  Parser.parseExpressionFuelChecked p.fuel p

/-- The method `parseLetStatement`, `none` when `nextToken` panics. -/
def Parser.parseLetStatementChecked (p : Parser) : Option (Option LetStatement × Parser) :=
  let token := p.curToken
  match p.expectPeekChecked .IDENT with
  | none => none
  | some (false, p1) => some (none, p1)
  | some (true, p1) =>
    let name : Identifier := ⟨p1.curToken, p1.curToken.literal⟩
    match p1.expectPeekChecked .ASSIGN with
    | none => none
    | some (false, p2) => some (none, p2)
    | some (true, p2) =>
      match p2.nextTokenChecked with
      | none => none
      | some p2n =>
        match p2n.parseExpressionChecked with
        | none => none
        | some (none, p3) =>
          some (none, { p3 with errors := p3.errors ++
            ["no se encontró una expresión válida después de " ++ apostrophe ++ "=" ++
              apostrophe ++ " en la declaración let"] })
        | some (some value, p3) => some (some ⟨token, name, value⟩, p3)

/-- The method `parseExpressionStatement`, `none` when `nextToken` panics. -/
def Parser.parseExpressionStatementChecked (p : Parser) :
    Option (Option ExpressionStatement × Parser) :=
  let token := p.curToken
  match p.parseExpressionChecked with
  | none => none
  | some (none, p1) => some (none, p1)
  | some (some expression, p1) => some (some ⟨token, expression⟩, p1)

/-- The method `parseStatement`, `none` when `nextToken` panics. -/
def Parser.parseStatementChecked (p : Parser) : Option (Option Statement × Parser) :=
  match p.curToken.type with
  | .LET =>
    match p.parseLetStatementChecked with
    | none => none
    | some (some stmt, p1) => some (some (.letStatement stmt.token stmt.name stmt.value), p1)
    | some (none, p1) => some (some .nilLetStatement, p1)
  | _ =>
    match p.parseExpressionStatementChecked with
    | none => none
    | some (some stmt, p1) => some (some (.expressionStatement stmt.token stmt.expression), p1)
    | some (none, p1) => some (some .nilExpressionStatement, p1)

/-- The loop of `ParseProgram`, `none` when `nextToken` panics. -/
def Parser.parseProgramLoopChecked :
    Nat → Parser → List Statement → Option (List Statement × Parser)
  | 0, p, statements => some (statements, p)
  | fuel + 1, p, statements =>
    if p.curToken.type ≠ .EOF then
      match p.parseStatementChecked with
      | none => none
      | some (some stmt, p1) =>
        match p1.nextTokenChecked with
        | none => none
        | some p2 => Parser.parseProgramLoopChecked fuel p2 (statements ++ [stmt])
      | some (none, p1) =>
        match p1.nextTokenChecked with
        | none => none
        | some p2 => Parser.parseProgramLoopChecked fuel p2 statements
    else some (statements, p)

/-- The method `ParseProgram`, `none` when `nextToken` panics. -/
def Parser.ParseProgramChecked (p : Parser) : Option (Program × Parser) :=
  match Parser.parseProgramLoopChecked p.fuel p [] with
  | none => none
  | some (statements, p1) => some (⟨statements⟩, p1)

/-- The call `NewParser(NewLexer(input)).ParseProgram()` of the shell with its
parser afterwards, `none` when an index or slice expression panics on the way. -/
def parseChecked (input : String) : Option (Program × Parser) :=
  match NewLexerChecked input with
  | none => none
  | some l =>
    match NewParserChecked l with
    | none => none
    | some p => p.ParseProgramChecked

/-! ## Theorems -/

section Navigation

variable {F W : Type}

theorem foldl_stepInto_none (path : List String) :
    path.foldl stepInto (none : Option (JVal F)) = none := by
  induction path with
  | nil => rfl
  | cons k rest ih => simpa [List.foldl, stepInto] using ih

theorem accessField_eq_ref (path : List String) :
    ∀ d : JVal F, accessField d path = accessFieldRef d path := by
  induction path with
  | nil => intro d; rfl
  | cons k rest ih =>
    intro d
    cases d with
    | object obj =>
      cases hk : obj.lookup k with
      | none =>
        simp [accessField, accessFieldRef, List.foldl, stepInto, JVal.asMap, hk,
          foldl_stepInto_none]
      | some v =>
        have h := ih v
        simp only [accessFieldRef] at h
        simp [accessField, accessFieldRef, List.foldl, stepInto, JVal.asMap, hk, h]
    | _ =>
      simp [accessField, accessFieldRef, List.foldl, stepInto, JVal.asMap, foldl_stepInto_none]

theorem accessField_nonObject (d : JVal F) (k : String) (rest : List String)
    (h : d.asMap = none) : accessField d (k :: rest) = none := by
  cases d <;> simp_all [accessField, JVal.asMap]

/-- C9: `accessField` equals its reference definition: on the empty path the data
itself is found; on `k :: rest` with an object that has key `k` navigation
continues into `d[k]` with `rest`; in every other case (the data is not an
object, or `k` is not one of its keys) the result is not-found. It also agrees
with the iteration over the segments that the specification describes. -/
theorem accessField_reference (d : JVal F) (k : String) (rest path : List String) :
    accessField d [] = some d ∧
    (∀ obj v, d = .object obj → obj.lookup k = some v →
      accessField d (k :: rest) = accessField v rest) ∧
    (d.asMap = none → accessField d (k :: rest) = none) ∧
    (∀ obj, d = .object obj → obj.lookup k = none → accessField d (k :: rest) = none) ∧
    accessField d path = accessFieldRef d path := by
  refine ⟨rfl, ?_, accessField_nonObject d k rest, ?_, accessField_eq_ref path d⟩
  · intro obj v hd hk
    subst hd
    simp [accessField, hk]
  · intro obj hd hk
    subst hd
    simp [accessField, hk]

/-- C9, evaluated on `{"a":{"b":"v"}}`: the path `a.b` finds `"v"`, the path
`a.c` and a step into the string are not-found. -/
theorem accessField_reference_witness :
    accessField (F := Int) (.object [("a", .object [("b", .string "v")])]) ["a", "b"]
      = accessField (.object [("b", .string "v")]) ["b"] ∧
    accessField (F := Int) (.string "s") ["a", "b"] = none ∧
    accessField (F := Int) (.object [("b", .string "v")]) ["c"] = none :=
  ⟨(accessField_reference (.object [("a", .object [("b", .string "v")])]) "a" ["b"] []).2.1
      _ _ rfl rfl,
   (accessField_reference (.string "s") "a" ["b"] []).2.2.1 rfl,
   (accessField_reference (.object [("b", .string "v")]) "c" [] []).2.2.2.1 _ rfl rfl⟩

theorem getLoop_eq (path : List String) (items : List (JVal F)) :
    ∀ results, getLoop path items results
      = results ++ items.filterMap (fun item => accessField item path) := by
  induction items with
  | nil => intro results; simp [getLoop]
  | cons item items ih =>
    intro results
    cases h : accessField item path with
    | none => simp [getLoop, h, ih, List.filterMap_cons]
    | some v => simp [getLoop, h, ih, List.filterMap_cons]

theorem appendAll_asSlice (l : List (JVal F)) : (appendAll l).asSlice = some l := by
  cases l <;> rfl

end Navigation

section Get

variable {F W : Type}

/-- C2: `get` on an object input. With `segments = parsePath p` (one leading `.`
removed, then split on `.`), `builtinGet` returns `Null` when `accessField` does
not find the path, a `String` holding the textual form when the found value is a
number, a string or a boolean, and a `Json` wrapping the found value when it is
an object or an array. -/
theorem builtinGet_object (P : Platform F W) (d : List (String × JVal F)) (p : String) :
    (accessField (.object d) (parsePath p) = none →
      builtinGet P (some (.json (.object d))) [.string p] = .null) ∧
    (∀ x, accessField (.object d) (parsePath p) = some (.number x) →
      builtinGet P (some (.json (.object d))) [.string p] = .string (P.formatFloat x)) ∧
    (∀ t, accessField (.object d) (parsePath p) = some (.string t) →
      builtinGet P (some (.json (.object d))) [.string p] = .string t) ∧
    (∀ b, accessField (.object d) (parsePath p) = some (.bool b) →
      builtinGet P (some (.json (.object d))) [.string p]
        = .string (if b then "true" else "false")) ∧
    (∀ v, accessField (.object d) (parsePath p) = some v →
      (v.asMap.isSome ∨ v.asSlice.isSome) →
      builtinGet P (some (.json (.object d))) [.string p] = .json v) := by
  refine ⟨?_, ?_, ?_, ?_, ?_⟩
  · intro h
    simp [builtinGet, h]
  · intro x h
    simp [builtinGet, h, nativeToNshObject, sprintV]
  · intro t h
    simp [builtinGet, h, nativeToNshObject, sprintV]
  · intro b h
    simp [builtinGet, h, nativeToNshObject, sprintV]
  · intro v h hv
    cases v <;> simp_all [builtinGet, nativeToNshObject, JVal.asMap, JVal.asSlice]

/-- C2, evaluated: `get .x.y` on `{"x":{"y":5}}` is the `String` `"5"`, and on
`{"x":1}` it is `Null`. -/
theorem builtinGet_object_witness :
    builtinGet examplePlatform (some (.json (.object [("x", .object [("y", .number 5)])])))
      [.string ".x.y"] = .string "5" ∧
    builtinGet examplePlatform (some (.json (.object [("x", .number 1)])))
      [.string ".x.y"] = .null :=
  ⟨(builtinGet_object examplePlatform [("x", .object [("y", .number 5)])] ".x.y").2.1 5 rfl,
   (builtinGet_object examplePlatform [("x", .number 1)] ".x.y").1 rfl⟩

theorem length_filterMap_eq_countP {α β : Type} (f : α → Option β) (xs : List α) :
    (xs.filterMap f).length = xs.countP (fun x => (f x).isSome) := by
  induction xs with
  | nil => rfl
  | cons x xs ih =>
    cases h : f x <;> simp [List.filterMap_cons, List.countP_cons, h, ih]

/-- C3: `get` on an array input. For a `Json` array with elements `xs`,
`builtinGet` returns a `Json` array whose elements are exactly the values
`accessField x (parsePath p)` of the elements `x` where the path is found, in
input order and without a placeholder for the others; its length is the number
of elements of `xs` in which the path resolves. -/
theorem builtinGet_array (P : Platform F W) (v : JVal F) (xs : List (JVal F)) (p : String)
    (h : v.asSlice = some xs) :
    ∃ r, builtinGet P (some (.json v)) [.string p] = .json r ∧
      r.asSlice = some (xs.filterMap (fun x => accessField x (parsePath p))) ∧
      (xs.filterMap (fun x => accessField x (parsePath p))).length
        = xs.countP (fun x => (accessField x (parsePath p)).isSome) := by
  refine ⟨appendAll (xs.filterMap (fun x => accessField x (parsePath p))), ?_,
    appendAll_asSlice _, length_filterMap_eq_countP _ _⟩
  cases v <;> simp_all [builtinGet, JVal.asSlice, getLoop_eq]

/-- C3, evaluated: `get .x` on `[{"x":1},{"y":2}]` is an array of exactly one
element, `1`. -/
theorem builtinGet_array_witness :
    ∃ r, builtinGet examplePlatform
        (some (.json (.array [.object [("x", .number 1)], .object [("y", .number 2)]])))
        [.string ".x"] = .json r ∧
      r.asSlice = some [.number 1] ∧ ([.number 1] : List (JVal Int)).length = 1 :=
  builtinGet_array examplePlatform
    (.array [.object [("x", .number 1)], .object [("y", .number 2)]])
    [.object [("x", .number 1)], .object [("y", .number 2)]] ".x" rfl

end Get

section Where

variable {F W : Type}

theorem whereLoop_ok (P : Platform F W) (path : List String) (op lit : String)
    (items : List (JVal F))
    (hok : ∀ item ∈ items, ∀ fv, accessField item path = some fv →
      ∃ b, evaluateCondition P fv op lit = .ok b) :
    ∀ results, whereLoop P path op lit items results
      = .ok (results ++ items.filter (whereKeeps P path op lit)) := by
  induction items with
  | nil => intro results; simp [whereLoop]
  | cons item items ih =>
    intro results
    have ih2 := ih (fun it hit fv hfv => hok it (List.mem_cons_of_mem _ hit) fv hfv)
    cases h : accessField item path with
    | none => simp [whereLoop, h, ih2, whereKeeps, List.filter_cons]
    | some fv =>
      obtain ⟨b, hb⟩ := hok item (List.mem_cons_self _ _) fv h
      cases b <;> simp [whereLoop, h, hb, ih2, whereKeeps, List.filter_cons]

theorem whereLoop_error_iff (P : Platform F W) (path : List String) (op lit : String)
    (items : List (JVal F)) :
    ∀ results, (∃ msg, whereLoop P path op lit items results = .error msg) ↔
      ∃ item ∈ items, ∃ fv, accessField item path = some fv ∧
        ∃ e, evaluateCondition P fv op lit = .error e := by
  induction items with
  | nil => intro results; simp [whereLoop]
  | cons item items ih =>
    intro results
    cases h : accessField item path with
    | none =>
      simp only [whereLoop, h, ih, List.mem_cons]
      constructor
      · rintro ⟨it, hit, fv, hfv, he⟩
        exact ⟨it, Or.inr hit, fv, hfv, he⟩
      · rintro ⟨it, hit | hit, fv, hfv, he⟩
        · subst hit; rw [h] at hfv; cases hfv
        · exact ⟨it, hit, fv, hfv, he⟩
    | some fv0 =>
      cases hc : evaluateCondition P fv0 op lit with
      | error e0 =>
        simp only [whereLoop, h, hc]
        constructor
        · intro _
          exact ⟨item, List.mem_cons_self _ _, fv0, h, e0, hc⟩
        · intro _
          exact ⟨_, rfl⟩
      | ok b =>
        have key : (∃ msg, whereLoop P path op lit (item :: items) results = .error msg) ↔
            ∃ it ∈ items, ∃ fv, accessField it path = some fv ∧
              ∃ e, evaluateCondition P fv op lit = .error e := by
          cases b
          · simp only [whereLoop, h, hc]
            simpa using ih results
          · simp only [whereLoop, h, hc]
            simpa using ih (results ++ [item])
        rw [key]
        constructor
        · rintro ⟨it, hit, fv, hfv, he⟩
          exact ⟨it, List.mem_cons_of_mem _ hit, fv, hfv, he⟩
        · rintro ⟨it, hit, fv, hfv, e, he⟩
          rcases List.mem_cons.mp hit with hit | hit
          · subst hit
            rw [h] at hfv
            cases hfv
            rw [hc] at he
            cases he
          · exact ⟨it, hit, fv, hfv, e, he⟩

theorem evaluateCondition_numeric (P : Platform F W) (x y : F) (op lit : String)
    (hy : P.parseFloat lit = some y) :
    evaluateCondition P (.number x) op lit =
      if op = "==" then .ok (P.feq x y)
      else if op = "!=" then .ok (!P.feq x y)
      else if op = ">" then .ok (P.flt y x)
      else if op = "<" then .ok (P.flt x y)
      else if op = ">=" then .ok (P.fle y x)
      else if op = "<=" then .ok (P.fle x y)
      else .error ("operador numérico desconocido: " ++ op) := by
  simp [evaluateCondition, hy]

theorem evaluateCondition_boolean (P : Platform F W) (b c : Bool) (op lit : String)
    (hc : parseBool lit = some c) :
    evaluateCondition P (.bool b) op lit =
      if op = "==" then .ok (b == c)
      else if op = "!=" then .ok (b != c)
      else .error ("operador booleano no válido: " ++ op) := by
  simp [evaluateCondition, compareBools, hc]

theorem evaluateCondition_text (P : Platform F W) (lhs : JVal F) (op lit : String)
    (h1 : ∀ x y, lhs = .number x → P.parseFloat lit ≠ some y)
    (h2 : ∀ b c, lhs = .bool b → parseBool lit ≠ some c) :
    evaluateCondition P lhs op lit = compareStrings P lhs op lit := by
  cases lhs with
  | number x =>
    cases hp : P.parseFloat lit with
    | none => simp [evaluateCondition, compareBools, hp]
    | some y => exact absurd hp (h1 x y rfl)
  | bool b =>
    cases hp : parseBool lit with
    | none => simp [evaluateCondition, compareBools, hp]
    | some c => exact absurd hp (h2 b c rfl)
  | _ => simp [evaluateCondition, compareBools]

theorem selectedRule_text_iff (P : Platform F W) (lhs : JVal F) (lit : String) :
    selectedRule P lhs lit = .text ↔
      (∀ x y, lhs = .number x → P.parseFloat lit ≠ some y) ∧
      (∀ b c, lhs = .bool b → parseBool lit ≠ some c) := by
  cases lhs with
  | number x => cases hp : P.parseFloat lit <;> simp [selectedRule, hp]
  | bool b => cases hp : parseBool lit <;> simp [selectedRule, hp]
  | _ => simp [selectedRule]

theorem evaluateCondition_error_iff (P : Platform F W) (fv : JVal F) (op lit : String) :
    (∃ e, evaluateCondition P fv op lit = .error e) ↔
      (selectedRule P fv lit).supports op = false := by
  cases hr : selectedRule P fv lit with
  | numeric =>
    cases fv with
    | number x =>
      cases hp : P.parseFloat lit with
      | none => simp [selectedRule, hp] at hr
      | some y =>
        rw [evaluateCondition_numeric P x y op lit hp]
        simp only [Rule.supports]
        split_ifs <;> simp_all
    | _ => simp [selectedRule] at hr <;> (split at hr <;> cases hr)
  | boolean =>
    cases fv with
    | bool b =>
      cases hp : parseBool lit with
      | none => simp [selectedRule, hp] at hr
      | some c =>
        rw [evaluateCondition_boolean P b c op lit hp]
        simp only [Rule.supports]
        split_ifs <;> simp_all
    | number x =>
      cases hp : P.parseFloat lit <;> simp [selectedRule, hp] at hr
    | _ => simp [selectedRule] at hr
  | text =>
    obtain ⟨h1, h2⟩ := (selectedRule_text_iff P fv lit).mp hr
    rw [evaluateCondition_text P fv op lit h1 h2]
    simp only [Rule.supports, compareStrings]
    split_ifs <;> simp_all

/-- C4: `where` is an order-preserving filter. For a `Json` array input with
elements `items` (or a `Json` object input, taken as the one-element array
holding it) and three `String` arguments for which no comparison fails,
`builtinWhere` returns a `Json` array holding exactly the input elements,
unchanged and in input order, whose field at the path is found and for which
`evaluateCondition` is true. -/
theorem builtinWhere_filter (P : Platform F W) (v : JVal F) (items : List (JVal F))
    (p op lit : String)
    (hv : v.asSlice = some items ∨ ∃ m, v = .object m ∧ items = [v])
    (hok : ∀ item ∈ items, ∀ fv, accessField item (parsePath p) = some fv →
      ∃ b, evaluateCondition P fv op lit = .ok b) :
    ∃ r, builtinWhere P (some (.json v)) [.string p, .string op, .string lit] = .json r ∧
      r.asSlice = some (items.filter (whereKeeps P (parsePath p) op lit)) := by
  refine ⟨appendAll (items.filter (whereKeeps P (parsePath p) op lit)), ?_,
    appendAll_asSlice _⟩
  have hloop := whereLoop_ok P (parsePath p) op lit items hok []
  rcases hv with hv | ⟨m, hm, hitems⟩
  · cases v <;> simp_all [builtinWhere, JVal.asSlice]
  · subst hm
    subst hitems
    simp_all [builtinWhere, JVal.asSlice, JVal.asMap]

/-- C4, evaluated: `where .age > "30"` on `[{"age":25},{"age":35}]` is the array
`[{"age":35}]`. -/
theorem builtinWhere_filter_witness :
    ∃ r, builtinWhere examplePlatform
        (some (.json (.array [.object [("age", .number 25)], .object [("age", .number 35)]])))
        [.string ".age", .string ">", .string "30"] = .json r ∧
      r.asSlice = some [.object [("age", .number 35)]] :=
  builtinWhere_filter examplePlatform
    (.array [.object [("age", .number 25)], .object [("age", .number 35)]])
    [.object [("age", .number 25)], .object [("age", .number 35)]] ".age" ">" "30"
    (Or.inl rfl)
    (by
      intro item hitem fv hfv
      simp only [List.mem_cons, List.mem_singleton, List.not_mem_nil, or_false] at hitem
      rcases hitem with h | h
      · subst h
        cases hfv
        exact ⟨false, rfl⟩
      · subst h
        cases hfv
        exact ⟨true, rfl⟩)

/-- C5: the comparison policy of `where` is decided by the first applicable rule.
(1) The field is a number and the literal parses as a number: the numeric
comparison under `==`, `!=`, `>`, `<`, `>=`, `<=`. (2) The field is a boolean and
the literal parses as a boolean: boolean `==` and `!=`. (3) Otherwise: `==` and
`!=` between the textual form of the field and the literal, unquoted when it is a
valid quoted-string escape. In particular a numeric field against the literal
`10` under `<` is compared as numbers, and a numeric field against a literal
that does not parse as a number is compared as strings. -/
theorem evaluateCondition_policy (P : Platform F W) (lhs : JVal F) (op lit : String) :
    (∀ x y, lhs = .number x → P.parseFloat lit = some y →
      evaluateCondition P lhs "==" lit = .ok (P.feq x y) ∧
      evaluateCondition P lhs "!=" lit = .ok (!P.feq x y) ∧
      evaluateCondition P lhs ">" lit = .ok (P.flt y x) ∧
      evaluateCondition P lhs "<" lit = .ok (P.flt x y) ∧
      evaluateCondition P lhs ">=" lit = .ok (P.fle y x) ∧
      evaluateCondition P lhs "<=" lit = .ok (P.fle x y)) ∧
    (∀ b c, lhs = .bool b → parseBool lit = some c →
      evaluateCondition P lhs "==" lit = .ok (b == c) ∧
      evaluateCondition P lhs "!=" lit = .ok (b != c)) ∧
    ((∀ x y, lhs = .number x → P.parseFloat lit ≠ some y) →
      (∀ b c, lhs = .bool b → parseBool lit ≠ some c) →
      evaluateCondition P lhs "==" lit
        = .ok (sprintV P lhs == (P.unquote (dquote ++ lit ++ dquote)).getD lit) ∧
      evaluateCondition P lhs "!=" lit
        = .ok (sprintV P lhs != (P.unquote (dquote ++ lit ++ dquote)).getD lit)) ∧
    (∀ x y, P.parseFloat "10" = some y →
      evaluateCondition P (.number x) "<" "10" = .ok (P.flt x y)) ∧
    (∀ x, lhs = .number x → P.parseFloat lit = none →
      evaluateCondition P lhs op lit = compareStrings P lhs op lit) := by
  refine ⟨?_, ?_, ?_, ?_, ?_⟩
  · intro x y hl hy
    subst hl
    simp [evaluateCondition_numeric P x y _ lit hy]
  · intro b c hl hc
    subst hl
    simp [evaluateCondition_boolean P b c _ lit hc]
  · intro h1 h2
    simp [evaluateCondition_text P lhs _ lit h1 h2, compareStrings]
  · intro x y hy
    simp [evaluateCondition_numeric P x y _ "10" hy]
  · intro x hl hp
    subst hl
    exact evaluateCondition_text P _ op lit (fun x y _ h => by simp [hp] at h)
      (fun b c h => by cases h)

/-- C5, evaluated: the number `9` against the literal `10` under `<` is true
(as texts, character by character, `9` is not below `10`); the boolean `true` equals the literal `1`;
the number `9` against the literal `abc` is compared as the texts `9` and `abc`;
the string `Ann` equals the literal `Ann`. -/
theorem evaluateCondition_policy_witness :
    evaluateCondition examplePlatform (.number 9) "<" "10" = .ok true ∧
    ¬ ("9".data < "10".data) ∧
    evaluateCondition examplePlatform (.bool true) "==" "1" = .ok true ∧
    evaluateCondition examplePlatform (.number 9) "==" "abc" = .ok false ∧
    evaluateCondition examplePlatform (.number 9) "!=" "abc"
      = compareStrings examplePlatform (.number 9) "!=" "abc" ∧
    evaluateCondition examplePlatform (.string "Ann") "==" "Ann" = .ok true :=
  ⟨(evaluateCondition_policy examplePlatform (.number 9) "<" "10").2.2.2.1 9 10 rfl,
   by decide,
   ((evaluateCondition_policy examplePlatform (.bool true) "==" "1").2.1
      true true rfl rfl).1,
   ((evaluateCondition_policy examplePlatform (.number 9) "==" "abc").2.2.1
      (fun x y _ h => by cases h) (fun b c h => by cases h)).1,
   (evaluateCondition_policy examplePlatform (.number 9) "!=" "abc").2.2.2.2 9 rfl rfl,
   ((evaluateCondition_policy examplePlatform (.string "Ann") "==" "Ann").2.2.1
      (fun x y h => by cases h) (fun b c h => by cases h)).1⟩

/-- C6: `where` fails exactly on an unsupported operator/type combination. For a
`Json` array or object input with elements `items` and three `String`
arguments, `builtinWhere` returns an `Error` object if and only if some element
whose field at the path is found selects a comparison rule that does not support
the operator; otherwise it returns a `Json` array. An `Error` is never a
partial array. -/
theorem builtinWhere_error_iff (P : Platform F W) (v : JVal F) (items : List (JVal F))
    (p op lit : String)
    (hv : v.asSlice = some items ∨ ∃ m, v = .object m ∧ items = [v]) :
    (isError (some (builtinWhere P (some (.json v)) [.string p, .string op, .string lit]))
        = true ↔
      ∃ item ∈ items, ∃ fv, accessField item (parsePath p) = some fv ∧
        (selectedRule P fv lit).supports op = false) ∧
    (isError (some (builtinWhere P (some (.json v)) [.string p, .string op, .string lit]))
        = false →
      ∃ r l, builtinWhere P (some (.json v)) [.string p, .string op, .string lit] = .json r ∧
        r.asSlice = some l) := by
  have hitems : builtinWhere P (some (.json v)) [.string p, .string op, .string lit] =
      match whereLoop P (parsePath p) op lit items [] with
      | .error msg => .error msg
      | .ok results => .json (appendAll results) := by
    rcases hv with hv | ⟨m, hm, hitems⟩
    · cases v <;> simp_all [builtinWhere, JVal.asSlice]
    · subst hm
      subst hitems
      simp [builtinWhere, JVal.asSlice, JVal.asMap]
  have hiff := whereLoop_error_iff P (parsePath p) op lit items []
  simp only [evaluateCondition_error_iff] at hiff
  rw [hitems]
  cases hl : whereLoop P (parsePath p) op lit items [] with
  | error msg =>
    refine ⟨⟨fun _ => hiff.mp ⟨msg, hl⟩, fun _ => rfl⟩, ?_⟩
    intro h
    simp [isError] at h
  | ok results =>
    refine ⟨⟨?_, ?_⟩, fun _ => ⟨_, _, rfl, appendAll_asSlice results⟩⟩
    · intro h
      simp [isError] at h
    · intro h
      obtain ⟨msg, hmsg⟩ := hiff.mpr h
      rw [hl] at hmsg
      cases hmsg

/-- C6, evaluated: `where .name > "A"` on `[{"name":"Ann"}]` is an `Error`. -/
theorem builtinWhere_error_iff_witness :
    isError (some (builtinWhere examplePlatform
      (some (.json (.array [.object [("name", .string "Ann")]])))
      [.string ".name", .string ">", .string "A"])) = true :=
  (builtinWhere_error_iff examplePlatform (.array [.object [("name", .string "Ann")]])
    [.object [("name", .string "Ann")]] ".name" ">" "A" (Or.inl rfl)).1.mpr
    ⟨.object [("name", .string "Ann")], List.mem_cons_self _ _, .string "Ann", rfl, rfl⟩

end Where

section Select

variable {F : Type}

theorem splitDotChars_ne_nil (cs : List Char) : splitDotChars cs ≠ [] := by
  cases cs with
  | nil => simp [splitDotChars]
  | cons c cs =>
    simp only [splitDotChars]
    split_ifs
    · simp
    · split <;> simp

theorem parsePath_ne_nil (v : String) : parsePath v ≠ [] := by
  simp [parsePath, splitDot, splitDotChars_ne_nil]

theorem lookup_cons_ite {β : Type} (k a : String) (b : β) (l : List (String × β)) :
    List.lookup k ((a, b) :: l) = if k = a then some b else List.lookup k l := by
  by_cases h : k = a
  · subst h
    simp [List.lookup]
  · have hb : (k == a) = false := by simpa using h
    simp [List.lookup, hb, h]

theorem lookup_mapSet (m : List (String × JVal F)) (k : String) (v : JVal F) (k2 : String) :
    (mapSet m k v).lookup k2 = if k2 = k then some v else m.lookup k2 := by
  induction m with
  | nil => simp [mapSet, lookup_cons_ite]
  | cons kv m ih =>
    obtain ⟨a, b⟩ := kv
    simp only [mapSet] at ih
    by_cases hak : a = k
    · subst hak
      by_cases h : k2 = a
      · subst h
        simp [mapSet, List.filter_cons, ih]
      · simp [mapSet, List.filter_cons, ih, h, lookup_cons_ite]
    · by_cases h2 : k2 = a
      · subst h2
        simp [mapSet, List.filter_cons, hak, lookup_cons_ite]
      · simp [mapSet, List.filter_cons, hak, lookup_cons_ite, h2, ih]

theorem lookup_processObjectLoop (d : List (String × JVal F)) (paths : List (List String))
    (k : String) :
    ∀ newObj, (processObjectLoop d paths newObj).lookup k =
      match lastResolved d paths k with
      | some v => some v
      | none => newObj.lookup k := by
  induction paths with
  | nil => intro newObj; simp [processObjectLoop, lastResolved]
  | cons path paths ih =>
    intro newObj
    cases hl : lastResolved d paths k with
    | some v =>
      cases ha : accessField (.object d) path <;> cases hg : path.getLast? <;>
        simp [processObjectLoop, lastResolved, ha, hg, ih, hl]
    | none =>
      cases ha : accessField (.object d) path with
      | none => simp [processObjectLoop, lastResolved, ha, ih, hl]
      | some value =>
        cases hg : path.getLast? with
        | none => simp [processObjectLoop, lastResolved, ha, hg, ih, hl]
        | some newKey =>
          by_cases hk : newKey = k
          · subst hk
            simp [processObjectLoop, lastResolved, ha, hg, ih, hl, lookup_mapSet]
          · have hk2 : ¬ k = newKey := fun h => hk h.symm
            simp [processObjectLoop, lastResolved, ha, hg, ih, hl, lookup_mapSet, hk, hk2]

theorem lookup_processObject (d : List (String × JVal F)) (paths : List (List String))
    (k : String) : (processObject paths d).lookup k = lastResolved d paths k := by
  simp only [processObject, lookup_processObjectLoop]
  cases lastResolved d paths k <;> simp [List.lookup]

theorem lastResolved_isSome_iff (d : List (String × JVal F)) (paths : List (List String))
    (k : String) :
    (lastResolved d paths k).isSome = true ↔
      ∃ path ∈ paths, path.getLast? = some k ∧
        (accessField (.object d) path).isSome = true := by
  induction paths with
  | nil => simp [lastResolved]
  | cons path paths ih =>
    cases hl : lastResolved d paths k with
    | some v =>
      have h1 : ∃ q ∈ paths, q.getLast? = some k ∧
          (accessField (.object d) q).isSome = true := ih.mp (by simp [hl])
      obtain ⟨q, hq, hq2⟩ := h1
      simp only [lastResolved, hl, Option.isSome_some, true_iff]
      exact ⟨q, List.mem_cons_of_mem _ hq, hq2⟩
    | none =>
      have h1 : ¬ ∃ q ∈ paths, q.getLast? = some k ∧
          (accessField (.object d) q).isSome = true := by
        intro h
        have := ih.mpr h
        simp [hl] at this
      simp only [lastResolved, hl, List.mem_cons]
      constructor
      · intro h
        by_cases hg : path.getLast? = some k
        · simp only [hg, if_true] at h
          exact ⟨path, Or.inl rfl, hg, h⟩
        · simp [hg] at h
      · rintro ⟨q, hq | hq, hq2, hq3⟩
        · subst hq
          simpa [hq2] using hq3
        · exact absurd ⟨q, hq, hq2, hq3⟩ h1

theorem selectPaths_strings (ps : List String) :
    selectPaths (F := F) (ps.map Object.string) = some (ps.map parsePath) := by
  induction ps with
  | nil => rfl
  | cons p ps ih => simp [selectPaths, ih]

theorem processObject_nonempty_iff (paths : List (List String))
    (hpaths : ∀ path ∈ paths, path ≠ []) (m : List (String × JVal F)) :
    (processObject paths m).length > 0 ↔
      paths.any (fun path => (accessField (.object m) path).isSome) = true := by
  rw [List.any_eq_true]
  constructor
  · intro h
    cases hl : processObject paths m with
    | nil => simp [hl] at h
    | cons kv rest =>
      obtain ⟨k, v⟩ := kv
      have h1 : (processObject paths m).lookup k = some v := by
        rw [hl]
        simp [lookup_cons_ite]
      rw [lookup_processObject] at h1
      obtain ⟨path, hp, _, hres⟩ :=
        (lastResolved_isSome_iff m paths k).mp (by simp [h1])
      exact ⟨path, hp, hres⟩
  · rintro ⟨path, hp, hres⟩
    have hne := hpaths path hp
    obtain ⟨k, hk⟩ : ∃ k, path.getLast? = some k := by
      cases hg : path.getLast? with
      | none => exact absurd (List.getLast?_eq_none_iff.mp hg) hne
      | some k => exact ⟨k, rfl⟩
    have h1 : (lastResolved m paths k).isSome = true :=
      (lastResolved_isSome_iff m paths k).mpr ⟨path, hp, hk, hres⟩
    rw [← lookup_processObject] at h1
    cases hl : processObject paths m with
    | nil => simp [hl, List.lookup] at h1
    | cons kv rest => simp

theorem selectLoop_eq (paths : List (List String)) (hpaths : ∀ path ∈ paths, path ≠ [])
    (items : List (JVal F)) :
    ∀ results, selectLoop paths items results
      = results ++ items.filterMap (selectElement paths) := by
  induction items with
  | nil => intro results; simp [selectLoop]
  | cons item items ih =>
    intro results
    cases item with
    | object m =>
      have hiff := processObject_nonempty_iff paths hpaths m
      by_cases hlen : (processObject paths m).length > 0
      · have hany := hiff.mp hlen
        simp [selectLoop, hlen, ih, List.filterMap_cons, selectElement, JVal.asMap, hany]
      · have hany : ¬ (paths.any (fun path => (accessField (.object m) path).isSome) = true) :=
          fun h => hlen (hiff.mpr h)
        simp only [selectLoop, hlen, if_false, ih, List.filterMap_cons, selectElement,
          JVal.asMap, hany]
        simp
    | _ => simp [selectLoop, ih, List.filterMap_cons, selectElement, JVal.asMap]

theorem selectElement_object (paths : List (List String)) (hpaths : ∀ path ∈ paths, path ≠ [])
    (x e : JVal F) (h : selectElement paths x = some e) : ∃ o, e = .object o ∧ o ≠ [] := by
  cases x with
  | object m =>
    simp only [selectElement, JVal.asMap] at h
    split_ifs at h with hany
    cases h
    refine ⟨_, rfl, ?_⟩
    have := (processObject_nonempty_iff paths hpaths m).mpr hany
    intro hnil
    simp [hnil] at this
  | _ => simp [selectElement, JVal.asMap] at h

theorem parsePaths_ne_nil (ps : List String) : ∀ path ∈ ps.map parsePath, path ≠ [] := by
  intro path hp
  obtain ⟨p, _, rfl⟩ := List.mem_map.mp hp
  exact parsePath_ne_nil p

/-- C7 as stated fails on a key collision: on `{"a":{"x":"1"},"b":{"x":"2"}}` the
paths `.a.x` and `.b.x` both resolve and both end in `x`, and the result maps
`x` to `"2"`, which is not the value `"1"` that `accessField` finds for `.a.x`. -/
theorem builtinSelect_object_collision :
    ¬ (∀ r, builtinSelect (F := Int)
          (some (.json (.object [("a", .object [("x", .string "1")]),
            ("b", .object [("x", .string "2")])])))
          [.string ".a.x", .string ".b.x"] = .json (.object r) →
        ∀ p ∈ [".a.x", ".b.x"], ∀ v,
          accessField (.object [("a", .object [("x", .string "1")]),
            ("b", .object [("x", .string "2")])]) (parsePath p) = some v →
          ∀ k, (parsePath p).getLast? = some k → r.lookup k = some v) := by
  intro h
  have h1 := h [("x", .string "2")] rfl ".a.x" (by simp) (.string "1") rfl "x" rfl
  have h2 : List.lookup "x" [("x", (JVal.string "2" : JVal Int))] = some (.string "2") := rfl
  rw [h2] at h1
  simp at h1

/-- C7 (amended): `select` on an object input. For every `Json` object `d` and
every non-empty list of `String` path arguments, `builtinSelect` returns a
`Json` object whose keys are exactly the final segments of the requested paths
that resolve in `d`, each key mapped to the value `accessField` finds for the
last requested path that resolves and ends in that key; paths that do not
resolve contribute nothing and cause no error, and no other field of `d`
appears. -/
theorem builtinSelect_object (d : List (String × JVal F)) (ps : List String) (hne : ps ≠ []) :
    ∃ r, builtinSelect (some (.json (.object d))) (ps.map Object.string) = .json (.object r) ∧
      (∀ k, (r.lookup k).isSome = true ↔
        ∃ p ∈ ps, (parsePath p).getLast? = some k ∧
          (accessField (.object d) (parsePath p)).isSome = true) ∧
      (∀ k, r.lookup k = lastResolved d (ps.map parsePath) k) := by
  refine ⟨processObject (ps.map parsePath) d, ?_, ?_, fun k => lookup_processObject d _ k⟩
  · have hlen : ¬ ps.length < 1 := by
      cases ps with
      | nil => exact absurd rfl hne
      | cons p ps => simp
    simp [builtinSelect, selectPaths_strings, hlen]
  · intro k
    rw [lookup_processObject, lastResolved_isSome_iff]
    constructor
    · rintro ⟨path, hp, h1, h2⟩
      obtain ⟨p, hp2, rfl⟩ := List.mem_map.mp hp
      exact ⟨p, hp2, h1, h2⟩
    · rintro ⟨p, hp, h1, h2⟩
      exact ⟨parsePath p, List.mem_map.mpr ⟨p, hp, rfl⟩, h1, h2⟩

/-- C7 (amended), evaluated: `select .name .age` on
`{"name":"Ann","age":30,"extra":"x"}` is an object with `name` mapped to `"Ann"`,
`age` mapped to `30` and no `extra`. -/
theorem builtinSelect_object_witness :
    ∃ r, builtinSelect (F := Int)
        (some (.json (.object [("name", .string "Ann"), ("age", .number 30),
          ("extra", .string "x")])))
        [.string ".name", .string ".age"] = .json (.object r) ∧
      r.lookup "name" = some (.string "Ann") ∧ r.lookup "age" = some (.number 30) ∧
      r.lookup "extra" = none :=
  match builtinSelect_object (F := Int)
      [("name", .string "Ann"), ("age", .number 30), ("extra", .string "x")]
      [".name", ".age"] (by simp) with
  | ⟨r, hr, _, hl⟩ => ⟨r, hr, (hl "name").trans rfl, (hl "age").trans rfl,
      (hl "extra").trans rfl⟩

/-- C8: `select` on an array input. For a `Json` array with elements `xs` and a
non-empty list of `String` paths, `builtinSelect` returns a `Json` array holding,
in input order, the projection of each element of `xs` that is an object and in
which at least one requested path resolves; the other elements are dropped, so
every element of the result is a non-empty object and the result is no longer
than `xs`. -/
theorem builtinSelect_array (v : JVal F) (xs : List (JVal F)) (ps : List String)
    (hne : ps ≠ []) (hv : v.asSlice = some xs) :
    ∃ r, builtinSelect (some (.json v)) (ps.map Object.string) = .json r ∧
      r.asSlice = some (xs.filterMap (selectElement (ps.map parsePath))) ∧
      (∀ e ∈ xs.filterMap (selectElement (ps.map parsePath)), ∃ o, e = .object o ∧ o ≠ []) ∧
      (xs.filterMap (selectElement (ps.map parsePath))).length ≤ xs.length := by
  refine ⟨appendAll (xs.filterMap (selectElement (ps.map parsePath))), ?_,
    appendAll_asSlice _, ?_, List.length_filterMap_le _ _⟩
  · have hlen : ¬ ps.length < 1 := by
      cases ps with
      | nil => exact absurd rfl hne
      | cons p ps => simp
    have hloop := selectLoop_eq (ps.map parsePath) (parsePaths_ne_nil ps) xs []
    cases v <;> simp_all [builtinSelect, selectPaths_strings, JVal.asSlice]
  · intro e he
    obtain ⟨x, _, hx⟩ := List.mem_filterMap.mp he
    exact selectElement_object _ (parsePaths_ne_nil ps) x e hx

/-- C8, evaluated: `select .name` on `[{"name":"Ann","age":30},{"age":5},"s"]`
keeps only the projection `{"name":"Ann"}` of the first element. -/
theorem builtinSelect_array_witness :
    ∃ r, builtinSelect (F := Int)
        (some (.json (.array [.object [("name", .string "Ann"), ("age", .number 30)],
          .object [("age", .number 5)], .string "s"])))
        [.string ".name"] = .json r ∧
      r.asSlice = some [.object [("name", .string "Ann")]] :=
  match builtinSelect_array (F := Int)
      (.array [.object [("name", .string "Ann"), ("age", .number 30)],
        .object [("age", .number 5)], .string "s"])
      [.object [("name", .string "Ann"), ("age", .number 30)],
        .object [("age", .number 5)], .string "s"] [".name"] (by simp) rfl with
  | ⟨r, hr, hs, _, _⟩ => ⟨r, hr, hs.trans rfl⟩

end Select

section Evaluation

variable {F W : Type}

theorem evalArgs_error_isError (P : Platform F W) (env : Environment F)
    (args : List Expression) :
    ∀ (w : W) (acc : List (Object F)) (e : Object F) (w2 : W),
      evalArgs P env args w acc = (.error e, w2) → isError (some e) = true := by
  induction args with
  | nil =>
    intro w acc e w2 h
    simp [evalArgs] at h
  | cons argExpr rest ih =>
    intro w acc e w2 h
    rw [evalArgs] at h
    cases hr : evalExpr P env argExpr w with
    | mk evaluatedArg w1 =>
      rw [hr] at h
      by_cases herr : isError (some evaluatedArg) = true
      · simp only [herr, if_true] at h
        cases h
        exact herr
      · simp only [herr] at h
        exact ih _ _ _ _ h

/-- C10: a builtin that requires pipeline input never faults without one. For
every argument list, `builtinGet`, `builtinWhere` and `builtinSelect` called
with an absent (nil) input return an `Error` object; consequently `Eval` of a
`CommandExpression` named `get`, `where` or `select`, the name not being bound
in the environment, evaluated as a first stage returns an `Error` for any
arguments. -/
theorem builtin_requires_input (P : Platform F W) (env : Environment F) (w : W)
    (args : List (Object F)) (tok nameTok : Token) (name : String)
    (argExprs : List Expression)
    (hname : name = "get" ∨ name = "where" ∨ name = "select")
    (hunbound : env.Get name = none) :
    isError (some (builtinGet P none args)) = true ∧
    isError (some (builtinWhere P none args)) = true ∧
    isError (some (builtinSelect none args)) = true ∧
    (Eval P (.expression (.commandExpression (.mk tok (.identifier nameTok name)
      argExprs))) env w).map (fun r => isError r.1) = some true := by
  refine ⟨rfl, rfl, rfl, ?_⟩
  obtain ⟨fn, hfn, hfnne⟩ : ∃ fn, builtins name = some fn ∧ fn ≠ .cd := by
    rcases hname with h | h | h <;> subst h
    · exact ⟨.get, rfl, by decide⟩
    · exact ⟨.where_, rfl, by decide⟩
    · exact ⟨.select, rfl, by decide⟩
  have hname : evalExpr P env (.identifier nameTok name) w = (.builtin fn, w) := by
    simp [evalExpr, evalIdentifier, hunbound, hfn]
  simp only [Eval, evalExpr]
  rw [evalCommandExpression]
  simp only [hunbound, Option.map_none', hname, isError]
  cases hargs : evalArgs P env argExprs w [] with
  | mk res w2 =>
    cases res with
    | error e =>
      have := evalArgs_error_isError P env argExprs w [] e w2 hargs
      simpa using this
    | ok argObjs =>
      cases fn with
      | cd => exact absurd rfl hfnne
      | get => simp [runCommand, callBuiltin, builtinGet, isError]
      | where_ => simp [runCommand, callBuiltin, builtinWhere, isError]
      | select => simp [runCommand, callBuiltin, builtinSelect, isError]

/-- C10, evaluated: `get .x` as the first command, in the empty environment, is
an `Error`. -/
theorem builtin_requires_input_witness :
    (Eval examplePlatform (.expression (.commandExpression (.mk ⟨.GET, "get"⟩
      (.identifier ⟨.GET, "get"⟩ "get") [.identifier (identToken ".x") ".x"])))
      NewEnvironment ()).map (fun r => isError r.1) = some true :=
  (builtin_requires_input examplePlatform NewEnvironment () [] ⟨.GET, "get"⟩ ⟨.GET, "get"⟩
    "get" [.identifier (identToken ".x") ".x"] (Or.inl rfl) rfl).2.2.2

/-- C1: stage isolation. For every environment, every expression `a` and every
command expressions `b` and `c`, when `a` evaluates to `ra` and `b`, run as a
command with pipeline input exactly `ra`, returns `rb`, neither being an
`Error`, then `Eval` of `Pipeline(a, Pipeline(b, c))` is the result of
evaluating `c` as a command whose pipeline input is exactly `rb`. -/
theorem pipeline_stage_isolation (P : Platform F W) (env : Environment F) (a : Expression)
    (b c : CommandExpression) (t1 t2 : Token) (w w1 w2 : W) (ra rb : Object F)
    (ha : evalExpr P env a w = (ra, w1)) (hra : isError (some ra) = false)
    (hb : evalCommandExpression P env b w1 (some ra) = (rb, w2))
    (hrb : isError (some rb) = false) :
    Eval P (.expression (.pipelineExpression t1 a
        (.pipelineExpression t2 (.commandExpression b) (.commandExpression c)))) env w
      = some (some (evalCommandExpression P env c w2 (some rb)).1, env,
          (evalCommandExpression P env c w2 (some rb)).2) := by
  simp [Eval, evalExpr, evalPipelineChain, ha, hra, hb, hrb]

/-- C1, evaluated: with `x` bound to the `Json` `{"a":{"b":1}}`, the pipeline
`x | get .a | get .b` equals `builtinGet(builtinGet(x, ".a"), ".b")`. -/
theorem pipeline_stage_isolation_witness :
    Eval examplePlatform (.expression (.pipelineExpression ⟨.PIPE, "|"⟩
        (.commandExpression (.mk (identToken "x") (.identifier (identToken "x") "x") []))
        (.pipelineExpression ⟨.PIPE, "|"⟩
          (.commandExpression (.mk ⟨.GET, "get"⟩ (.identifier ⟨.GET, "get"⟩ "get")
            [.identifier (identToken ".a") ".a"]))
          (.commandExpression (.mk ⟨.GET, "get"⟩ (.identifier ⟨.GET, "get"⟩ "get")
            [.identifier (identToken ".b") ".b"])))))
      (NewEnvironment.Set "x" (.json (.object [("a", .object [("b", .number 1)])]))) ()
    = some (some (builtinGet examplePlatform
        (some (builtinGet examplePlatform
          (some (.json (.object [("a", .object [("b", .number 1)])]))) [.string ".a"]))
        [.string ".b"]),
       NewEnvironment.Set "x" (.json (.object [("a", .object [("b", .number 1)])])), ()) :=
  pipeline_stage_isolation examplePlatform
    (NewEnvironment.Set "x" (.json (.object [("a", .object [("b", .number 1)])])))
    (.commandExpression (.mk (identToken "x") (.identifier (identToken "x") "x") []))
    (.mk ⟨.GET, "get"⟩ (.identifier ⟨.GET, "get"⟩ "get") [.identifier (identToken ".a") ".a"])
    (.mk ⟨.GET, "get"⟩ (.identifier ⟨.GET, "get"⟩ "get") [.identifier (identToken ".b") ".b"])
    ⟨.PIPE, "|"⟩ ⟨.PIPE, "|"⟩ () () ()
    (.json (.object [("a", .object [("b", .number 1)])]))
    (.json (.object [("b", .number 1)])) rfl rfl rfl rfl

end Evaluation

section Statements

variable {F W : Type}

theorem Environment.get_set_same (env : Environment F) (x : String) (v : Object F) :
    (env.Set x v).Get x = some v := by
  simp [Environment.Get, Environment.Set]

theorem Environment.get_set_other (env : Environment F) (x y : String) (v : Object F)
    (h : y ≠ x) : (env.Set x v).Get y = env.Get y := by
  simp [Environment.Get, Environment.Set, h]

theorem evalStatement_let_ok (P : Platform F W) (env : Environment F) (w w1 : W)
    (tok : Token) (name : Identifier) (e : Expression) (v : Object F)
    (h : evalExpr P env e w = (v, w1)) (hv : isError (some v) = false) :
    evalStatement P env w (.letStatement tok name e) = some (.null, env.Set name.value v, w1) := by
  simp [evalStatement, h, hv]

/-- C11: `let` is last-write-wins and yields `Null`. When `e1` evaluates without
error to `v1` and then `e2` to `v2`, evaluating `let x = e1` and then
`let x = e2` returns `Null` each time, leaves `x` bound to `v2`, leaves every
other binding unchanged, and a later evaluation of the identifier `x` returns
`v2`. -/
theorem let_last_write_wins (P : Platform F W) (env : Environment F) (w w1 w2 : W)
    (x : String) (t1 t2 n1 n2 : Token) (e1 e2 : Expression) (v1 v2 : Object F)
    (h1 : evalExpr P env e1 w = (v1, w1)) (hv1 : isError (some v1) = false)
    (h2 : evalExpr P (env.Set x v1) e2 w1 = (v2, w2)) (hv2 : isError (some v2) = false) :
    Eval P (.statement (.letStatement t1 ⟨n1, x⟩ e1)) env w
      = some (some .null, env.Set x v1, w1) ∧
    Eval P (.statement (.letStatement t2 ⟨n2, x⟩ e2)) (env.Set x v1) w1
      = some (some .null, (env.Set x v1).Set x v2, w2) ∧
    Eval P (.program ⟨[.letStatement t1 ⟨n1, x⟩ e1, .letStatement t2 ⟨n2, x⟩ e2]⟩) env w
      = some (some .null, (env.Set x v1).Set x v2, w2) ∧
    ((env.Set x v1).Set x v2).Get x = some v2 ∧
    (∀ y, y ≠ x → ((env.Set x v1).Set x v2).Get y = env.Get y) ∧
    (∀ tok w3, Eval P (.expression (.identifier tok x)) ((env.Set x v1).Set x v2) w3
      = some (some v2, (env.Set x v1).Set x v2, w3)) := by
  have hs1 := evalStatement_let_ok P env w w1 t1 ⟨n1, x⟩ e1 v1 h1 hv1
  have hs2 := evalStatement_let_ok P (env.Set x v1) w1 w2 t2 ⟨n2, x⟩ e2 v2 h2 hv2
  refine ⟨?_, ?_, ?_, Environment.get_set_same _ _ _, ?_, ?_⟩
  · simp [Eval, hs1]
  · simp [Eval, hs2]
  · simp [Eval, evalProgram, evalProgramLoop, hs1, hs2, isError]
  · intro y hy
    rw [Environment.get_set_other _ _ _ _ hy, Environment.get_set_other _ _ _ _ hy]
  · intro tok w3
    simp [Eval, evalExpr, evalIdentifier, Environment.get_set_same]

/-- C11, evaluated: `let x = "a"` then `let x = "b"` in the empty environment
yields `Null` and leaves `x` bound to `"b"`. -/
theorem let_last_write_wins_witness :
    Eval examplePlatform (.program ⟨[
        .letStatement ⟨.LET, "let"⟩ ⟨identToken "x", "x"⟩ (.stringLiteral ⟨.STRING, "a"⟩ "a"),
        .letStatement ⟨.LET, "let"⟩ ⟨identToken "x", "x"⟩ (.stringLiteral ⟨.STRING, "b"⟩ "b")]⟩)
      NewEnvironment ()
      = some (some .null, (NewEnvironment.Set "x" (.string "a")).Set "x" (.string "b"), ()) ∧
    ((NewEnvironment.Set "x" (.string "a")).Set "x" (Object.string (F := Int) "b")).Get "x"
      = some (.string "b") :=
  match let_last_write_wins examplePlatform NewEnvironment () () () "x"
      ⟨.LET, "let"⟩ ⟨.LET, "let"⟩ (identToken "x") (identToken "x")
      (.stringLiteral ⟨.STRING, "a"⟩ "a") (.stringLiteral ⟨.STRING, "b"⟩ "b")
      (.string "a") (.string "b") rfl rfl rfl rfl with
  | ⟨_, _, h3, h4, _, _⟩ => ⟨h3, h4⟩

theorem evalProgramLoop_append (P : Platform F W) (pre rest : List Statement) :
    ∀ (env : Environment F) (w : W) (init res : Option (Object F)) (env1 : Environment F)
      (w1 : W),
      evalProgramLoop P pre env w init = some (res, env1, w1) → isError res = false →
      evalProgramLoop P (pre ++ rest) env w init = evalProgramLoop P rest env1 w1 res := by
  induction pre with
  | nil =>
    intro env w init res env1 w1 h _
    simp only [evalProgramLoop, Option.some.injEq, Prod.mk.injEq] at h
    obtain ⟨h1, h2, h3⟩ := h
    subst h1; subst h2; subst h3
    cases rest <;> simp [evalProgramLoop]
  | cons a pre ih =>
    intro env w init res env1 w1 h hres
    simp only [List.cons_append, evalProgramLoop] at h ⊢
    cases hs : evalStatement P env w a with
    | none => simp [hs] at h
    | some t =>
      obtain ⟨r, e2, w2⟩ := t
      simp only [hs] at h ⊢
      by_cases hr : isError (some r) = true
      · simp only [hr, if_true, Option.some.injEq, Prod.mk.injEq] at h
        obtain ⟨h1, _, _⟩ := h
        subst h1
        rw [hr] at hres
        cases hres
      · simp only [hr] at h ⊢
        exact ih e2 w2 (some r) res env1 w1 h hres

theorem evalStatement_error_env (P : Platform F W) (env env2 : Environment F) (w w2 : W)
    (s : Statement) (e : Object F) (hs : evalStatement P env w s = some (e, env2, w2))
    (he : isError (some e) = true) : env2 = env := by
  cases s with
  | expressionStatement tok expr =>
    simp only [evalStatement, Option.some.injEq, Prod.mk.injEq] at hs
    exact hs.2.1.symm
  | letStatement tok name value =>
    simp only [evalStatement] at hs
    split_ifs at hs with hv
    · simp only [Option.some.injEq, Prod.mk.injEq] at hs
      exact hs.2.1.symm
    · simp only [Option.some.injEq, Prod.mk.injEq] at hs
      obtain ⟨h1, _, _⟩ := hs
      subst h1
      simp [isError] at he
  | nilLetStatement => simp [evalStatement] at hs
  | nilExpressionStatement => simp [evalStatement] at hs

/-- C12: program evaluation is fail-fast. When the statements `pre` evaluate
without an `Error` (leaving environment `env1`) and the next statement `s`
evaluates to an `Error` `e`, `Eval` of the program `pre ++ s :: post` returns
exactly `e`, whatever `post` is, and the environment afterwards is `env1`, the
one produced by `pre` alone. When instead `s` is the last statement and does not
yield an `Error`, the result of the program is the result of `s`. -/
theorem evalProgram_fail_fast (P : Platform F W) (pre post : List Statement) (s : Statement)
    (env env1 env2 : Environment F) (w w1 w2 : W) (res : Option (Object F)) (r : Object F)
    (hpre : evalProgramLoop P pre env w none = some (res, env1, w1))
    (hres : isError res = false)
    (hs : evalStatement P env1 w1 s = some (r, env2, w2)) :
    (isError (some r) = true →
      Eval P (.program ⟨pre ++ s :: post⟩) env w = some (some r, env1, w2) ∧ env2 = env1) ∧
    (isError (some r) = false →
      Eval P (.program ⟨pre ++ [s]⟩) env w = some (some r, env2, w2)) := by
  constructor
  · intro hr
    have henv := evalStatement_error_env P env1 env2 w1 w2 s r hs hr
    subst henv
    simp [Eval, evalProgram, evalProgramLoop_append P pre (s :: post) env w none res _ w1
      hpre hres, evalProgramLoop, hs, hr]
  · intro hr
    simp [Eval, evalProgram, evalProgramLoop_append P pre [s] env w none res env1 w1
      hpre hres, evalProgramLoop, hs, hr]

/-- C12, evaluated: in the program `let x = "a"`, `get .x`, `let y = "b"` the
second statement is an `Error` (no pipeline input); the program returns it and
only `x` is bound afterwards. -/
theorem evalProgram_fail_fast_witness :
    Eval examplePlatform (.program ⟨[
        .letStatement ⟨.LET, "let"⟩ ⟨identToken "x", "x"⟩ (.stringLiteral ⟨.STRING, "a"⟩ "a")] ++
        .expressionStatement ⟨.GET, "get"⟩ (.commandExpression (.mk ⟨.GET, "get"⟩
          (.identifier ⟨.GET, "get"⟩ "get") [.identifier (identToken ".x") ".x"])) ::
        [.letStatement ⟨.LET, "let"⟩ ⟨identToken "y", "y"⟩
          (.stringLiteral ⟨.STRING, "b"⟩ "b")]⟩) NewEnvironment ()
      = some (some (.error "get: requiere una entrada de un pipeline"),
          NewEnvironment.Set "x" (.string "a"), ()) :=
  ((evalProgram_fail_fast examplePlatform
      [.letStatement ⟨.LET, "let"⟩ ⟨identToken "x", "x"⟩ (.stringLiteral ⟨.STRING, "a"⟩ "a")]
      [.letStatement ⟨.LET, "let"⟩ ⟨identToken "y", "y"⟩ (.stringLiteral ⟨.STRING, "b"⟩ "b")]
      (.expressionStatement ⟨.GET, "get"⟩ (.commandExpression (.mk ⟨.GET, "get"⟩
          (.identifier ⟨.GET, "get"⟩ "get") [.identifier (identToken ".x") ".x"])))
      NewEnvironment (NewEnvironment.Set "x" (.string "a"))
      (NewEnvironment.Set "x" (.string "a")) () () () (some .null)
      (.error "get: requiere una entrada de un pipeline") rfl rfl rfl).1 rfl).1

end Statements

section Resolution

variable {F W : Type}

/-- C13: pipeline error propagation. If `Eval` of `l` is an `Error` `e` then
`Eval` of `Pipeline(l, r)` is `e` and `r` is not evaluated (the outside world is
the one `l` left). In a chain `a | b | c`, if `a` does not fail and stage `b`,
fed the result of `a`, yields an `Error`, the result is that `Error` and `c` is
not evaluated. -/
theorem pipeline_error_propagation (P : Platform F W) (env : Environment F)
    (l r a b c : Expression) (t t1 t2 : Token) (w w1 wa wb : W) (e ra eb : Object F) :
    (evalExpr P env l w = (e, w1) → isError (some e) = true →
      Eval P (.expression (.pipelineExpression t l r)) env w = some (some e, env, w1)) ∧
    (evalExpr P env a w = (ra, wa) → isError (some ra) = false →
      evalPipelineChain P env b wa ra = (eb, wb) → isError (some eb) = true →
      Eval P (.expression (.pipelineExpression t1 a (.pipelineExpression t2 b c))) env w
        = some (some eb, env, wb)) := by
  constructor
  · intro hl he
    simp [Eval, evalExpr, hl, he]
  · intro ha hra hb heb
    simp [Eval, evalExpr, evalPipelineChain, ha, hra, hb, heb]

/-- C13, evaluated: `get .x | "later"` fails in its first stage (no pipeline
input) and returns that `Error`; in `"s" | get .x | get .y` the stage `get .x`
fails on the `String` input and the chain returns its `Error`. -/
theorem pipeline_error_propagation_witness :
    Eval examplePlatform (.expression (.pipelineExpression ⟨.PIPE, "|"⟩
        (.commandExpression (.mk ⟨.GET, "get"⟩ (.identifier ⟨.GET, "get"⟩ "get")
          [.identifier (identToken ".x") ".x"]))
        (.stringLiteral ⟨.STRING, "later"⟩ "later"))) NewEnvironment ()
      = some (some (.error "get: requiere una entrada de un pipeline"), NewEnvironment, ()) ∧
    Eval examplePlatform (.expression (.pipelineExpression ⟨.PIPE, "|"⟩
        (.stringLiteral ⟨.STRING, "s"⟩ "s")
        (.pipelineExpression ⟨.PIPE, "|"⟩
          (.commandExpression (.mk ⟨.GET, "get"⟩ (.identifier ⟨.GET, "get"⟩ "get")
            [.identifier (identToken ".x") ".x"]))
          (.commandExpression (.mk ⟨.GET, "get"⟩ (.identifier ⟨.GET, "get"⟩ "get")
            [.identifier (identToken ".y") ".y"]))))) NewEnvironment ()
      = some (some (.error "get: la entrada debe ser de tipo JSON, se obtuvo STRING"),
          NewEnvironment, ()) :=
  ⟨(pipeline_error_propagation examplePlatform NewEnvironment
      (.commandExpression (.mk ⟨.GET, "get"⟩ (.identifier ⟨.GET, "get"⟩ "get")
        [.identifier (identToken ".x") ".x"]))
      (.stringLiteral ⟨.STRING, "later"⟩ "later")
      (.stringLiteral ⟨.STRING, "s"⟩ "s") (.stringLiteral ⟨.STRING, "s"⟩ "s")
      (.stringLiteral ⟨.STRING, "s"⟩ "s") ⟨.PIPE, "|"⟩ ⟨.PIPE, "|"⟩ ⟨.PIPE, "|"⟩ () () () ()
      (.error "get: requiere una entrada de un pipeline") .null .null).1 rfl rfl,
   (pipeline_error_propagation examplePlatform NewEnvironment
      (.stringLiteral ⟨.STRING, "s"⟩ "s") (.stringLiteral ⟨.STRING, "s"⟩ "s")
      (.stringLiteral ⟨.STRING, "s"⟩ "s")
      (.commandExpression (.mk ⟨.GET, "get"⟩ (.identifier ⟨.GET, "get"⟩ "get")
        [.identifier (identToken ".x") ".x"]))
      (.commandExpression (.mk ⟨.GET, "get"⟩ (.identifier ⟨.GET, "get"⟩ "get")
        [.identifier (identToken ".y") ".y"]))
      ⟨.PIPE, "|"⟩ ⟨.PIPE, "|"⟩ ⟨.PIPE, "|"⟩ () () () () .null (.string "s")
      (.error "get: la entrada debe ser de tipo JSON, se obtuvo STRING")).2 rfl rfl rfl rfl⟩

/-- C14: identifier resolution order. Evaluating `Identifier n` returns the value
the environment binds to `n` if there is one; otherwise the `Builtin` object if
`n` is one of `cd`, `get`, `where`, `select`; otherwise the `String` object whose
value is `n`. A binding in the environment therefore takes precedence over a
builtin of the same name. -/
theorem identifier_resolution (P : Platform F W) (env : Environment F) (tok : Token)
    (n : String) (w : W) :
    (∀ v, env.Get n = some v →
      Eval P (.expression (.identifier tok n)) env w = some (some v, env, w)) ∧
    (env.Get n = none → ∀ fn, builtins n = some fn →
      Eval P (.expression (.identifier tok n)) env w = some (some (.builtin fn), env, w)) ∧
    (env.Get n = none → builtins n = none →
      Eval P (.expression (.identifier tok n)) env w = some (some (.string n), env, w)) ∧
    ((builtins n).isSome = true ↔ n = "cd" ∨ n = "get" ∨ n = "where" ∨ n = "select") := by
  refine ⟨?_, ?_, ?_, ?_⟩
  · intro v hv
    simp [Eval, evalExpr, evalIdentifier, hv]
  · intro hn fn hfn
    simp [Eval, evalExpr, evalIdentifier, hn, hfn]
  · intro hn hb
    simp [Eval, evalExpr, evalIdentifier, hn, hb]
  · simp only [builtins]
    split_ifs <;> simp_all

/-- C14, evaluated: with `get` bound to the `String` `"v"` the identifier `get`
evaluates to `"v"`; in the empty environment it is the builtin, and `ls` is the
`String` `"ls"`. -/
theorem identifier_resolution_witness :
    Eval examplePlatform (.expression (.identifier ⟨.GET, "get"⟩ "get"))
        (NewEnvironment.Set "get" (.string "v")) ()
      = some (some (.string "v"), NewEnvironment.Set "get" (.string "v"), ()) ∧
    Eval examplePlatform (.expression (.identifier ⟨.GET, "get"⟩ "get")) NewEnvironment ()
      = some (some (.builtin .get), NewEnvironment, ()) ∧
    Eval examplePlatform (.expression (.identifier (identToken "ls") "ls")) NewEnvironment ()
      = some (some (.string "ls"), NewEnvironment, ()) :=
  ⟨(identifier_resolution examplePlatform (NewEnvironment.Set "get" (.string "v"))
      ⟨.GET, "get"⟩ "get" ()).1 (.string "v") rfl,
   (identifier_resolution examplePlatform NewEnvironment ⟨.GET, "get"⟩ "get" ()).2.1
      rfl .get rfl,
   (identifier_resolution examplePlatform NewEnvironment (identToken "ls") "ls" ()).2.2.1
      rfl rfl⟩

/-- C15: variable substitution in command position. When the environment binds
the name `v` to `val`, `Eval` of `CommandExpression(v, args)` returns `val`
itself when `args` is empty and an `Error` (the variable is not a command and
accepts no arguments) when `args` is not empty; in both cases the outside world
is unchanged, so no builtin ran and no process was started. The same holds when
the command is a pipeline stage with an input. -/
theorem variable_substitution (P : Platform F W) (env : Environment F) (v : String)
    (val : Object F) (tok nameTok : Token) (args : List Expression) (w : W)
    (input : Option (Object F)) (hv : env.Get v = some val) :
    (args = [] →
      Eval P (.expression (.commandExpression (.mk tok (.identifier nameTok v) args))) env w
        = some (some val, env, w) ∧
      evalCommandExpression P env (.mk tok (.identifier nameTok v) args) w input = (val, w)) ∧
    (args ≠ [] →
      Eval P (.expression (.commandExpression (.mk tok (.identifier nameTok v) args))) env w
        = some (some (.error ("la variable " ++ apostrophe ++ v ++ apostrophe ++
            " no es un comando y no acepta argumentos")), env, w) ∧
      evalCommandExpression P env (.mk tok (.identifier nameTok v) args) w input
        = (.error ("la variable " ++ apostrophe ++ v ++ apostrophe ++
            " no es un comando y no acepta argumentos"), w)) := by
  constructor
  · intro hargs
    subst hargs
    constructor
    · simp only [Eval, evalExpr]
      rw [evalCommandExpression]
      simp [hv]
    · rw [evalCommandExpression]
      simp [hv]
  · intro hargs
    have hlen : args.length > 0 := List.length_pos.mpr hargs
    constructor
    · simp only [Eval, evalExpr]
      rw [evalCommandExpression]
      simp [hv, hlen]
    · rw [evalCommandExpression]
      simp [hv, hlen]

/-- C15, evaluated: with `x` bound to `"v"`, the command `x` is `"v"` and the
command `x -l` is an `Error`. -/
theorem variable_substitution_witness :
    Eval examplePlatform (.expression (.commandExpression (.mk (identToken "x")
        (.identifier (identToken "x") "x") []))) (NewEnvironment.Set "x" (.string "v")) ()
      = some (some (.string "v"), NewEnvironment.Set "x" (.string "v"), ()) ∧
    (Eval examplePlatform (.expression (.commandExpression (.mk (identToken "x")
        (.identifier (identToken "x") "x") [.identifier (identToken "-l") "-l"])))
        (NewEnvironment.Set "x" (.string "v")) ()).map (fun r => isError r.1) = some true :=
  ⟨((variable_substitution examplePlatform (NewEnvironment.Set "x" (.string "v")) "x"
      (.string "v") (identToken "x") (identToken "x") [] () none rfl).1 rfl).1,
   by
    rw [((variable_substitution examplePlatform (NewEnvironment.Set "x" (.string "v")) "x"
      (.string "v") (identToken "x") (identToken "x") [.identifier (identToken "-l") "-l"]
      () none rfl).2 (by simp)).1]
    rfl⟩

end Resolution


section Lexing

theorem getD_eq_headD_drop {α : Type} (l : List α) (p : Nat) (d : α) :
    l.getD p d = (l.drop p).headD d := by
  induction l generalizing p with
  | nil => simp
  | cons x xs ih =>
    cases p with
    | zero => simp
    | succ n => simp [ih n]

theorem Lexer.atPos_ch (input : String) (p : Nat) :
    (Lexer.atPos input p).ch = (input.data.drop p).headD NUL := by
  simp [Lexer.atPos, getD_eq_headD_drop]

theorem ite_getD {α : Type} (l : List α) (p : Nat) (d : α) :
    (if p ≥ l.length then d else l.getD p d) = l.getD p d := by
  split_ifs with h
  · rw [getD_eq_headD_drop, List.drop_eq_nil_iff.mpr h]
    rfl
  · rfl

theorem Lexer.readChar_atPos (input : String) (p : Nat) :
    (Lexer.atPos input p).readChar = Lexer.atPos input (p + 1) := by
  simp only [Lexer.readChar, Lexer.atPos, ite_getD]

theorem NewLexer_eq_atPos (input : String) : NewLexer input = Lexer.atPos input 0 := by
  simp only [NewLexer, Lexer.readChar, Lexer.atPos, ite_getD]

theorem Lexer.peekChar_atPos (input : String) (p : Nat) :
    (Lexer.atPos input p).peekChar = (input.data.drop (p + 1)).headD NUL := by
  simp only [Lexer.peekChar, Lexer.atPos, ite_getD]
  exact getD_eq_headD_drop _ _ _

theorem drop_succ_of_drop_cons {α : Type} (l : List α) (p : Nat) (c : α) (rest : List α)
    (h : l.drop p = c :: rest) : l.drop (p + 1) = rest := by
  have : l.drop (p + 1) = (l.drop p).drop 1 := by simp [List.drop_drop]
  rw [this, h]
  rfl

theorem drop_succ_of_drop_nil {α : Type} (l : List α) (p : Nat) (h : l.drop p = []) :
    l.drop (p + 1) = [] := by
  rw [List.drop_eq_nil_iff] at h ⊢
  omega

theorem drop_add_of_drop_append {α : Type} (l : List α) (p : Nat) (run post : List α)
    (h : l.drop p = run ++ post) : l.drop (p + run.length) = post := by
  have : l.drop (p + run.length) = (l.drop p).drop run.length := by simp [List.drop_drop]
  rw [this, h]
  simp

theorem length_le_of_drop_append {α : Type} (l : List α) (p : Nat) (run post : List α)
    (h : l.drop p = run ++ post) : run.length ≤ l.length := by
  have h1 : (l.drop p).length = run.length + post.length := by rw [h]; simp
  have h2 : (l.drop p).length ≤ l.length := by simp
  omega

theorem Lexer.readWhile_atPos (cond : Char → Bool) (input : String) (run : List Char) :
    ∀ (post : List Char) (p fuel : Nat), input.data.drop p = run ++ post →
      (∀ c ∈ run, cond c = true) → cond (post.headD NUL) = false → run.length ≤ fuel →
      Lexer.readWhile cond fuel (Lexer.atPos input p) = Lexer.atPos input (p + run.length) := by
  induction run with
  | nil =>
    intro post p fuel hdrop _ hpost _
    have hch : cond (Lexer.atPos input p).ch = false := by
      rw [Lexer.atPos_ch, hdrop]
      simpa using hpost
    cases fuel with
    | zero => simp [Lexer.readWhile]
    | succ n => simp [Lexer.readWhile, hch]
  | cons c run ih =>
    intro post p fuel hdrop hrun hpost hfuel
    cases fuel with
    | zero => simp at hfuel
    | succ n =>
      have hch : cond (Lexer.atPos input p).ch = true := by
        rw [Lexer.atPos_ch, hdrop]
        simpa using hrun c (List.mem_cons_self _ _)
      have hdrop2 : input.data.drop (p + 1) = run ++ post :=
        drop_succ_of_drop_cons _ _ _ _ (by simpa using hdrop)
      have h := ih post (p + 1) n hdrop2
        (fun x hx => hrun x (List.mem_cons_of_mem _ hx)) hpost (by simpa using hfuel)
      simp only [Lexer.readWhile, hch, if_true, Lexer.readChar_atPos, h, List.length_cons]
      congr 1
      omega

theorem slice_of_drop (input : String) (p : Nat) (run post : List Char)
    (h : input.data.drop p = run ++ post) :
    slice input p (p + run.length) = String.mk run := by
  simp [slice, h]

theorem Lexer.readStringLoop_atPos (quote : Char) (input : String) (body : List Char) :
    ∀ (post : List Char) (p fuel : Nat), input.data.drop (p + 1) = body ++ post →
      (∀ c ∈ body, c ≠ quote ∧ c ≠ NUL) → (post.headD NUL = quote ∨ post.headD NUL = NUL) →
      body.length + 1 ≤ fuel →
      Lexer.readStringLoop quote fuel (Lexer.atPos input p)
        = Lexer.atPos input (p + 1 + body.length) := by
  induction body with
  | nil =>
    intro post p fuel hdrop _ hpost hfuel
    cases fuel with
    | zero => simp at hfuel
    | succ n =>
      have hch : (Lexer.atPos input (p + 1)).ch = post.headD NUL := by
        rw [Lexer.atPos_ch, hdrop]
        simp
      simp only [Lexer.readStringLoop, Lexer.readChar_atPos, hch, hpost, if_true,
        List.length_nil, Nat.add_zero]
  | cons c body ih =>
    intro post p fuel hdrop hbody hpost hfuel
    cases fuel with
    | zero => simp at hfuel
    | succ n =>
      have hch : (Lexer.atPos input (p + 1)).ch = c := by
        rw [Lexer.atPos_ch, hdrop]
        simp
      have hc := hbody c (List.mem_cons_self _ _)
      have hdrop2 : input.data.drop (p + 1 + 1) = body ++ post :=
        drop_succ_of_drop_cons _ _ _ _ (by simpa using hdrop)
      have h := ih post (p + 1) n hdrop2
        (fun x hx => hbody x (List.mem_cons_of_mem _ hx)) hpost
        (by simp only [List.length_cons] at hfuel; omega)
      have hcond : ¬ (c = quote ∨ c = NUL) := by
        rintro (h1 | h1)
        · exact hc.1 h1
        · exact hc.2 h1
      simp only [Lexer.readStringLoop, Lexer.readChar_atPos, hch, hcond, if_false, h,
        List.length_cons]
      congr 1
      omega

theorem Lexer.skipWhitespace_of_not_ws (l : Lexer) (h : isWhitespace l.ch = false) :
    l.skipWhitespace = l := by
  simp [Lexer.skipWhitespace, Lexer.readWhile, h]

theorem Lexer.skipWhitespace_atPos (input : String) (p : Nat) (ws rest : List Char)
    (hdrop : input.data.drop p = ws ++ rest) (hws : ∀ c ∈ ws, isWhitespace c = true)
    (hrest : isWhitespace (rest.headD NUL) = false) :
    (Lexer.atPos input p).skipWhitespace = Lexer.atPos input (p + ws.length) := by
  have hlen := length_le_of_drop_append _ _ _ _ hdrop
  exact Lexer.readWhile_atPos isWhitespace input ws rest p _ hdrop hws hrest
    (by simp only [Lexer.atPos]; omega)

theorem Lexer.NextToken_congr (l0 l1 : Lexer) (h : l0.skipWhitespace = l1.skipWhitespace) :
    l0.NextToken = l1.NextToken := by
  simp only [Lexer.NextToken, h]

theorem Lexer.NextToken_skip (input : String) (p : Nat) (ws rest : List Char)
    (hdrop : input.data.drop p = ws ++ rest) (hws : ∀ c ∈ ws, isWhitespace c = true)
    (hrest : isWhitespace (rest.headD NUL) = false) :
    (Lexer.atPos input p).NextToken = (Lexer.atPos input (p + ws.length)).NextToken := by
  apply Lexer.NextToken_congr
  rw [Lexer.skipWhitespace_atPos input p ws rest hdrop hws hrest]
  have hch : isWhitespace (Lexer.atPos input (p + ws.length)).ch = false := by
    rw [Lexer.atPos_ch, drop_add_of_drop_append _ _ _ _ hdrop]
    exact hrest
  rw [Lexer.skipWhitespace_of_not_ws _ hch]

theorem isIdentifierChar_ne (c : Char) (h : isIdentifierChar c = true) :
    c ≠ ' ' ∧ c ≠ Char.ofNat 9 ∧ c ≠ Char.ofNat 10 ∧ c ≠ Char.ofNat 13 ∧ c ≠ '|' ∧
    c ≠ '=' ∧ c ≠ '(' ∧ c ≠ ')' ∧ c ≠ Char.ofNat 123 ∧ c ≠ Char.ofNat 125 ∧ c ≠ '[' ∧
    c ≠ ']' ∧ c ≠ Char.ofNat 34 ∧ c ≠ Char.ofNat 39 ∧ c ≠ NUL := by
  simpa [isIdentifierChar, and_assoc] using h

theorem isWhitespace_of_isIdentifierChar (c : Char) (h : isIdentifierChar c = true) :
    isWhitespace c = false := by
  obtain ⟨h1, h2, h3, h4, _⟩ := isIdentifierChar_ne c h
  simp [isWhitespace, h1, h2, h3, h4]

theorem Lexer.readIdentifier_atPos (input : String) (p : Nat) (run post : List Char)
    (hdrop : input.data.drop p = run ++ post) (hrun : ∀ c ∈ run, isIdentifierChar c = true)
    (hpost : isIdentifierChar (post.headD NUL) = false) :
    (Lexer.atPos input p).readIdentifier
      = (String.mk run, Lexer.atPos input (p + run.length)) := by
  have hlen := length_le_of_drop_append _ _ _ _ hdrop
  have h := Lexer.readWhile_atPos isIdentifierChar input run post p
    (input.data.length + 1) hdrop hrun hpost (by omega)
  simp only [Lexer.readIdentifier]
  have hin : (Lexer.atPos input p).input = input := rfl
  have hpos : (Lexer.atPos input p).position = p := rfl
  rw [hin, hpos, h]
  have hin2 : (Lexer.atPos input (p + run.length)).input = input := rfl
  have hpos2 : (Lexer.atPos input (p + run.length)).position = p + run.length := rfl
  rw [hin2, hpos2, slice_of_drop input p run post hdrop]

/-- The token of an identifier run: at a position where the input continues with
the non-empty run `c :: cs` of identifier characters, followed by the end of the
input or by a character of the deny-list, `NextToken` returns the whole run as
one token, provided `c` is not one of `;`, `,`, `>`, `<`, `!` and the run is not
the single character `.`. -/
theorem Lexer.NextToken_identifier (input : String) (p : Nat) (c : Char)
    (cs post : List Char) (hdrop : input.data.drop p = (c :: cs) ++ post)
    (hrun : ∀ x ∈ c :: cs, isIdentifierChar x = true)
    (hpost : isIdentifierChar (post.headD NUL) = false)
    (hc : c ≠ ';' ∧ c ≠ ',' ∧ c ≠ '>' ∧ c ≠ '<' ∧ c ≠ '!')
    (hdot : c = '.' → cs ≠ []) :
    (Lexer.atPos input p).NextToken
      = (⟨LookupIdent (String.mk (c :: cs)), String.mk (c :: cs)⟩,
          Lexer.atPos input (p + (c :: cs).length)) := by
  have hcid := hrun c (List.mem_cons_self _ _)
  have hch : (Lexer.atPos input p).ch = c := by
    rw [Lexer.atPos_ch, hdrop]
    rfl
  have hskip : (Lexer.atPos input p).skipWhitespace = Lexer.atPos input p :=
    Lexer.skipWhitespace_of_not_ws _ (by rw [hch]; exact isWhitespace_of_isIdentifierChar c hcid)
  have hread := Lexer.readIdentifier_atPos input p (c :: cs) post hdrop hrun hpost
  obtain ⟨_, _, _, _, n5, n6, n7, n8, n9, n10, n11, n12, n13, n14, n15⟩ :=
    isIdentifierChar_ne c hcid
  obtain ⟨m1, m2, m3, m4, m5⟩ := hc
  by_cases hd : c = '.'
  · have hcs := hdot hd
    have hpeek : isIdentifierChar (Lexer.atPos input p).peekChar = true := by
      rw [Lexer.peekChar_atPos, drop_succ_of_drop_cons _ _ _ _ hdrop]
      cases cs with
      | nil => exact absurd rfl hcs
      | cons y ys => exact hrun y (by simp)
    have hdT := eq_true hd
    simp only [Lexer.NextToken, hskip, hch, hread, hpeek, n5, n6, n7, n8, n9, n10, n11, n12,
      m1, m2, hdT, if_true, if_false, Bool.not_true, Bool.false_eq_true]
  · simp only [Lexer.NextToken, hskip, hch, hread, n5, n6, n7, n8, n9, n10, n11, n12, n13, n14,
      n15, m1, m2, m3, m4, m5, hd, hcid, if_true, if_false, or_self]

theorem Lexer.NextToken_eof (input : String) (p : Nat) (hdrop : input.data.drop p = []) :
    (Lexer.atPos input p).NextToken = (⟨.EOF, ""⟩, Lexer.atPos input (p + 1)) := by
  have hch : (Lexer.atPos input p).ch = NUL := by
    rw [Lexer.atPos_ch, hdrop]
    rfl
  have hskip : (Lexer.atPos input p).skipWhitespace = Lexer.atPos input p :=
    Lexer.skipWhitespace_of_not_ws _ (by rw [hch]; decide)
  simp only [Lexer.NextToken, hskip, hch, Lexer.readChar_atPos]
  have e1 : ¬ (NUL = '=') := by decide
  have e2 : ¬ (NUL = '|') := by decide
  have e3 : ¬ (NUL = ';') := by decide
  have e4 : ¬ (NUL = '(') := by decide
  have e5 : ¬ (NUL = ')') := by decide
  have e6 : ¬ (NUL = Char.ofNat 123) := by decide
  have e7 : ¬ (NUL = Char.ofNat 125) := by decide
  have e8 : ¬ (NUL = '[') := by decide
  have e9 : ¬ (NUL = ']') := by decide
  have e10 : ¬ (NUL = ',') := by decide
  have e11 : ¬ (NUL = '.') := by decide
  have e12 : ¬ (NUL = '>') := by decide
  have e13 : ¬ (NUL = '<') := by decide
  have e14 : ¬ (NUL = '!') := by decide
  have e15 : ¬ (NUL = Char.ofNat 34 ∨ NUL = Char.ofNat 39) := by decide
  simp only [e1, e2, e3, e4, e5, e6, e7, e8, e9, e10, e11, e12, e13, e14, e15, if_false,
    if_true]

theorem Lexer.NextToken_pipe (input : String) (p : Nat) (rest : List Char)
    (hdrop : input.data.drop p = '|' :: rest) :
    (Lexer.atPos input p).NextToken = (⟨.PIPE, "|"⟩, Lexer.atPos input (p + 1)) := by
  have hch : (Lexer.atPos input p).ch = '|' := by
    rw [Lexer.atPos_ch, hdrop]
    rfl
  have hskip : (Lexer.atPos input p).skipWhitespace = Lexer.atPos input p :=
    Lexer.skipWhitespace_of_not_ws _ (by rw [hch]; decide)
  simp only [Lexer.NextToken, hskip, hch, Lexer.readChar_atPos]
  have e1 : ¬ ('|' = '=') := by decide
  simp only [e1, if_false, if_true]
  rfl

theorem Lexer.readString_atPos (quote : Char) (input : String) (p : Nat)
    (body post : List Char) (hdrop : input.data.drop (p + 1) = body ++ post)
    (hbody : ∀ c ∈ body, c ≠ quote ∧ c ≠ NUL)
    (hpost : post.headD NUL = quote ∨ post.headD NUL = NUL) :
    (Lexer.atPos input p).readString quote
      = (String.mk body, Lexer.atPos input (p + 1 + body.length)) := by
  have hlen := length_le_of_drop_append _ _ _ _ hdrop
  have hlt : body.length + 1 ≤ input.data.length + 1 := by omega
  have h := Lexer.readStringLoop_atPos quote input body post p (input.data.length + 1)
    hdrop hbody hpost hlt
  simp only [Lexer.readString]
  have hin : (Lexer.atPos input p).input = input := rfl
  have hpos : (Lexer.atPos input p).position = p := rfl
  rw [hin, hpos, h]
  have hin2 : (Lexer.atPos input (p + 1 + body.length)).input = input := rfl
  have hpos2 : (Lexer.atPos input (p + 1 + body.length)).position = p + 1 + body.length := rfl
  rw [hin2, hpos2, slice_of_drop input (p + 1) body post hdrop]

/-- The token of a quoted run: at a position where the input continues with the
quote `q`, then `body` (free of `q` and of the rune `0`), then the closing quote,
the rune `0` or the end of the input, `NextToken` returns the `STRING` token with
literal `body` and leaves the lexer one character after the place where the
scan stopped. -/
theorem Lexer.NextToken_string (q : Char) (hq : q = Char.ofNat 34 ∨ q = Char.ofNat 39)
    (input : String) (p : Nat) (body post : List Char)
    (hdrop : input.data.drop p = q :: (body ++ post))
    (hbody : ∀ c ∈ body, c ≠ q ∧ c ≠ NUL)
    (hpost : post.headD NUL = q ∨ post.headD NUL = NUL) :
    (Lexer.atPos input p).NextToken
      = (⟨.STRING, String.mk body⟩, Lexer.atPos input (p + 1 + body.length + 1)) := by
  have hch : (Lexer.atPos input p).ch = q := by
    rw [Lexer.atPos_ch, hdrop]
    rfl
  have hws : isWhitespace q = false := by
    rcases hq with h | h <;> subst h <;> decide
  have hskip : (Lexer.atPos input p).skipWhitespace = Lexer.atPos input p :=
    Lexer.skipWhitespace_of_not_ws _ (by rw [hch]; exact hws)
  have hdrop2 : input.data.drop (p + 1) = body ++ post :=
    drop_succ_of_drop_cons _ _ _ _ hdrop
  have hread := Lexer.readString_atPos q input p body post hdrop2 hbody hpost
  have e : q ≠ '=' ∧ q ≠ '|' ∧ q ≠ ';' ∧ q ≠ '(' ∧ q ≠ ')' ∧ q ≠ Char.ofNat 123 ∧
      q ≠ Char.ofNat 125 ∧ q ≠ '[' ∧ q ≠ ']' ∧ q ≠ ',' ∧ q ≠ '.' ∧ q ≠ '>' ∧ q ≠ '<' ∧
      q ≠ '!' := by
    rcases hq with h | h <;> subst h <;> decide
  obtain ⟨e1, e2, e3, e4, e5, e6, e7, e8, e9, e10, e11, e12, e13, e14⟩ := e
  have hqT := eq_true hq
  simp only [Lexer.NextToken, hskip, hch, hread, Lexer.readChar_atPos, e1, e2, e3, e4, e5, e6,
    e7, e8, e9, e10, e11, e12, e13, e14, hqT, if_false, if_true]

theorem LookupIdent_of_not_keyword (s : String)
    (hkw : s ∉ ["let", "cd", "vars", "exit", "get", "where", "select", "if", "else", "for",
      "def", "true", "false"]) : LookupIdent s = .IDENT := by
  simp only [List.mem_cons, List.mem_singleton, List.not_mem_nil, or_false, not_or] at hkw
  obtain ⟨h1, h2, h3, h4, h5, h6, h7, h8, h9, h10, h11, h12, h13⟩ := hkw
  simp only [LookupIdent, h1, h2, h3, h4, h5, h6, h7, h8, h9, h10, h11, h12, h13, if_false]

theorem tokens_identifier_run (s : String) (c : Char) (cs : List Char)
    (hdata : s.data = c :: cs) (hrun : ∀ x ∈ s.data, isIdentifierChar x = true)
    (hc : c ≠ ';' ∧ c ≠ ',' ∧ c ≠ '>' ∧ c ≠ '<' ∧ c ≠ '!') (hdot : c = '.' → cs ≠ []) :
    (NewLexer s).tokens 2 = [⟨LookupIdent s, s⟩, ⟨.EOF, ""⟩] := by
  have hdrop : s.data.drop 0 = (c :: cs) ++ [] := by simp [hdata]
  have hs : String.mk (c :: cs) = s := by
    rw [← hdata]
  have h1 := Lexer.NextToken_identifier s 0 c cs [] hdrop (by rw [← hdata]; exact hrun)
    (by decide) hc hdot
  have hlen : 0 + (c :: cs).length = s.data.length := by rw [hdata]; simp
  rw [hs, hlen] at h1
  have h2 := Lexer.NextToken_eof s s.data.length (by simp)
  simp only [Lexer.tokens, NewLexer_eq_atPos, h1, h2]

/-- C19: permissive identifier runs. For every non-empty input `s` that contains
no character of the deny-list, is not one of the 13 keywords, does not start with
`;`, `,`, `>`, `<` or `!` and is not the single character `.`, the lexer yields
exactly one token of type `IDENT` whose literal is `s`, followed by `EOF`. -/
theorem lex_permissive_identifier (s : String) (hne : s ≠ "")
    (hdeny : ∀ c ∈ s.data, isIdentifierChar c = true)
    (hkw : s ∉ ["let", "cd", "vars", "exit", "get", "where", "select", "if", "else", "for",
      "def", "true", "false"])
    (hfirst : ∀ c, s.data.head? = some c → c ≠ ';' ∧ c ≠ ',' ∧ c ≠ '>' ∧ c ≠ '<' ∧ c ≠ '!')
    (hdot : s ≠ ".") :
    (NewLexer s).tokens 2 = [⟨.IDENT, s⟩, ⟨.EOF, ""⟩] := by
  cases hdata : s.data with
  | nil =>
    exact absurd (String.ext hdata) hne
  | cons c cs =>
    have h := tokens_identifier_run s c cs hdata hdeny (hfirst c (by simp [hdata]))
      (by
        intro hc hcs
        subst hc
        subst hcs
        exact hdot (String.ext hdata))
    rw [h, LookupIdent_of_not_keyword s hkw]

/-- C19, evaluated: `-l`, `/etc/passwd`, `.field.sub` and `a.b` each lex as one
`IDENT` token followed by `EOF`. -/
theorem lex_permissive_identifier_witness :
    (NewLexer "-l").tokens 2 = [⟨.IDENT, "-l"⟩, ⟨.EOF, ""⟩] ∧
    (NewLexer "/etc/passwd").tokens 2 = [⟨.IDENT, "/etc/passwd"⟩, ⟨.EOF, ""⟩] ∧
    (NewLexer ".field.sub").tokens 2 = [⟨.IDENT, ".field.sub"⟩, ⟨.EOF, ""⟩] ∧
    (NewLexer "a.b").tokens 2 = [⟨.IDENT, "a.b"⟩, ⟨.EOF, ""⟩] :=
  ⟨lex_permissive_identifier "-l" (by decide) (by decide) (by decide) (by decide) (by decide),
   lex_permissive_identifier "/etc/passwd" (by decide) (by decide) (by decide) (by decide)
    (by decide),
   lex_permissive_identifier ".field.sub" (by decide) (by decide) (by decide) (by decide)
    (by decide),
   lex_permissive_identifier "a.b" (by decide) (by decide) (by decide) (by decide)
    (by decide)⟩

theorem isIdentifierChar_of_isDigit (c : Char) (h : isDigit c = true) :
    isIdentifierChar c = true := by
  simp only [isDigit, decide_eq_true_eq] at h
  obtain ⟨h1, h2⟩ := h
  have hne : ∀ d : Char, (d < '0' ∨ '9' < d) → c ≠ d := by
    intro d hd hcd
    subst hcd
    rcases hd with hd | hd
    · exact absurd h1 (not_le.mpr hd)
    · exact absurd h2 (not_le.mpr hd)
  simp [isIdentifierChar, hne ' ' (by decide), hne (Char.ofNat 9) (by decide),
    hne (Char.ofNat 10) (by decide), hne (Char.ofNat 13) (by decide), hne '|' (by decide),
    hne '=' (by decide), hne '(' (by decide), hne ')' (by decide),
    hne (Char.ofNat 123) (by decide), hne (Char.ofNat 125) (by decide), hne '[' (by decide),
    hne ']' (by decide), hne (Char.ofNat 34) (by decide), hne (Char.ofNat 39) (by decide),
    hne NUL (by decide)]

/-- The lexer on a digit run: every non-empty run of decimal digits lexes as one
`IDENT` token, because the digits are identifier characters and `NextToken`
tests for an identifier character before it tests for a digit. -/
theorem tokens_digit_run (s : String) (hne : s ≠ "")
    (hdig : ∀ c ∈ s.data, isDigit c = true) :
    (NewLexer s).tokens 2 = [⟨.IDENT, s⟩, ⟨.EOF, ""⟩] := by
  cases hdata : s.data with
  | nil => exact absurd (String.ext hdata) hne
  | cons c cs =>
    have hc : isDigit c = true := hdig c (by simp [hdata])
    have hc2 : '0' ≤ c ∧ c ≤ '9' := by simpa [isDigit] using hc
    have hne2 : ∀ d : Char, (d < '0' ∨ '9' < d) → c ≠ d := by
      intro d hd hcd
      subst hcd
      rcases hd with hd | hd
      · exact absurd hc2.1 (not_le.mpr hd)
      · exact absurd hc2.2 (not_le.mpr hd)
    have h := tokens_identifier_run s c cs hdata
      (fun x hx => isIdentifierChar_of_isDigit x (hdig x hx))
      ⟨hne2 _ (by decide), hne2 _ (by decide), hne2 _ (by decide), hne2 _ (by decide),
        hne2 _ (by decide)⟩
      (fun h => absurd h (hne2 _ (by decide)))
    rw [h]
    have hkw : LookupIdent s = .IDENT := by
      apply LookupIdent_of_not_keyword
      intro hmem
      simp only [List.mem_cons, List.mem_singleton, List.not_mem_nil, or_false] at hmem
      have hhead : ∀ t : String, s = t → t.data.head? = some c := by
        intro t ht
        subst ht
        simp [hdata]
      rcases hmem with h | h | h | h | h | h | h | h | h | h | h | h | h <;>
        · have hh := hhead _ h
          simp only [List.head?_cons, Option.some.injEq] at hh
          exact hne2 _ (by decide) hh.symm
    rw [hkw]

/-- C18 fails on the code: the input `123` lexes as the single token `IDENT` with
literal `123`, then `EOF`; no `INT` token is produced. -/
theorem lex_digit_run_is_ident :
    (NewLexer "123").tokens 2 = [⟨.IDENT, "123"⟩, ⟨.EOF, ""⟩] ∧
    ((NewLexer "123").NextToken).1.type ≠ .INT := by
  decide

/-- C20: quoted strings and silent truncation. For each quote character `q`
(double or single) and every `s` containing neither `q` nor the rune `0`, lexing
`q ++ s ++ q` yields one `STRING` token whose literal is exactly `s`, followed by
`EOF`; lexing the unterminated `q ++ s` yields the same `STRING` token, followed
by `EOF`. -/
theorem lex_quoted_string (q : Char) (hq : q = Char.ofNat 34 ∨ q = Char.ofNat 39) (s : String)
    (hs : ∀ c ∈ s.data, c ≠ q ∧ c ≠ NUL) :
    (NewLexer (String.singleton q ++ s ++ String.singleton q)).tokens 2
      = [⟨.STRING, s⟩, ⟨.EOF, ""⟩] ∧
    (NewLexer (String.singleton q ++ s)).tokens 2 = [⟨.STRING, s⟩, ⟨.EOF, ""⟩] := by
  constructor
  · have hdata : (String.singleton q ++ s ++ String.singleton q).data = q :: (s.data ++ [q]) := by
      simp [String.singleton]
    have h1 := Lexer.NextToken_string q hq _ 0 s.data [q] (by rw [hdata]; rfl) hs
      (Or.inl rfl)
    have hlen : 0 + 1 + s.data.length + 1
        = (String.singleton q ++ s ++ String.singleton q).data.length := by
      rw [hdata]
      simp
      omega
    rw [hlen] at h1
    have h2 := Lexer.NextToken_eof (String.singleton q ++ s ++ String.singleton q)
      (String.singleton q ++ s ++ String.singleton q).data.length (by simp)
    simp only [Lexer.tokens, NewLexer_eq_atPos, h1, h2]
  · have hdata : (String.singleton q ++ s).data = q :: (s.data ++ []) := by
      simp [String.singleton]
    have h1 := Lexer.NextToken_string q hq _ 0 s.data [] (by rw [hdata]; rfl) hs
      (Or.inr rfl)
    have hlen : 0 + 1 + s.data.length + 1 = (String.singleton q ++ s).data.length + 1 := by
      rw [hdata]
      simp
      omega
    rw [hlen] at h1
    have h2 := Lexer.NextToken_eof (String.singleton q ++ s)
      ((String.singleton q ++ s).data.length + 1)
      (List.drop_eq_nil_iff.mpr (by omega))
    simp only [Lexer.tokens, NewLexer_eq_atPos, h1, h2]

/-- C20, evaluated: the terminated and the unterminated `"a b` both lex as the
`STRING` token `a b` followed by `EOF`, and so does the single-quoted form. -/
theorem lex_quoted_string_witness :
    (NewLexer (dquote ++ "a b" ++ dquote)).tokens 2 = [⟨.STRING, "a b"⟩, ⟨.EOF, ""⟩] ∧
    (NewLexer (dquote ++ "a b")).tokens 2 = [⟨.STRING, "a b"⟩, ⟨.EOF, ""⟩] ∧
    (NewLexer (apostrophe ++ "a b")).tokens 2 = [⟨.STRING, "a b"⟩, ⟨.EOF, ""⟩] :=
  ⟨(lex_quoted_string (Char.ofNat 34) (Or.inl rfl) "a b" (by decide)).1,
   (lex_quoted_string (Char.ofNat 34) (Or.inl rfl) "a b" (by decide)).2,
   (lex_quoted_string (Char.ofNat 39) (Or.inr rfl) "a b" (by decide)).2⟩

end Lexing


section Parsing

theorem Lexer.NextToken_word (input : String) (p : Nat) (ws post : List Char) (s : String)
    (hdrop : input.data.drop p = ws ++ (s.data ++ post))
    (hws : ∀ c ∈ ws, isWhitespace c = true) (hs : IdentWord s)
    (hpost : isIdentifierChar (post.headD NUL) = false) :
    (Lexer.atPos input p).NextToken
        = (⟨.IDENT, s⟩, Lexer.atPos input (p + ws.length + s.data.length)) ∧
      input.data.drop (p + ws.length + s.data.length) = post := by
  obtain ⟨hne, hall, hkw, hfirst, hdot⟩ := hs
  cases hdata : s.data with
  | nil => exact absurd (String.ext hdata) hne
  | cons c cs =>
    have hcid : isIdentifierChar c = true := hall c (by simp [hdata])
    have hdrop1 : input.data.drop (p + ws.length) = (c :: cs) ++ post := by
      rw [← hdata]
      exact drop_add_of_drop_append _ _ _ _ hdrop
    have hskip := Lexer.NextToken_skip input p ws (s.data ++ post) hdrop hws
      (by rw [hdata]; exact isWhitespace_of_isIdentifierChar c hcid)
    have hid := Lexer.NextToken_identifier input (p + ws.length) c cs post hdrop1
      (by rw [← hdata]; exact hall) hpost (hfirst c (by simp [hdata]))
      (by
        intro hc hcs
        subst hc
        subst hcs
        exact hdot (String.ext hdata))
    have hmk : String.mk (c :: cs) = s := by rw [← hdata]
    rw [hmk, LookupIdent_of_not_keyword s hkw] at hid
    exact ⟨hskip.trans hid, drop_add_of_drop_append _ _ _ _ hdrop1⟩

theorem Lexer.NextToken_pipe_ws (input : String) (p : Nat) (ws rest : List Char)
    (hdrop : input.data.drop p = ws ++ ('|' :: rest))
    (hws : ∀ c ∈ ws, isWhitespace c = true) :
    (Lexer.atPos input p).NextToken
        = (⟨.PIPE, "|"⟩, Lexer.atPos input (p + ws.length + 1)) ∧
      input.data.drop (p + ws.length + 1) = rest := by
  have hdrop1 : input.data.drop (p + ws.length) = '|' :: rest :=
    drop_add_of_drop_append _ _ _ _ hdrop
  have hskip := Lexer.NextToken_skip input p ws ('|' :: rest) hdrop hws
    (by show isWhitespace '|' = false; decide)
  exact ⟨hskip.trans (Lexer.NextToken_pipe input (p + ws.length) rest hdrop1),
    drop_succ_of_drop_cons _ _ _ _ hdrop1⟩

/-- The tokens of `a | b | c`: three `IDENT` tokens separated by two `PIPE`
tokens, then `EOF` for ever. -/
theorem tokens_three_stage_pipeline (a b c : String) (ha : IdentWord a) (hb : IdentWord b)
    (hc : IdentWord c) :
    ∃ l1 l2 l3 l4 l5 l6 l7 : Lexer,
      (NewLexer (a ++ " | " ++ b ++ " | " ++ c)).NextToken = (⟨.IDENT, a⟩, l1) ∧
      l1.NextToken = (⟨.PIPE, "|"⟩, l2) ∧ l2.NextToken = (⟨.IDENT, b⟩, l3) ∧
      l3.NextToken = (⟨.PIPE, "|"⟩, l4) ∧ l4.NextToken = (⟨.IDENT, c⟩, l5) ∧
      l5.NextToken = (⟨.EOF, ""⟩, l6) ∧ l6.NextToken = (⟨.EOF, ""⟩, l7) := by
  have hdata : (a ++ " | " ++ b ++ " | " ++ c).data
      = [] ++ (a.data ++ (' ' :: '|' :: ' ' :: (b.data ++ (' ' :: '|' :: ' ' :: c.data)))) := by
    simp [String.data_append]
  have hsp : ∀ x ∈ [' '], isWhitespace x = true := by decide
  have hnil : ∀ x ∈ ([] : List Char), isWhitespace x = true := by simp
  have hspace : isIdentifierChar ' ' = false := by decide
  obtain ⟨t1, d1⟩ := Lexer.NextToken_word (a ++ " | " ++ b ++ " | " ++ c) 0 []
    (' ' :: '|' :: ' ' :: (b.data ++ (' ' :: '|' :: ' ' :: c.data))) a
    (by rw [hdata]; rfl) hnil ha hspace
  obtain ⟨t2, d2⟩ := Lexer.NextToken_pipe_ws _ _ [' '] _ d1 hsp
  obtain ⟨t3, d3⟩ := Lexer.NextToken_word _ _ [' '] (' ' :: '|' :: ' ' :: c.data) b d2 hsp hb
    hspace
  obtain ⟨t4, d4⟩ := Lexer.NextToken_pipe_ws _ _ [' '] _ d3 hsp
  rw [show (' ' :: c.data) = [' '] ++ (c.data ++ []) by simp] at d4
  obtain ⟨t5, d5⟩ := Lexer.NextToken_word _ _ [' '] [] c d4 hsp hc (by decide)
  have t6 := Lexer.NextToken_eof _ _ d5
  have t7 := Lexer.NextToken_eof _ _ (drop_succ_of_drop_nil _ _ d5)
  rw [← NewLexer_eq_atPos] at t1
  exact ⟨_, _, _, _, _, _, _, t1, t2, t3, t4, t5, t6, t7⟩

theorem Parser.parseArgsLoop_stop (fuel : Nat) (p : Parser) (args : List Expression)
    (h : p.peekToken.type = .PIPE ∨ p.peekToken.type = .EOF) :
    Parser.parseArgsLoop fuel p args = (args, p) := by
  cases fuel with
  | zero => rfl
  | succ n =>
    rcases h with h | h <;> simp [Parser.parseArgsLoop, Parser.peekTokenIs, h]

theorem Parser.parseCommandExpression_bare (p : Parser) (x : String)
    (hcur : p.curToken = ⟨.IDENT, x⟩)
    (h : p.peekToken.type = .PIPE ∨ p.peekToken.type = .EOF) :
    p.parseCommandExpression = (some (bareCommand x), p) := by
  simp only [Parser.parseCommandExpression, Parser.isCommandStartToken, hcur,
    Parser.parseArgsLoop_stop _ p [] h, bareCommand]
  simp

theorem Parser.parseExpressionFuel_last (fuel : Nat) (p : Parser) (x : String)
    (hcur : p.curToken = ⟨.IDENT, x⟩) (h : p.peekToken.type = .EOF) :
    Parser.parseExpressionFuel (fuel + 1) p = (some (bareCommand x), p) := by
  have hstart : p.isCommandStartToken = true := by
    simp [Parser.isCommandStartToken, hcur]
  rw [Parser.parseExpressionFuel]
  simp only [hstart, if_true, Parser.parseCommandExpression_bare p x hcur (Or.inr h),
    Parser.peekTokenIs, h]
  simp

theorem Parser.parseExpressionFuel_pipe (fuel : Nat) (p : Parser) (x : String) (t t2 : Token)
    (la lb : Lexer) (hcur : p.curToken = ⟨.IDENT, x⟩) (hpeek : p.peekToken = ⟨.PIPE, "|"⟩)
    (hl : p.l.NextToken = (t, la)) (hl2 : la.NextToken = (t2, lb)) :
    Parser.parseExpressionFuel (fuel + 1) p =
      match Parser.parseExpressionFuel fuel ⟨lb, p.errors, t, t2⟩ with
      | (none, p4) =>
        (none, { p4 with errors := p4.errors ++
          ["expresión vacía o inválida después del pipe " ++ apostrophe ++ "|" ++
            apostrophe] })
      | (some right, p4) =>
        (some (.pipelineExpression ⟨.PIPE, "|"⟩ (bareCommand x) right), p4) := by
  have hstart : p.isCommandStartToken = true := by
    simp [Parser.isCommandStartToken, hcur]
  have hpt : p.peekToken.type = .PIPE := by rw [hpeek]
  rw [Parser.parseExpressionFuel]
  simp only [hstart, if_true, Parser.parseCommandExpression_bare p x hcur (Or.inl hpt),
    Parser.peekTokenIs, hpt, decide_True, Parser.nextToken, hl, hl2, hpeek]

theorem NewParser_eq (l l1 l2 : Lexer) (t1 t2 : Token) (h1 : l.NextToken = (t1, l1))
    (h2 : l1.NextToken = (t2, l2)) : NewParser l = ⟨l2, [], t1, t2⟩ := by
  unfold NewParser
  rw [h1]
  simp only []
  rw [h2]

theorem Parser.nextToken_eq (p : Parser) (t : Token) (l1 : Lexer)
    (h : p.l.NextToken = (t, l1)) :
    p.nextToken = ⟨l1, p.errors, p.peekToken, t⟩ := by
  unfold Parser.nextToken
  rw [h]

theorem parseProgram_three_stage (l0 l1 l2 l3 l4 l5 l6 l7 : Lexer) (a b c : String)
    (h1 : l0.NextToken = (⟨.IDENT, a⟩, l1)) (h2 : l1.NextToken = (⟨.PIPE, "|"⟩, l2))
    (h3 : l2.NextToken = (⟨.IDENT, b⟩, l3)) (h4 : l3.NextToken = (⟨.PIPE, "|"⟩, l4))
    (h5 : l4.NextToken = (⟨.IDENT, c⟩, l5)) (h6 : l5.NextToken = (⟨.EOF, ""⟩, l6))
    (h7 : l6.NextToken = (⟨.EOF, ""⟩, l7)) :
    (NewParser l0).ParseProgram
      = (⟨[.expressionStatement ⟨.IDENT, a⟩ (.pipelineExpression ⟨.PIPE, "|"⟩ (bareCommand a)
            (.pipelineExpression ⟨.PIPE, "|"⟩ (bareCommand b) (bareCommand c)))]⟩,
          ⟨l7, [], ⟨.EOF, ""⟩, ⟨.EOF, ""⟩⟩) := by
  have hnew := NewParser_eq l0 l1 l2 _ _ h1 h2
  have hc : ∀ n, Parser.parseExpressionFuel (n + 1) ⟨l6, [], ⟨.IDENT, c⟩, ⟨.EOF, ""⟩⟩
      = (some (bareCommand c), ⟨l6, [], ⟨.IDENT, c⟩, ⟨.EOF, ""⟩⟩) :=
    fun n => Parser.parseExpressionFuel_last n _ c rfl rfl
  have hb : ∀ n, Parser.parseExpressionFuel (n + 1 + 1) ⟨l4, [], ⟨.IDENT, b⟩, ⟨.PIPE, "|"⟩⟩
      = (some (.pipelineExpression ⟨.PIPE, "|"⟩ (bareCommand b) (bareCommand c)),
          ⟨l6, [], ⟨.IDENT, c⟩, ⟨.EOF, ""⟩⟩) := by
    intro n
    rw [Parser.parseExpressionFuel_pipe (n + 1) ⟨l4, [], ⟨.IDENT, b⟩, ⟨.PIPE, "|"⟩⟩ b
      ⟨.IDENT, c⟩ ⟨.EOF, ""⟩ l5 l6 rfl rfl h5 h6, hc]
  have ha : ∀ n, Parser.parseExpressionFuel (n + 1 + 1 + 1)
      ⟨l2, [], ⟨.IDENT, a⟩, ⟨.PIPE, "|"⟩⟩
      = (some (.pipelineExpression ⟨.PIPE, "|"⟩ (bareCommand a)
            (.pipelineExpression ⟨.PIPE, "|"⟩ (bareCommand b) (bareCommand c))),
          ⟨l6, [], ⟨.IDENT, c⟩, ⟨.EOF, ""⟩⟩) := by
    intro n
    rw [Parser.parseExpressionFuel_pipe (n + 1 + 1) ⟨l2, [], ⟨.IDENT, a⟩, ⟨.PIPE, "|"⟩⟩ a
      ⟨.IDENT, b⟩ ⟨.PIPE, "|"⟩ l3 l4 rfl rfl h3 h4, hb]
  have hexpr : (Parser.mk l2 [] ⟨.IDENT, a⟩ ⟨.PIPE, "|"⟩).parseExpression
      = (some (.pipelineExpression ⟨.PIPE, "|"⟩ (bareCommand a)
            (.pipelineExpression ⟨.PIPE, "|"⟩ (bareCommand b) (bareCommand c))),
          ⟨l6, [], ⟨.IDENT, c⟩, ⟨.EOF, ""⟩⟩) := ha (l2.input.data.length + 1)
  have hstmt : (Parser.mk l2 [] ⟨.IDENT, a⟩ ⟨.PIPE, "|"⟩).parseStatement
      = (some (.expressionStatement ⟨.IDENT, a⟩ (.pipelineExpression ⟨.PIPE, "|"⟩
            (bareCommand a) (.pipelineExpression ⟨.PIPE, "|"⟩ (bareCommand b) (bareCommand c)))),
          ⟨l6, [], ⟨.IDENT, c⟩, ⟨.EOF, ""⟩⟩) := by
    simp only [Parser.parseStatement, Parser.parseExpressionStatement, hexpr]
  have hnext : (Parser.mk l6 [] ⟨.IDENT, c⟩ ⟨.EOF, ""⟩).nextToken
      = ⟨l7, [], ⟨.EOF, ""⟩, ⟨.EOF, ""⟩⟩ :=
    Parser.nextToken_eq ⟨l6, [], ⟨.IDENT, c⟩, ⟨.EOF, ""⟩⟩ _ _ h7
  have hloop : ∀ n, Parser.parseProgramLoop (n + 1 + 1) ⟨l2, [], ⟨.IDENT, a⟩, ⟨.PIPE, "|"⟩⟩ []
      = ([.expressionStatement ⟨.IDENT, a⟩ (.pipelineExpression ⟨.PIPE, "|"⟩ (bareCommand a)
            (.pipelineExpression ⟨.PIPE, "|"⟩ (bareCommand b) (bareCommand c)))],
          ⟨l7, [], ⟨.EOF, ""⟩, ⟨.EOF, ""⟩⟩) := by
    intro n
    rw [Parser.parseProgramLoop]
    simp only [hstmt, hnext, ne_eq, reduceCtorEq, not_false_eq_true, if_true]
    rw [Parser.parseProgramLoop]
    simp
  rw [hnew]
  simp only [Parser.ParseProgram]
  rw [show (Parser.mk l2 [] ⟨.IDENT, a⟩ ⟨.PIPE, "|"⟩).fuel = (l2.input.data.length + 2) + 1 + 1
    from rfl, hloop]

/-- C16: pipelines parse right-nested. For every three command names `a`, `b`,
`c` that lex as `IDENT` tokens, parsing the input `a | b | c` records no error
and yields a program with exactly one `ExpressionStatement`, whose expression is
`PipelineExpression{Left: Command a, Right: PipelineExpression{Left: Command b,
Right: Command c}}`, each command without arguments; its textual
reconstruction is `(a | (b | c))`. -/
theorem parse_pipeline_right_nested (a b c : String) (ha : IdentWord a) (hb : IdentWord b)
    (hc : IdentWord c) :
    ((NewParser (NewLexer (a ++ " | " ++ b ++ " | " ++ c))).ParseProgram).1.statements
      = [.expressionStatement ⟨.IDENT, a⟩ (.pipelineExpression ⟨.PIPE, "|"⟩ (bareCommand a)
          (.pipelineExpression ⟨.PIPE, "|"⟩ (bareCommand b) (bareCommand c)))] ∧
    ((NewParser (NewLexer (a ++ " | " ++ b ++ " | " ++ c))).ParseProgram).2.Errors = [] ∧
    (Expression.pipelineExpression ⟨.PIPE, "|"⟩ (bareCommand a)
        (.pipelineExpression ⟨.PIPE, "|"⟩ (bareCommand b) (bareCommand c))).String
      = "(" ++ a ++ " | " ++ ("(" ++ b ++ " | " ++ c ++ ")") ++ ")" := by
  obtain ⟨l1, l2, l3, l4, l5, l6, l7, h1, h2, h3, h4, h5, h6, h7⟩ :=
    tokens_three_stage_pipeline a b c ha hb hc
  rw [parseProgram_three_stage _ l1 l2 l3 l4 l5 l6 l7 a b c h1 h2 h3 h4 h5 h6 h7]
  refine ⟨rfl, rfl, ?_⟩
  simp [Expression.String, CommandExpression.String, Expression.Strings, bareCommand,
    String.intercalate, String.intercalate.go]

/-- C16, evaluated: `ls | grep | wc` parses without error to the one statement
`(ls | (grep | wc))`. -/
theorem parse_pipeline_right_nested_witness :
    ((NewParser (NewLexer ("ls" ++ " | " ++ "grep" ++ " | " ++ "wc"))).ParseProgram).1.statements
      = [.expressionStatement ⟨.IDENT, "ls"⟩ (.pipelineExpression ⟨.PIPE, "|"⟩
          (bareCommand "ls")
          (.pipelineExpression ⟨.PIPE, "|"⟩ (bareCommand "grep") (bareCommand "wc")))] ∧
    ((NewParser (NewLexer ("ls" ++ " | " ++ "grep" ++ " | " ++ "wc"))).ParseProgram).2.Errors
      = [] :=
  match parse_pipeline_right_nested "ls" "grep" "wc"
      ⟨by decide, by decide, by decide, by decide, by decide⟩
      ⟨by decide, by decide, by decide, by decide, by decide⟩
      ⟨by decide, by decide, by decide, by decide, by decide⟩ with
  | ⟨h1, h2, _⟩ => ⟨h1, h2⟩

/-- The result of `parseStatement` is never the nil interface: a failed parse
gives an interface value that holds a nil pointer. -/
theorem Parser.parseStatement_isSome (p : Parser) : (p.parseStatement).1.isSome = true := by
  unfold Parser.parseStatement
  split
  · split <;> rfl
  · split <;> rfl

/-- C17 fails on the code: on the input `)` the statement does not parse
(`parseExpressionStatement` returns nil), yet `Program.Statements` has one entry,
the nil `*ExpressionStatement` held in a `Statement` interface value; on the
input `let` the same happens with the nil `*LetStatement`. -/
theorem parseProgram_keeps_failed_statement :
    ((NewParser (NewLexer ")")).parseExpressionStatement).1.isNone = true ∧
    ((NewParser (NewLexer ")")).ParseProgram).1.statements = [.nilExpressionStatement] ∧
    ((NewParser (NewLexer "let")).parseLetStatement).1.isNone = true ∧
    ((NewParser (NewLexer "let")).ParseProgram).1.statements = [.nilLetStatement] :=
  ⟨rfl, rfl, rfl, rfl⟩

end Parsing

section Stages

variable {F W : Type}

/-- C25: pipeline evaluation is associative. For every environment and every
expressions `a`, `b`, `c`, `Eval` of `Pipeline(Pipeline(a, b), c)` and of
`Pipeline(a, Pipeline(b, c))` return the same object and leave the same outside
world, whether or not a stage yields an `Error` and whether or not `b` or `c` is
a command: both evaluate `a`, then `b` as a stage fed the result of `a`, then `c`
as a stage fed the result of `b`, stopping at the first `Error`. -/
theorem pipeline_associative (P : Platform F W) (env : Environment F) (a b c : Expression)
    (t1 t2 t3 t4 : Token) (w : W) :
    Eval P (.expression (.pipelineExpression t1 (.pipelineExpression t2 a b) c)) env w
      = Eval P (.expression (.pipelineExpression t3 a (.pipelineExpression t4 b c))) env w ∧
    Eval P (.expression (.pipelineExpression t3 a (.pipelineExpression t4 b c))) env w
      = some (
        match evalExpr P env a w with
        | (ra, wa) =>
          if isError (some ra) then (some ra, env, wa)
          else
            match evalPipelineChain P env b wa ra with
            | (rb, wb) =>
              if isError (some rb) then (some rb, env, wb)
              else
                match evalPipelineChain P env c wb rb with
                | (rc, wc) => (some rc, env, wc)) := by
  constructor
  · simp only [Eval, evalExpr, evalPipelineChain]
    cases evalExpr P env a w with
    | mk ra wa =>
      by_cases hra : isError (some ra) = true
      · simp [hra]
      · simp only [hra]
        cases evalPipelineChain P env b wa ra with
        | mk rb wb =>
          by_cases hrb : isError (some rb) = true
          · simp [hrb]
          · simp [hrb]
  · simp only [Eval, evalExpr, evalPipelineChain]
    cases evalExpr P env a w with
    | mk ra wa =>
      by_cases hra : isError (some ra) = true
      · simp [hra]
      · simp only [hra]
        cases evalPipelineChain P env b wa ra with
        | mk rb wb =>
          by_cases hrb : isError (some rb) = true
          · simp [hrb]
          · simp [hrb]

/-- C26: a bound variable used as a pipeline stage discards its input. When the
environment binds `v` to `val`, evaluating `CommandExpression(v, no arguments)`
with any pipeline input, present or absent, returns `val` and leaves the
outside world unchanged; so `x | v` evaluates to `val` whatever `x` produces,
provided it is not an `Error`. -/
theorem bound_variable_stage (P : Platform F W) (env : Environment F) (v : String)
    (val : Object F) (tok nameTok pipeTok : Token) (hv : env.Get v = some val) :
    (∀ (input : Option (Object F)) (w : W),
      evalCommandExpression P env (.mk tok (.identifier nameTok v) []) w input = (val, w)) ∧
    (∀ (x : Expression) (w w1 : W) (rx : Object F), evalExpr P env x w = (rx, w1) →
      isError (some rx) = false →
      Eval P (.expression (.pipelineExpression pipeTok x
        (.commandExpression (.mk tok (.identifier nameTok v) [])))) env w
        = some (some val, env, w1)) := by
  have h1 : ∀ (input : Option (Object F)) (w : W),
      evalCommandExpression P env (.mk tok (.identifier nameTok v) []) w input = (val, w) := by
    intro input w
    rw [evalCommandExpression]
    simp [hv]
  refine ⟨h1, ?_⟩
  intro x w w1 rx hx hrx
  simp [Eval, evalExpr, evalPipelineChain, hx, hrx, h1]

/-- C26, evaluated: with `v` bound to `"kept"`, the pipeline `"in" | v` is
`"kept"`. -/
theorem bound_variable_stage_witness :
    Eval examplePlatform (.expression (.pipelineExpression ⟨.PIPE, "|"⟩
        (.stringLiteral ⟨.STRING, "in"⟩ "in")
        (.commandExpression (.mk (identToken "v") (.identifier (identToken "v") "v") []))))
      (NewEnvironment.Set "v" (.string "kept")) ()
      = some (some (.string "kept"), NewEnvironment.Set "v" (.string "kept"), ()) :=
  (bound_variable_stage examplePlatform (NewEnvironment.Set "v" (.string "kept")) "v"
    (.string "kept") (identToken "v") (identToken "v") ⟨.PIPE, "|"⟩ rfl).2
    (.stringLiteral ⟨.STRING, "in"⟩ "in") () () (.string "in") rfl rfl

/-- C27: `select` key collisions are last-wins. For every `Json` object `d` and
paths `p1`, `p2`, given in that order, that both resolve in `d` and share the
final segment `k`, the object returned by `builtinSelect` has the single key `k`,
and its value is the one resolved by `p2`, the later path; the value of `p1` is
lost without an error. -/
theorem builtinSelect_last_wins (d : List (String × JVal F)) (p1 p2 k : String)
    (v1 v2 : JVal F) (h1 : accessField (.object d) (parsePath p1) = some v1)
    (h2 : accessField (.object d) (parsePath p2) = some v2)
    (hk1 : (parsePath p1).getLast? = some k) (hk2 : (parsePath p2).getLast? = some k) :
    builtinSelect (some (.json (.object d))) [.string p1, .string p2]
      = .json (.object [(k, v2)]) := by
  simp [builtinSelect, selectPaths, processObject, processObjectLoop, h1, h2, hk1, hk2, mapSet]

/-- C27, evaluated: `select .a.x .b.x` on `{"a":{"x":"1"},"b":{"x":"2"}}` is
`{"x":"2"}`. -/
theorem builtinSelect_last_wins_witness :
    builtinSelect (F := Int)
        (some (.json (.object [("a", .object [("x", .string "1")]),
          ("b", .object [("x", .string "2")])])))
        [.string ".a.x", .string ".b.x"] = .json (.object [("x", .string "2")]) :=
  builtinSelect_last_wins _ ".a.x" ".b.x" "x" (.string "1") (.string "2") rfl rfl rfl rfl

/-- C28: the path derived from a builtin argument is never empty. For every
argument `p` the path `parsePath p` has at least one segment, so it has a last
segment and the index `path[len(path)-1]` of `select` is in range; for the
arguments `.` and the empty string the path is the single empty segment. Hence
for every `Json` object `d` without an empty-string key, `get .` returns `Null`
and not `d` itself. -/
theorem parsePath_never_empty (P : Platform F W) (p : String) (d : List (String × JVal F)) :
    parsePath p ≠ [] ∧ 1 ≤ (parsePath p).length ∧ (parsePath p).getLast?.isSome = true ∧
    parsePath "." = [""] ∧ parsePath "" = [""] ∧
    (d.lookup "" = none →
      builtinGet P (some (.json (.object d))) [.string "."] = .null ∧
      builtinGet P (some (.json (.object d))) [.string ""] = .null) := by
  have hne := parsePath_ne_nil p
  refine ⟨hne, ?_, ?_, by decide, by decide, ?_⟩
  · exact Nat.one_le_iff_ne_zero.mpr (fun h => hne (List.length_eq_zero.mp h))
  · cases h : parsePath p with
    | nil => exact absurd h hne
    | cons x xs => simp [List.getLast?]
  · intro hd
    have e1 : parsePath "." = [""] := by decide
    have e2 : parsePath "" = [""] := by decide
    simp [builtinGet, e1, e2, accessField, hd]

/-- C28, evaluated: `get .` on `{"a":"1"}` is `Null`. -/
theorem parsePath_never_empty_witness :
    builtinGet examplePlatform (some (.json (.object [("a", .string "1")]))) [.string "."]
      = .null :=
  ((parsePath_never_empty examplePlatform "." [("a", .string "1")]).2.2.2.2.2 rfl).1

end Stages

section Progress

theorem headD_dropWhile (cond : Char → Bool) (h0 : cond NUL = false) (l : List Char) :
    cond ((l.dropWhile cond).headD NUL) = false := by
  induction l with
  | nil => simpa using h0
  | cons x xs ih =>
    by_cases hx : cond x = true
    · simpa [List.dropWhile, hx] using ih
    · simp [List.dropWhile, hx]

/-- A loop `for cond(l.ch) { l.readChar() }` started at index `p` ends by its own
condition: it stops at an index `p + k` whose character fails `cond`, for every
number of rounds from `len(input) + 1` on, and `k ≥ 1` when the loop is entered
on a character that satisfies `cond`. -/
theorem Lexer.readWhile_ends (cond : Char → Bool) (h0 : cond NUL = false) (input : String)
    (p : Nat) :
    ∃ k, (∀ fuel, input.data.length + 1 ≤ fuel →
        Lexer.readWhile cond fuel (Lexer.atPos input p) = Lexer.atPos input (p + k)) ∧
      cond (Lexer.atPos input (p + k)).ch = false ∧
      (cond (Lexer.atPos input p).ch = true → 1 ≤ k) ∧
      slice input p (p + k) = String.mk ((input.data.drop p).takeWhile cond) := by
  have hsplit : input.data.drop p
      = (input.data.drop p).takeWhile cond ++ (input.data.drop p).dropWhile cond :=
    (List.takeWhile_append_dropWhile cond (input.data.drop p)).symm
  have hall : ∀ c ∈ (input.data.drop p).takeWhile cond, cond c = true :=
    fun c hc => List.mem_takeWhile_imp hc
  have hpost := headD_dropWhile cond h0 (input.data.drop p)
  have hlen := length_le_of_drop_append _ _ _ _ hsplit
  refine ⟨((input.data.drop p).takeWhile cond).length, ?_, ?_, ?_, ?_⟩
  · intro fuel hfuel
    exact Lexer.readWhile_atPos cond input _ _ p fuel hsplit hall hpost (by omega)
  · rw [Lexer.atPos_ch, drop_add_of_drop_append _ _ _ _ hsplit]
    exact hpost
  · intro hch
    rw [Lexer.atPos_ch] at hch
    cases hd : input.data.drop p with
    | nil => rw [hd] at hch; simp [h0] at hch
    | cons c rest =>
      rw [hd] at hch
      have hc : cond c = true := by simpa using hch
      simp [List.takeWhile, hc]
  · exact slice_of_drop input p _ _ hsplit

theorem Lexer.readStringLoop_ends (quote : Char) (input : String) (p : Nat) :
    ∃ k, (∀ fuel, input.data.length + 1 ≤ fuel →
        Lexer.readStringLoop quote fuel (Lexer.atPos input p)
          = Lexer.atPos input (p + 1 + k)) ∧
      ((Lexer.atPos input (p + 1 + k)).ch = quote ∨ (Lexer.atPos input (p + 1 + k)).ch = NUL) := by
  let cond : Char → Bool := fun c => decide (c ≠ quote ∧ c ≠ NUL)
  have h0 : cond NUL = false := by simp [cond]
  have hsplit : input.data.drop (p + 1)
      = (input.data.drop (p + 1)).takeWhile cond ++ (input.data.drop (p + 1)).dropWhile cond :=
    (List.takeWhile_append_dropWhile cond (input.data.drop (p + 1))).symm
  have hall : ∀ c ∈ (input.data.drop (p + 1)).takeWhile cond, c ≠ quote ∧ c ≠ NUL := by
    intro c hc
    have := List.mem_takeWhile_imp hc
    simpa [cond] using this
  have hpost0 := headD_dropWhile cond h0 (input.data.drop (p + 1))
  have hpost : ((input.data.drop (p + 1)).dropWhile cond).headD NUL = quote ∨
      ((input.data.drop (p + 1)).dropWhile cond).headD NUL = NUL := by
    simp only [cond, decide_eq_false_iff_not, not_and_or, not_not] at hpost0
    exact hpost0
  have hlen := length_le_of_drop_append _ _ _ _ hsplit
  refine ⟨((input.data.drop (p + 1)).takeWhile cond).length, ?_, ?_⟩
  · intro fuel hfuel
    exact Lexer.readStringLoop_atPos quote input _ _ p fuel hsplit hall hpost (by omega)
  · rw [Lexer.atPos_ch, drop_add_of_drop_append _ _ _ _ hsplit]
    exact hpost

theorem Lexer.readIdentifier_ends (input : String) (q : Nat) :
    ∃ lit m, (Lexer.atPos input q).readIdentifier = (lit, Lexer.atPos input (q + m)) ∧
      (isIdentifierChar (Lexer.atPos input q).ch = true → 1 ≤ m) ∧
      isIdentifierChar (Lexer.atPos input (q + m)).ch = false := by
  obtain ⟨k, hk, hend, hpos, _⟩ := Lexer.readWhile_ends isIdentifierChar (by decide) input q
  refine ⟨slice input q (q + k), k, ?_, hpos, hend⟩
  simp only [Lexer.readIdentifier]
  rw [show (Lexer.atPos input q).input = input from rfl, hk _ (le_refl _)]
  rfl

theorem Lexer.readNumber_ends (input : String) (q : Nat) :
    ∃ lit m, (Lexer.atPos input q).readNumber = (lit, Lexer.atPos input (q + m)) ∧
      (isDigit (Lexer.atPos input q).ch = true → 1 ≤ m) := by
  obtain ⟨k, hk, _, hpos, _⟩ := Lexer.readWhile_ends isDigit (by decide) input q
  refine ⟨slice input q (q + k), k, ?_, hpos⟩
  simp only [Lexer.readNumber]
  rw [show (Lexer.atPos input q).input = input from rfl, hk _ (le_refl _)]
  rfl

theorem Lexer.readString_ends (input : String) (q : Nat) (quote : Char) :
    ∃ lit k, (Lexer.atPos input q).readString quote = (lit, Lexer.atPos input (q + 1 + k)) := by
  obtain ⟨k, hk, _⟩ := Lexer.readStringLoop_ends quote input q
  refine ⟨slice input (q + 1) (q + 1 + k), k, ?_⟩
  simp only [Lexer.readString]
  rw [show (Lexer.atPos input q).input = input from rfl, hk _ (le_refl _)]
  rfl

theorem Lexer.oneOrTwo_ends (input : String) (q : Nat) (two one : TokenType) :
    ∃ tok q', (Lexer.atPos input q).oneOrTwo two one = (tok, Lexer.atPos input q') ∧ q < q' := by
  simp only [Lexer.oneOrTwo, Lexer.readChar_atPos]
  split_ifs
  · exact ⟨_, q + 1 + 1, rfl, by omega⟩
  · exact ⟨_, q + 1, rfl, by omega⟩

theorem Lexer.NextToken_progress_aux (input : String) (q : Nat)
    (hws : isWhitespace (Lexer.atPos input q).ch = false) :
    ∃ tok q', (Lexer.atPos input q).NextToken = (tok, Lexer.atPos input q') ∧ q < q' := by
  have hskip := Lexer.skipWhitespace_of_not_ws _ hws
  obtain ⟨lit1, m1, hid, hid1, _⟩ := Lexer.readIdentifier_ends input q
  obtain ⟨lit2, m2, hnum, hnum1⟩ := Lexer.readNumber_ends input q
  obtain ⟨lit3, k3, hstr⟩ := Lexer.readString_ends input q (Lexer.atPos input q).ch
  have hdot : isIdentifierChar '.' = true := by decide
  simp only [Lexer.NextToken, hskip, hid, hnum, hstr, Lexer.readChar_atPos]
  by_cases h1 : (Lexer.atPos input q).ch = '='
  · rw [if_pos h1]
    exact Lexer.oneOrTwo_ends input q _ _
  rw [if_neg h1]
  by_cases hs0 : (Lexer.atPos input q).ch = '|'
  · rw [if_pos hs0]
    exact ⟨_, q + 1, rfl, by omega⟩
  rw [if_neg hs0]
  by_cases hs1 : (Lexer.atPos input q).ch = ';'
  · rw [if_pos hs1]
    exact ⟨_, q + 1, rfl, by omega⟩
  rw [if_neg hs1]
  by_cases hs2 : (Lexer.atPos input q).ch = '('
  · rw [if_pos hs2]
    exact ⟨_, q + 1, rfl, by omega⟩
  rw [if_neg hs2]
  by_cases hs3 : (Lexer.atPos input q).ch = ')'
  · rw [if_pos hs3]
    exact ⟨_, q + 1, rfl, by omega⟩
  rw [if_neg hs3]
  by_cases hs4 : (Lexer.atPos input q).ch = Char.ofNat 123
  · rw [if_pos hs4]
    exact ⟨_, q + 1, rfl, by omega⟩
  rw [if_neg hs4]
  by_cases hs5 : (Lexer.atPos input q).ch = Char.ofNat 125
  · rw [if_pos hs5]
    exact ⟨_, q + 1, rfl, by omega⟩
  rw [if_neg hs5]
  by_cases hs6 : (Lexer.atPos input q).ch = '['
  · rw [if_pos hs6]
    exact ⟨_, q + 1, rfl, by omega⟩
  rw [if_neg hs6]
  by_cases hs7 : (Lexer.atPos input q).ch = ']'
  · rw [if_pos hs7]
    exact ⟨_, q + 1, rfl, by omega⟩
  rw [if_neg hs7]
  by_cases hs8 : (Lexer.atPos input q).ch = ','
  · rw [if_pos hs8]
    exact ⟨_, q + 1, rfl, by omega⟩
  rw [if_neg hs8]
  by_cases hd : (Lexer.atPos input q).ch = '.'
  · rw [if_pos hd]
    split_ifs
    · exact ⟨_, q + 1, rfl, by omega⟩
    · exact ⟨_, q + m1, rfl, by have := hid1 (by rw [hd]; exact hdot); omega⟩
  rw [if_neg hd]
  by_cases ho0 : (Lexer.atPos input q).ch = '>'
  · rw [if_pos ho0]
    exact Lexer.oneOrTwo_ends input q _ _
  rw [if_neg ho0]
  by_cases ho1 : (Lexer.atPos input q).ch = '<'
  · rw [if_pos ho1]
    exact Lexer.oneOrTwo_ends input q _ _
  rw [if_neg ho1]
  by_cases ho2 : (Lexer.atPos input q).ch = '!'
  · rw [if_pos ho2]
    exact Lexer.oneOrTwo_ends input q _ _
  rw [if_neg ho2]
  by_cases hq : (Lexer.atPos input q).ch = Char.ofNat 34 ∨ (Lexer.atPos input q).ch = Char.ofNat 39
  · rw [if_pos hq]
    exact ⟨_, q + 1 + k3 + 1, rfl, by omega⟩
  rw [if_neg hq]
  by_cases hn : (Lexer.atPos input q).ch = NUL
  · rw [if_pos hn]
    exact ⟨_, q + 1, rfl, by omega⟩
  rw [if_neg hn]
  by_cases hi : isIdentifierChar (Lexer.atPos input q).ch = true
  · rw [if_pos hi]
    exact ⟨_, q + m1, rfl, by have := hid1 hi; omega⟩
  rw [if_neg hi]
  by_cases hg : isDigit (Lexer.atPos input q).ch = true
  · rw [if_pos hg]
    exact ⟨_, q + m2, rfl, by have := hnum1 hg; omega⟩
  rw [if_neg hg]
  exact ⟨_, q + 1, rfl, by omega⟩

/-- The method `NextToken` advances: from the state at index `p` it returns a
token and the state at an index `p'` with `p < p'`; at or past the end of the
input the token is `EOF` and `p' = p + 1`. -/
theorem Lexer.NextToken_progress (input : String) (p : Nat) :
    ∃ tok p', (Lexer.atPos input p).NextToken = (tok, Lexer.atPos input p') ∧ p < p' ∧
      (input.data.length ≤ p → tok = ⟨.EOF, ""⟩ ∧ p' = p + 1) := by
  by_cases hlen : input.data.length ≤ p
  · exact ⟨_, _, Lexer.NextToken_eof input p (List.drop_eq_nil_iff.mpr hlen), by omega,
      fun _ => ⟨rfl, rfl⟩⟩
  · obtain ⟨k, hk, hend, _, _⟩ := Lexer.readWhile_ends isWhitespace (by decide) input p
    have hskip : (Lexer.atPos input p).skipWhitespace = Lexer.atPos input (p + k) :=
      hk _ (le_refl _)
    obtain ⟨tok, q', hq, hlt⟩ := Lexer.NextToken_progress_aux input (p + k) hend
    refine ⟨tok, q', ?_, by omega, fun h => absurd h hlen⟩
    rw [← hq]
    apply Lexer.NextToken_congr
    rw [hskip, Lexer.skipWhitespace_of_not_ws _ hend]

end Progress

section ParserProgress

theorem Lexer.WellFormed_atPos (input : String) (q : Nat) : (Lexer.atPos input q).WellFormed :=
  rfl

theorem NewLexer_wellFormed (input : String) : (NewLexer input).WellFormed := by
  rw [NewLexer_eq_atPos]
  rfl

theorem Parser.Advances.refl (p : Parser) (h : p.l.WellFormed) : Parser.Advances p p :=
  ⟨h, rfl, le_refl _, List.prefix_refl _⟩

theorem Parser.Advances.trans {p1 p2 p3 : Parser} (h12 : Parser.Advances p1 p2)
    (h23 : Parser.Advances p2 p3) : Parser.Advances p1 p3 :=
  ⟨h23.wf, h23.input.trans h12.input, le_trans h23.remaining h12.remaining,
    List.IsPrefix.trans h12.errors h23.errors⟩

theorem Parser.remaining_le (p : Parser) : p.remaining ≤ p.l.input.data.length + 2 := by
  simp only [Parser.remaining]
  split_ifs <;> omega

theorem Parser.remaining_lt_fuel (p : Parser) : p.remaining < p.fuel := by
  have := Parser.remaining_le p
  simp only [Parser.fuel]
  omega

theorem Parser.one_le_remaining (p : Parser) (h : p.curToken.type ≠ .EOF) :
    1 ≤ p.remaining := by
  simp only [Parser.remaining]
  split_ifs <;> omega

theorem Parser.two_le_remaining (p : Parser) (h : p.peekToken.type ≠ .EOF) :
    2 ≤ p.remaining := by
  simp only [Parser.remaining]
  split_ifs <;> omega

theorem Parser.nextToken_spec (p : Parser) (hwf : p.l.WellFormed) :
    Parser.Advances p p.nextToken ∧ p.nextToken.errors = p.errors ∧
    p.nextToken.curToken = p.peekToken ∧
    (p.remaining ≠ 0 → p.nextToken.remaining < p.remaining) := by
  obtain ⟨tok, q', hq, hlt, heof⟩ := Lexer.NextToken_progress p.l.input p.l.position
  rw [← hwf] at hq
  have hnext := Parser.nextToken_eq p tok _ hq
  rw [hnext]
  have hrem : (Parser.mk (Lexer.atPos p.l.input q') p.errors p.peekToken tok).remaining
      ≤ p.remaining ∧ (p.remaining ≠ 0 →
        (Parser.mk (Lexer.atPos p.l.input q') p.errors p.peekToken tok).remaining
          < p.remaining) := by
    simp only [Parser.remaining, Lexer.atPos]
    by_cases hlen : p.l.position < p.l.input.data.length
    · simp only [hlen, if_true]
      split_ifs <;> omega
    · have h2 := heof (by omega)
      obtain ⟨htok, hq'⟩ := h2
      subst htok
      have hlen2 : ¬ (q' < p.l.input.data.length) := by omega
      simp only [hlen, hlen2, if_false]
      split_ifs <;> simp_all
  exact ⟨⟨rfl, rfl, hrem.1, List.prefix_refl _⟩, rfl, rfl, hrem.2⟩

theorem Parser.remaining_eq_zero (p : Parser) (h : p.remaining = 0) :
    p.curToken.type = .EOF ∧ p.peekToken.type = .EOF := by
  simp only [Parser.remaining] at h
  split_ifs at h with h1 h2 h3
  · omega
  · exact ⟨not_not.mp h3, not_not.mp h2⟩

theorem Parser.Advances.addError {p p1 : Parser} (h : Parser.Advances p p1) (msg : String) :
    Parser.Advances p { p1 with errors := p1.errors ++ [msg] } :=
  ⟨h.wf, h.input, h.remaining, List.IsPrefix.trans h.errors (List.prefix_append _ _)⟩

theorem Parser.Advances.next {p p1 : Parser} (h : Parser.Advances p p1) :
    Parser.Advances p p1.nextToken :=
  Parser.Advances.trans h (Parser.nextToken_spec p1 h.wf).1

theorem Parser.nextToken_remaining_le (p : Parser) (hwf : p.l.WellFormed) (fuel : Nat)
    (h : p.remaining ≤ fuel + 1) : p.nextToken.remaining ≤ fuel := by
  obtain ⟨hadv, _, _, hlt⟩ := Parser.nextToken_spec p hwf
  by_cases h0 : p.remaining = 0
  · have := hadv.remaining
    omega
  · have := hlt h0
    omega

theorem Parser.parsePathLoop_spec (fuel : Nat) :
    ∀ (p : Parser) (path : String), p.l.WellFormed → p.remaining ≤ fuel →
      Parser.Advances p (Parser.parsePathLoop fuel p path).2 ∧
      (Parser.parsePathLoop fuel p path).2.errors = p.errors ∧
      (((Parser.parsePathLoop fuel p path).2.curTokenIs .DOT &&
        (Parser.parsePathLoop fuel p path).2.peekTokenIs .IDENT) = false) ∧
      (((Parser.parsePathLoop fuel p path).2.curTokenIs .IDENT &&
        (Parser.parsePathLoop fuel p path).2.peekTokenIs .DOT) = false) ∧
      ∀ n, Parser.parsePathLoop (fuel + n) p path = Parser.parsePathLoop fuel p path := by
  induction fuel with
  | zero =>
    intro p path hwf hrem
    obtain ⟨hc, hp⟩ := Parser.remaining_eq_zero p (by omega)
    have c1 : (p.curTokenIs .DOT && p.peekTokenIs .IDENT) = false := by
      simp [Parser.curTokenIs, Parser.peekTokenIs, hc, hp]
    have c2 : (p.curTokenIs .IDENT && p.peekTokenIs .DOT) = false := by
      simp [Parser.curTokenIs, Parser.peekTokenIs, hc, hp]
    refine ⟨Parser.Advances.refl p hwf, rfl, c1, c2, ?_⟩
    intro n
    cases n with
    | zero => rfl
    | succ m =>
      have e : Parser.parsePathLoop (0 + (m + 1)) p path = (path, p) := by
        rw [show 0 + (m + 1) = m + 1 from by omega, Parser.parsePathLoop]
        simp only [c1, c2, Bool.false_eq_true, if_false]
      rw [e]
      rfl
  | succ k ih =>
    intro p path hwf hrem
    have hstep : ∀ n, Parser.parsePathLoop (k + 1 + n) p path =
        if (p.curTokenIs .DOT && p.peekTokenIs .IDENT) = true then
          Parser.parsePathLoop (k + n) p.nextToken (path ++ p.nextToken.curToken.literal)
        else if (p.curTokenIs .IDENT && p.peekTokenIs .DOT) = true then
          Parser.parsePathLoop (k + n) p.nextToken (path ++ p.nextToken.curToken.literal)
        else (path, p) := by
      intro n
      rw [show k + 1 + n = (k + n) + 1 from by omega, Parser.parsePathLoop]
    have h0 := hstep 0
    simp only [Nat.add_zero] at h0
    have hnext := Parser.nextToken_spec p hwf
    have hrem1 := Parser.nextToken_remaining_le p hwf k hrem
    have hih := ih p.nextToken (path ++ p.nextToken.curToken.literal) hnext.1.wf hrem1
    by_cases c1 : (p.curTokenIs .DOT && p.peekTokenIs .IDENT) = true
    · simp only [c1, if_true] at h0 hstep
      rw [h0]
      obtain ⟨a1, a2, a3, a4, a5⟩ := hih
      refine ⟨Parser.Advances.trans hnext.1 a1, a2.trans hnext.2.1, a3, a4, ?_⟩
      intro n
      rw [hstep n, a5 n]
    · by_cases c2 : (p.curTokenIs .IDENT && p.peekTokenIs .DOT) = true
      · simp only [c1, c2, if_true, if_false] at h0 hstep
        rw [h0]
        obtain ⟨a1, a2, a3, a4, a5⟩ := hih
        refine ⟨Parser.Advances.trans hnext.1 a1, a2.trans hnext.2.1, a3, a4, ?_⟩
        intro n
        rw [hstep n, a5 n]
      · simp only [c1, c2, Bool.false_eq_true, if_false] at h0 hstep
        rw [h0]
        refine ⟨Parser.Advances.refl p hwf, rfl, by simpa using c1, by simpa using c2, ?_⟩
        intro n
        rw [hstep n]

theorem Parser.parsePrimaryExpression_spec (p : Parser) (hwf : p.l.WellFormed) :
    Parser.Advances p p.parsePrimaryExpression.2 ∧
    (p.parsePrimaryExpression.1 = none →
      p.errors.length < p.parsePrimaryExpression.2.errors.length) ∧
    (p.parsePrimaryExpression.1.isSome = true →
      p.parsePrimaryExpression.2.errors = p.errors) := by
  have hpath := Parser.parsePathLoop_spec p.fuel p p.curToken.literal hwf
    (le_of_lt (Parser.remaining_lt_fuel p))
  have hself := Parser.Advances.refl p hwf
  unfold Parser.parsePrimaryExpression
  split
  all_goals first
    | exact ⟨hself, fun h => by simp at h, fun _ => rfl⟩
    | exact ⟨hpath.1, fun h => by simp [Parser.parsePathExpression] at h,
        fun _ => hpath.2.1⟩
    | exact ⟨hself.addError _, fun _ => by simp, fun h => by simp at h⟩

theorem Parser.parseArgsLoop_spec (fuel : Nat) :
    ∀ (p : Parser) (args : List Expression), p.l.WellFormed → p.remaining ≤ fuel →
      Parser.Advances p (Parser.parseArgsLoop fuel p args).2 ∧
      ((Parser.parseArgsLoop fuel p args).2.peekToken.type = .PIPE ∨
        (Parser.parseArgsLoop fuel p args).2.peekToken.type = .EOF) ∧
      ∀ n, Parser.parseArgsLoop (fuel + n) p args = Parser.parseArgsLoop fuel p args := by
  induction fuel with
  | zero =>
    intro p args hwf hrem
    obtain ⟨_, hp⟩ := Parser.remaining_eq_zero p (by omega)
    have c : (!p.peekTokenIs .PIPE && !p.peekTokenIs .EOF) = false := by
      simp [Parser.peekTokenIs, hp]
    refine ⟨Parser.Advances.refl p hwf, Or.inr hp, ?_⟩
    intro n
    cases n with
    | zero => rfl
    | succ m =>
      have e : Parser.parseArgsLoop (0 + (m + 1)) p args = (args, p) := by
        rw [show 0 + (m + 1) = m + 1 from by omega, Parser.parseArgsLoop]
        simp only [c, Bool.false_eq_true, if_false]
      rw [e]
      rfl
  | succ k ih =>
    intro p args hwf hrem
    have hstep : ∀ n, Parser.parseArgsLoop (k + 1 + n) p args =
        if (!p.peekTokenIs .PIPE && !p.peekTokenIs .EOF) = true then
          match p.nextToken.parsePrimaryExpression with
          | (some arg, p1) => Parser.parseArgsLoop (k + n) p1 (args ++ [arg])
          | (none, p1) => Parser.parseArgsLoop (k + n) p1 args
        else (args, p) := by
      intro n
      rw [show k + 1 + n = (k + n) + 1 from by omega, Parser.parseArgsLoop]
    have h0 := hstep 0
    simp only [Nat.add_zero] at h0
    have hnext := Parser.nextToken_spec p hwf
    have hrem1 := Parser.nextToken_remaining_le p hwf k hrem
    have hprim := Parser.parsePrimaryExpression_spec p.nextToken hnext.1.wf
    by_cases c : (!p.peekTokenIs .PIPE && !p.peekTokenIs .EOF) = true
    · simp only [c, if_true] at h0 hstep
      have hadv : Parser.Advances p p.nextToken.parsePrimaryExpression.2 :=
        Parser.Advances.trans hnext.1 hprim.1
      have hrem2 : p.nextToken.parsePrimaryExpression.2.remaining ≤ k :=
        le_trans hprim.1.remaining hrem1
      cases hres : p.nextToken.parsePrimaryExpression with
      | mk r p1 =>
        rw [hres] at hadv hrem2
        simp only [hres] at h0 hstep
        cases r with
        | none =>
          simp only at h0 hstep
          rw [h0]
          obtain ⟨a1, a2, a3⟩ := ih p1 args hadv.wf hrem2
          refine ⟨Parser.Advances.trans hadv a1, a2, ?_⟩
          intro n
          rw [hstep n, a3 n]
        | some arg =>
          simp only at h0 hstep
          rw [h0]
          obtain ⟨a1, a2, a3⟩ := ih p1 (args ++ [arg]) hadv.wf hrem2
          refine ⟨Parser.Advances.trans hadv a1, a2, ?_⟩
          intro n
          rw [hstep n, a3 n]
    · simp only [c, Bool.false_eq_true, if_false] at h0 hstep
      rw [h0]
      refine ⟨Parser.Advances.refl p hwf, ?_, ?_⟩
      · simp only [Parser.peekTokenIs, Bool.and_eq_true, Bool.not_eq_true', decide_eq_false_iff_not,
          not_and, not_not] at c
        by_cases hp : p.peekToken.type = .PIPE
        · exact Or.inl hp
        · exact Or.inr (c hp)
      · intro n
        rw [hstep n]

theorem Parser.parseCommandExpression_spec (p : Parser) (hwf : p.l.WellFormed) :
    Parser.Advances p p.parseCommandExpression.2 ∧
    (p.isCommandStartToken = true → p.parseCommandExpression.1.isSome = true) ∧
    (p.isCommandStartToken = true →
      p.parseCommandExpression.2.peekToken.type = .PIPE ∨
        p.parseCommandExpression.2.peekToken.type = .EOF) := by
  have hargs := Parser.parseArgsLoop_spec p.fuel p [] hwf (le_of_lt (Parser.remaining_lt_fuel p))
  unfold Parser.parseCommandExpression
  by_cases c : p.isCommandStartToken = true
  · simp only [c, Bool.not_true, Bool.false_eq_true, if_false]
    exact ⟨hargs.1, fun _ => rfl, fun _ => hargs.2.1⟩
  · simp only [c, Bool.not_eq_true] at *
    simp only [c, Bool.not_false, if_true]
    exact ⟨Parser.Advances.refl p hwf, fun h => by simp at h, fun h => by simp at h⟩

theorem Parser.Advances.length_le {p p1 : Parser} (h : Parser.Advances p p1) :
    p.errors.length ≤ p1.errors.length :=
  h.errors.length_le

theorem Parser.parseFirst_spec (p : Parser) (hwf : p.l.WellFormed) :
    Parser.Advances p
      (if p.isCommandStartToken then p.parseCommandExpression else p.parsePrimaryExpression).2 ∧
    ((if p.isCommandStartToken then p.parseCommandExpression else p.parsePrimaryExpression).1 = none →
      p.errors.length <
        (if p.isCommandStartToken then p.parseCommandExpression
          else p.parsePrimaryExpression).2.errors.length) := by
  by_cases c : p.isCommandStartToken = true
  · simp only [c, if_true]
    have h := Parser.parseCommandExpression_spec p hwf
    refine ⟨h.1, fun hn => ?_⟩
    have := h.2.1 c
    rw [hn] at this
    simp at this
  · simp only [c, Bool.false_eq_true, if_false]
    have h := Parser.parsePrimaryExpression_spec p hwf
    exact ⟨h.1, h.2.1⟩

theorem Parser.parseExpressionFuel_succ (m : Nat) (p : Parser) (left : Option Expression)
    (p1 : Parser) :
    (if p.isCommandStartToken then p.parseCommandExpression else p.parsePrimaryExpression)
      = (left, p1) →
    Parser.parseExpressionFuel (m + 1) p =
      if p1.peekTokenIs .PIPE = true then
        match left with
        | none =>
          (none, { p1 with errors := p1.errors ++
            ["expresión inválida antes del pipe " ++ apostrophe ++ "|" ++ apostrophe] })
        | some leftExpr =>
          match Parser.parseExpressionFuel m p1.nextToken.nextToken with
          | (none, p4) =>
            (none, { p4 with errors := p4.errors ++
              ["expresión vacía o inválida después del pipe " ++ apostrophe ++ "|" ++
                apostrophe] })
          | (some right, p4) =>
            (some (.pipelineExpression p1.nextToken.curToken leftExpr right), p4)
      else (left, p1) := by
  intro hres
  rw [Parser.parseExpressionFuel, hres]

theorem Parser.parseExpressionFuel_spec (fuel : Nat) :
    ∀ (p : Parser), p.l.WellFormed → p.remaining < fuel →
      Parser.Advances p (Parser.parseExpressionFuel fuel p).2 ∧
      ((Parser.parseExpressionFuel fuel p).1 = none →
        p.errors.length < (Parser.parseExpressionFuel fuel p).2.errors.length) ∧
      ∀ n, Parser.parseExpressionFuel (fuel + n) p = Parser.parseExpressionFuel fuel p := by
  induction fuel with
  | zero =>
    intro p _ hrem
    omega
  | succ k ih =>
    intro p hwf hrem
    have hfirst := Parser.parseFirst_spec p hwf
    cases hres : (if p.isCommandStartToken then p.parseCommandExpression
        else p.parsePrimaryExpression) with
    | mk left p1 =>
      rw [hres] at hfirst
      obtain ⟨hadv1, hnone1⟩ := hfirst
      simp only at hadv1 hnone1
      have hunf := fun m => Parser.parseExpressionFuel_succ m p left p1 hres
      have hstep : ∀ n, Parser.parseExpressionFuel (k + 1 + n) p =
          Parser.parseExpressionFuel (k + n + 1) p := by
        intro n
        rw [show k + 1 + n = k + n + 1 from by omega]
      by_cases c : p1.peekTokenIs .PIPE = true
      · simp only [c, if_true] at hunf
        cases left with
        | none =>
          simp only at hunf
          rw [hunf k]
          refine ⟨hadv1.addError _, fun _ => ?_, ?_⟩
          · have := hadv1.length_le
            simp only [List.length_append, List.length_singleton]
            omega
          · intro n
            rw [hstep n, hunf (k + n)]
        | some leftExpr =>
          simp only at hunf
          have hpeek : p1.peekToken.type ≠ .EOF := by
            simp only [Parser.peekTokenIs, decide_eq_true_eq] at c
            rw [c]
            decide
          have h2 := Parser.two_le_remaining p1 hpeek
          have hn1 := Parser.nextToken_spec p1 hadv1.wf
          have hcur2 : p1.nextToken.curToken.type ≠ .EOF := by
            rw [hn1.2.2.1]
            exact hpeek
          have h1 := Parser.one_le_remaining p1.nextToken hcur2
          have hn2 := Parser.nextToken_spec p1.nextToken hn1.1.wf
          have hlt1 := hn1.2.2.2 (by omega)
          have hlt2 := hn2.2.2.2 (by omega)
          have hr1 := hadv1.remaining
          have hrem3 : p1.nextToken.nextToken.remaining < k := by omega
          have hadv3 : Parser.Advances p p1.nextToken.nextToken :=
            Parser.Advances.trans hadv1 (Parser.Advances.trans hn1.1 hn2.1)
          obtain ⟨a1, a2, a3⟩ := ih p1.nextToken.nextToken hn2.1.wf hrem3
          have hind : ∀ n, Parser.parseExpressionFuel (k + 1 + n) p =
              Parser.parseExpressionFuel (k + 1) p := by
            intro n
            rw [hstep n, hunf (k + n), hunf k, a3 n]
          rw [hunf k]
          rw [hunf k] at hind
          cases hrec : Parser.parseExpressionFuel k p1.nextToken.nextToken with
          | mk r p4 =>
            rw [hrec] at a1 a2 hind
            simp only at a1 a2
            have hadv4 := Parser.Advances.trans hadv3 a1
            cases r with
            | none =>
              simp only at hind ⊢
              refine ⟨hadv4.addError _, fun _ => ?_, hind⟩
              have := hadv4.length_le
              simp only [List.length_append, List.length_singleton]
              omega
            | some right =>
              simp only at hind ⊢
              exact ⟨hadv4, fun h => by simp at h, hind⟩
      · simp only [c, Bool.false_eq_true, if_false] at hunf
        rw [hunf k]
        refine ⟨hadv1, hnone1, ?_⟩
        intro n
        rw [hstep n, hunf (k + n)]

theorem Parser.parseExpression_spec (p : Parser) (hwf : p.l.WellFormed) :
    Parser.Advances p p.parseExpression.2 ∧
    (p.parseExpression.1 = none → p.errors.length < p.parseExpression.2.errors.length) :=
  ⟨(Parser.parseExpressionFuel_spec p.fuel p hwf (Parser.remaining_lt_fuel p)).1,
    (Parser.parseExpressionFuel_spec p.fuel p hwf (Parser.remaining_lt_fuel p)).2.1⟩

theorem Parser.expectPeek_spec (p : Parser) (t : TokenType) (hwf : p.l.WellFormed) :
    Parser.Advances p (p.expectPeek t).2 ∧
    ((p.expectPeek t).1 = false → p.errors.length < (p.expectPeek t).2.errors.length) := by
  unfold Parser.expectPeek
  by_cases c : p.peekTokenIs t = true
  · simp only [c, if_true]
    exact ⟨(Parser.nextToken_spec p hwf).1, fun h => by simp at h⟩
  · simp only [c, Bool.false_eq_true, if_false]
    exact ⟨(Parser.Advances.refl p hwf).addError _, fun _ => by simp [Parser.peekError]⟩

theorem Parser.parseLetStatement_spec (p : Parser) (hwf : p.l.WellFormed) :
    Parser.Advances p p.parseLetStatement.2 ∧
    (p.parseLetStatement.1 = none → p.errors.length < p.parseLetStatement.2.errors.length) := by
  have h1 := Parser.expectPeek_spec p .IDENT hwf
  unfold Parser.parseLetStatement
  cases hr1 : p.expectPeek .IDENT with
  | mk b1 p1 =>
    rw [hr1] at h1
    obtain ⟨a1, e1⟩ := h1
    simp only at a1 e1
    cases b1 with
    | false => exact ⟨a1, fun _ => e1 rfl⟩
    | true =>
      have h2 := Parser.expectPeek_spec p1 .ASSIGN a1.wf
      dsimp only
      cases hr2 : p1.expectPeek .ASSIGN with
      | mk b2 p2 =>
        rw [hr2] at h2
        obtain ⟨a2, e2⟩ := h2
        simp only at a2 e2
        have l1 := a1.length_le
        cases b2 with
        | false =>
          refine ⟨Parser.Advances.trans a1 a2, fun _ => ?_⟩
          have := e2 rfl
          show p.errors.length < p2.errors.length
          omega
        | true =>
          have a3 := Parser.Advances.trans a1 a2.next
          have h4 := Parser.parseExpression_spec p2.nextToken a2.next.wf
          dsimp only
          cases hr4 : p2.nextToken.parseExpression with
          | mk r p4 =>
            rw [hr4] at h4
            obtain ⟨a4, _⟩ := h4
            simp only at a4
            have a5 := Parser.Advances.trans a3 a4
            cases r with
            | none =>
              refine ⟨a5.addError _, fun _ => ?_⟩
              have := a5.length_le
              simp only [List.length_append, List.length_singleton]
              omega
            | some value => exact ⟨a5, fun h => by simp at h⟩

theorem Parser.parseExpressionStatement_spec (p : Parser) (hwf : p.l.WellFormed) :
    Parser.Advances p p.parseExpressionStatement.2 ∧
    (p.parseExpressionStatement.1 = none →
      p.errors.length < p.parseExpressionStatement.2.errors.length) := by
  have h := Parser.parseExpression_spec p hwf
  unfold Parser.parseExpressionStatement
  cases hr : p.parseExpression with
  | mk r p1 =>
    rw [hr] at h
    cases r with
    | none => exact ⟨h.1, fun _ => h.2 rfl⟩
    | some e => exact ⟨h.1, fun h => by simp at h⟩

theorem Parser.parseStatement_spec (p : Parser) (hwf : p.l.WellFormed) :
    Parser.Advances p p.parseStatement.2 ∧
    (∃ stmt, p.parseStatement.1 = some stmt ∧
      ((stmt = .nilLetStatement ∨ stmt = .nilExpressionStatement) →
        p.errors.length < p.parseStatement.2.errors.length)) := by
  have hl := Parser.parseLetStatement_spec p hwf
  have he := Parser.parseExpressionStatement_spec p hwf
  have hlet : Parser.Advances p
      (match p.parseLetStatement with
        | (some stmt, p1) => (some (Statement.letStatement stmt.token stmt.name stmt.value), p1)
        | (none, p1) => (some Statement.nilLetStatement, p1)).2 ∧
      (∃ stmt, (match p.parseLetStatement with
        | (some stmt, p1) => (some (Statement.letStatement stmt.token stmt.name stmt.value), p1)
        | (none, p1) => (some Statement.nilLetStatement, p1)).1 = some stmt ∧
        ((stmt = .nilLetStatement ∨ stmt = .nilExpressionStatement) →
          p.errors.length < (match p.parseLetStatement with
        | (some stmt, p1) => (some (Statement.letStatement stmt.token stmt.name stmt.value), p1)
        | (none, p1) => (some Statement.nilLetStatement, p1)).2.errors.length)) := by
    cases hr : p.parseLetStatement with
    | mk r p1 =>
      rw [hr] at hl
      cases r with
      | none => exact ⟨hl.1, _, rfl, fun _ => hl.2 rfl⟩
      | some st => exact ⟨hl.1, _, rfl, fun h => by rcases h with h | h <;> cases h⟩
  have hexp : Parser.Advances p
      (match p.parseExpressionStatement with
        | (some stmt, p1) => (some (Statement.expressionStatement stmt.token stmt.expression), p1)
        | (none, p1) => (some Statement.nilExpressionStatement, p1)).2 ∧
      (∃ stmt, (match p.parseExpressionStatement with
        | (some stmt, p1) => (some (Statement.expressionStatement stmt.token stmt.expression), p1)
        | (none, p1) => (some Statement.nilExpressionStatement, p1)).1 = some stmt ∧
        ((stmt = .nilLetStatement ∨ stmt = .nilExpressionStatement) →
          p.errors.length < (match p.parseExpressionStatement with
        | (some stmt, p1) => (some (Statement.expressionStatement stmt.token stmt.expression), p1)
        | (none, p1) => (some Statement.nilExpressionStatement, p1)).2.errors.length)) := by
    cases hr : p.parseExpressionStatement with
    | mk r p1 =>
      rw [hr] at he
      cases r with
      | none => exact ⟨he.1, _, rfl, fun _ => he.2 rfl⟩
      | some st => exact ⟨he.1, _, rfl, fun h => by rcases h with h | h <;> cases h⟩
  unfold Parser.parseStatement
  split
  · exact hlet
  · exact hexp

theorem Parser.parseProgramLoop_eof (m : Nat) (p : Parser) (stmts : List Statement)
    (h : p.curToken.type = .EOF) : Parser.parseProgramLoop m p stmts = (stmts, p) := by
  cases m with
  | zero => rfl
  | succ k =>
    rw [Parser.parseProgramLoop]
    simp only [h, ne_eq, not_true_eq_false, if_false]

theorem Parser.parseProgramLoop_succ (m : Nat) (p : Parser) (stmts : List Statement)
    (stmt : Statement) (p1 : Parser) (h : p.curToken.type ≠ .EOF)
    (hr : p.parseStatement = (some stmt, p1)) :
    Parser.parseProgramLoop (m + 1) p stmts
      = Parser.parseProgramLoop m p1.nextToken (stmts ++ [stmt]) := by
  rw [Parser.parseProgramLoop, hr]
  simp only [h, ne_eq, not_false_eq_true, if_true]

theorem Parser.parseProgramLoop_spec (fuel : Nat) :
    ∀ (p : Parser) (stmts : List Statement), p.l.WellFormed → p.remaining ≤ fuel →
      (Parser.parseProgramLoop fuel p stmts).2.curToken.type = .EOF ∧
      Parser.Advances p (Parser.parseProgramLoop fuel p stmts).2 ∧
      (∃ new, (Parser.parseProgramLoop fuel p stmts).1 = stmts ++ new ∧
        ((Parser.parseProgramLoop fuel p stmts).2.errors.length ≤ p.errors.length →
          ∀ s ∈ new, s ≠ .nilLetStatement ∧ s ≠ .nilExpressionStatement)) ∧
      ∀ n, Parser.parseProgramLoop (fuel + n) p stmts = Parser.parseProgramLoop fuel p stmts := by
  induction fuel with
  | zero =>
    intro p stmts hwf hrem
    obtain ⟨hc, _⟩ := Parser.remaining_eq_zero p (by omega)
    refine ⟨hc, Parser.Advances.refl p hwf, ⟨[], by simp [Parser.parseProgramLoop], ?_⟩, ?_⟩
    · intro _ s hs
      simp at hs
    · intro n
      rw [Parser.parseProgramLoop_eof _ p stmts hc, Parser.parseProgramLoop_eof _ p stmts hc]
  | succ k ih =>
    intro p stmts hwf hrem
    by_cases hc : p.curToken.type = .EOF
    · rw [Parser.parseProgramLoop_eof _ p stmts hc]
      refine ⟨hc, Parser.Advances.refl p hwf, ⟨[], by simp, ?_⟩, ?_⟩
      · intro _ s hs
        simp at hs
      · intro n
        rw [Parser.parseProgramLoop_eof _ p stmts hc]
    · have hst := Parser.parseStatement_spec p hwf
      cases hr : p.parseStatement with
      | mk r p1 =>
        rw [hr] at hst
        obtain ⟨hadv1, stmt, hsome, hnil⟩ := hst
        simp only at hadv1 hsome hnil
        subst hsome
        have hn1 := Parser.nextToken_spec p1 hadv1.wf
        have hrem1 : p1.nextToken.remaining ≤ k :=
          Parser.nextToken_remaining_le p1 hadv1.wf k (le_trans hadv1.remaining hrem)
        obtain ⟨a1, a2, ⟨new, a3, a4⟩, a5⟩ := ih p1.nextToken (stmts ++ [stmt]) hn1.1.wf hrem1
        rw [Parser.parseProgramLoop_succ k p stmts stmt p1 hc hr]
        refine ⟨a1, Parser.Advances.trans hadv1 (Parser.Advances.trans hn1.1 a2),
          ⟨stmt :: new, by rw [a3]; simp, ?_⟩, ?_⟩
        · intro hlen s hs
          have l1 := hadv1.length_le
          have l2 := a2.length_le
          have l3 : p1.nextToken.errors.length = p1.errors.length := by rw [hn1.2.1]
          rcases List.mem_cons.mp hs with hs | hs
          · subst hs
            constructor
            · intro h
              have := hnil (Or.inl h)
              omega
            · intro h
              have := hnil (Or.inr h)
              omega
          · exact a4 (by omega) s hs
        · intro n
          rw [show k + 1 + n = (k + n) + 1 from by omega,
            Parser.parseProgramLoop_succ (k + n) p stmts stmt p1 hc hr, a5 n]

theorem Lexer.tokens_reach_eof (input : String) :
    ∀ (n q : Nat), input.data.length ≤ q + n →
      (Lexer.tokens (n + 1) (Lexer.atPos input q)).getLast? = some ⟨.EOF, ""⟩ := by
  intro n
  induction n with
  | zero =>
    intro q h
    obtain ⟨tok, q', hq, _, heof⟩ := Lexer.NextToken_progress input q
    obtain ⟨htok, _⟩ := heof (by omega)
    simp [Lexer.tokens, hq, htok]
  | succ m ih =>
    intro q h
    obtain ⟨tok, q', hq, hlt, _⟩ := Lexer.NextToken_progress input q
    have hrec := ih q' (by omega)
    rw [Lexer.tokens, hq]
    simp only []
    cases hl : Lexer.tokens (m + 1) (Lexer.atPos input q') with
    | nil => simp [hl] at hrec
    | cons x xs =>
      rw [hl] at hrec
      rw [List.getLast?_cons_cons]
      exact hrec

theorem NewParser_spec (input : String) :
    (NewParser (NewLexer input)).l.WellFormed ∧ (NewParser (NewLexer input)).l.input = input ∧
      (NewParser (NewLexer input)).errors = [] := by
  obtain ⟨t1, q1, h1, _, _⟩ := Lexer.NextToken_progress input 0
  obtain ⟨t2, q2, h2, _, _⟩ := Lexer.NextToken_progress input q1
  rw [← NewLexer_eq_atPos] at h1
  rw [NewParser_eq _ _ _ _ _ h1 h2]
  exact ⟨rfl, rfl, rfl⟩

end ParserProgress

section Arguments

theorem Parser.upcoming_succ (p : Parser) (n : Nat) :
    p.upcoming (n + 1) = p.peekToken :: p.nextToken.upcoming n := by
  simp only [Parser.upcoming, Lexer.tokens, Parser.nextToken]

theorem Parser.nextToken_curToken (p : Parser) : p.nextToken.curToken = p.peekToken := rfl

theorem Parser.nextToken_errors (p : Parser) : p.nextToken.errors = p.errors := rfl

theorem Parser.parsePrimaryExpression_argument (p : Parser)
    (h : isArgumentToken p.curToken.type = true) :
    p.parsePrimaryExpression = (some (argumentNode p.curToken), p) := by
  unfold Parser.parsePrimaryExpression argumentNode
  cases ht : p.curToken.type <;> simp [isArgumentToken, ht] at h <;> simp

theorem Parser.parseArgsLoop_arguments (tend : Token)
    (hend : tend.type = .PIPE ∨ tend.type = .EOF) :
    ∀ (toks : List Token) (p : Parser) (acc : List Expression) (fuel : Nat),
      toks.length ≤ fuel → (∀ t ∈ toks, isArgumentToken t.type = true) →
      p.upcoming toks.length = toks ++ [tend] →
      (Parser.parseArgsLoop fuel p acc).1 = acc ++ toks.map argumentNode ∧
      (Parser.parseArgsLoop fuel p acc).2.errors = p.errors ∧
      (Parser.parseArgsLoop fuel p acc).2.peekToken = tend := by
  intro toks
  induction toks with
  | nil =>
    intro p acc fuel _ _ hup
    have hpeek : p.peekToken = tend := by
      simpa [Parser.upcoming, Lexer.tokens] using hup
    have c : (!p.peekTokenIs .PIPE && !p.peekTokenIs .EOF) = false := by
      rcases hend with h | h <;> simp [Parser.peekTokenIs, hpeek, h]
    cases fuel with
    | zero => simp [Parser.parseArgsLoop, hpeek]
    | succ f =>
      rw [Parser.parseArgsLoop]
      simp only [c, Bool.false_eq_true, if_false]
      simp [hpeek]
  | cons t ts ih =>
    intro p acc fuel hfuel hargs hup
    cases fuel with
    | zero => simp at hfuel
    | succ f =>
      rw [List.length_cons, Parser.upcoming_succ] at hup
      simp only [List.cons_append, List.cons.injEq] at hup
      obtain ⟨hpeek, hrest⟩ := hup
      have ht := hargs t (List.mem_cons_self _ _)
      have c : (!p.peekTokenIs .PIPE && !p.peekTokenIs .EOF) = true := by
        rw [← hpeek] at ht
        cases hty : p.peekToken.type <;> simp [isArgumentToken, hty] at ht <;>
          simp [Parser.peekTokenIs, hty]
      have hprim := Parser.parsePrimaryExpression_argument p.nextToken
        (by rw [Parser.nextToken_curToken, hpeek]; exact ht)
      rw [Parser.nextToken_curToken, hpeek] at hprim
      rw [Parser.parseArgsLoop]
      simp only [c, if_true, hprim]
      obtain ⟨a1, a2, a3⟩ := ih p.nextToken (acc ++ [argumentNode t]) f
        (by simpa using hfuel) (fun x hx => hargs x (List.mem_cons_of_mem _ hx)) hrest
      refine ⟨?_, ?_, a3⟩
      · rw [a1]
        simp
      · rw [a2]
        rfl

theorem Parser.parsePathLoop_stop (p : Parser) (path : String) (fuel : Nat)
    (h1 : (p.curTokenIs .DOT && p.peekTokenIs .IDENT) = false)
    (h2 : (p.curTokenIs .IDENT && p.peekTokenIs .DOT) = false) :
    Parser.parsePathLoop fuel p path = (path, p) := by
  cases fuel with
  | zero => rfl
  | succ f =>
    rw [Parser.parsePathLoop]
    simp only [h1, h2, Bool.false_eq_true, if_false]

theorem Parser.parsePathLoop_step (p : Parser) (path : String) (fuel : Nat)
    (h : (p.curTokenIs .DOT && p.peekTokenIs .IDENT) = true ∨
      (p.curTokenIs .IDENT && p.peekTokenIs .DOT) = true) :
    Parser.parsePathLoop (fuel + 1) p path
      = Parser.parsePathLoop fuel p.nextToken (path ++ p.peekToken.literal) := by
  rw [Parser.parsePathLoop, Parser.nextToken_curToken]
  rcases h with h | h
  · simp only [h, if_true]
  · by_cases h1 : (p.curTokenIs .DOT && p.peekTokenIs .IDENT) = true
    · simp only [h1, if_true]
    · simp only [h1, h, Bool.false_eq_true, if_true, if_false]

theorem Parser.parsePathLoop_fold (tend : Token) (hend : tend.type ≠ .DOT) :
    ∀ (toks : List Token) (p : Parser) (path : String) (fuel : Nat),
      toks.length ≤ fuel → p.curToken.type = .DOT → alternatesIdentDot toks = true →
      p.upcoming toks.length = toks ++ [tend] →
      (Parser.parsePathLoop fuel p path).1
        = path ++ concatLiterals toks ∧
      (Parser.parsePathLoop fuel p path).2.errors = p.errors ∧
      (Parser.parsePathLoop fuel p path).2.curToken.type = .IDENT ∧
      (Parser.parsePathLoop fuel p path).2.peekToken = tend
  | [], _, _, _, _, _, halt, _ => by simp [alternatesIdentDot] at halt
  | [t], p, path, fuel, hfuel, hcur, halt, hup => by
    simp only [alternatesIdentDot, decide_eq_true_eq] at halt
    rw [List.length_singleton, Parser.upcoming_succ] at hup
    simp only [List.singleton_append, List.cons.injEq] at hup
    obtain ⟨hpeek, hrest⟩ := hup
    have hpeek2 : p.nextToken.peekToken = tend := by
      simpa [Parser.upcoming, Lexer.tokens] using hrest
    cases fuel with
    | zero => simp at hfuel
    | succ f =>
      rw [Parser.parsePathLoop_step p path f
        (Or.inl (by simp [Parser.curTokenIs, Parser.peekTokenIs, hcur, hpeek, halt]))]
      rw [Parser.parsePathLoop_stop p.nextToken _ f
        (by simp [Parser.curTokenIs, Parser.nextToken_curToken, hpeek, halt])
        (by simp [Parser.peekTokenIs, hpeek2, hend])]
      refine ⟨?_, rfl, ?_, hpeek2⟩
      · simp [hpeek, concatLiterals]
      · show p.nextToken.curToken.type = .IDENT
        rw [Parser.nextToken_curToken, hpeek]
        exact halt
  | t :: d :: rest, p, path, fuel, hfuel, hcur, halt, hup => by
    simp only [alternatesIdentDot, Bool.and_eq_true, decide_eq_true_eq] at halt
    obtain ⟨⟨ht, hd⟩, hrestAlt⟩ := halt
    rw [List.length_cons, Parser.upcoming_succ, List.length_cons, Parser.upcoming_succ] at hup
    simp only [List.cons_append, List.cons.injEq] at hup
    obtain ⟨hpeek, hpeek2, hrest⟩ := hup
    cases fuel with
    | zero => simp at hfuel
    | succ f1 =>
      cases f1 with
      | zero => simp at hfuel
      | succ f =>
        rw [Parser.parsePathLoop_step p path (f + 1)
          (Or.inl (by simp [Parser.curTokenIs, Parser.peekTokenIs, hcur, hpeek, ht]))]
        rw [Parser.parsePathLoop_step p.nextToken _ f
          (Or.inr (by simp [Parser.curTokenIs, Parser.peekTokenIs, Parser.nextToken_curToken,
            hpeek, hpeek2, ht, hd]))]
        have hcur2 : p.nextToken.nextToken.curToken.type = .DOT := by
          rw [Parser.nextToken_curToken, hpeek2]
          exact hd
        obtain ⟨a1, a2, a3, a4⟩ := Parser.parsePathLoop_fold tend hend rest
          p.nextToken.nextToken (path ++ p.peekToken.literal ++ p.nextToken.peekToken.literal) f
          (by simp only [List.length_cons] at hfuel; omega) hcur2 hrestAlt hrest
        refine ⟨?_, ?_, a3, a4⟩
        · rw [a1, hpeek, hpeek2]
          simp [concatLiterals, String.append_assoc]
        · rw [a2]
          rfl

end Arguments

section Faults

theorem indexChecked_of_lt (s : String) (i : Nat) (h : i < s.data.length) :
    indexChecked s i = some (s.data.getD i NUL) := by
  simp [indexChecked, List.getD, List.getElem?_eq_getElem h]

theorem Lexer.readCharChecked_eq (l : Lexer) : l.readCharChecked = some l.readChar := by
  unfold Lexer.readCharChecked Lexer.readChar
  by_cases h : l.readPosition ≥ l.input.data.length
  · simp only [h, if_true]
  · simp only [h, if_false]
    rw [indexChecked_of_lt _ _ (by omega)]

theorem NewLexerChecked_eq (input : String) : NewLexerChecked input = some (NewLexer input) :=
  Lexer.readCharChecked_eq _

theorem Lexer.peekCharChecked_eq (l : Lexer) : l.peekCharChecked = some l.peekChar := by
  unfold Lexer.peekCharChecked Lexer.peekChar
  by_cases h : l.readPosition ≥ l.input.data.length
  · simp only [h, if_true]
  · simp only [h, if_false]
    exact indexChecked_of_lt _ _ (by omega)

theorem Lexer.readWhileChecked_eq (cond : Char → Bool) (fuel : Nat) :
    ∀ l : Lexer, Lexer.readWhileChecked cond fuel l = some (Lexer.readWhile cond fuel l) := by
  induction fuel with
  | zero => intro l; rfl
  | succ k ih =>
    intro l
    rw [Lexer.readWhileChecked, Lexer.readWhile, Lexer.readCharChecked_eq]
    by_cases h : cond l.ch = true
    · simp only [h, if_true]
      exact ih _
    · simp only [h, Bool.false_eq_true, if_false]

theorem Lexer.readStringLoopChecked_eq (quote : Char) (fuel : Nat) :
    ∀ l : Lexer,
      Lexer.readStringLoopChecked quote fuel l = some (Lexer.readStringLoop quote fuel l) := by
  induction fuel with
  | zero => intro l; rfl
  | succ k ih =>
    intro l
    rw [Lexer.readStringLoopChecked, Lexer.readStringLoop, Lexer.readCharChecked_eq]
    by_cases h : l.readChar.ch = quote ∨ l.readChar.ch = NUL
    · simp only [h, if_true]
    · simp only [h, if_false]
      exact ih _

theorem Lexer.finishChecked_eq (l : Lexer) (tok : Token) :
    l.finishChecked tok = some (tok, l.readChar) := by
  rw [Lexer.finishChecked, Lexer.readCharChecked_eq]

theorem Lexer.oneOrTwoChecked_eq (l : Lexer) (two one : TokenType) :
    l.oneOrTwoChecked two one = some (l.oneOrTwo two one) := by
  rw [Lexer.oneOrTwoChecked, Lexer.oneOrTwo, Lexer.peekCharChecked_eq, Lexer.readCharChecked_eq]
  by_cases h : l.peekChar = '='
  · simp only [h, if_true]
    exact Lexer.finishChecked_eq _ _
  · simp only [h, if_false]
    exact Lexer.finishChecked_eq _ _

theorem sliceChecked_eq (s : String) (a b : Nat) (h1 : a ≤ b) (h2 : b ≤ s.data.length) :
    sliceChecked s a b = some (slice s a b) := by
  unfold sliceChecked slice
  rw [if_pos ⟨h1, h2⟩]

theorem Lexer.lt_length_of_ch (input : String) (q : Nat)
    (h : (Lexer.atPos input q).ch ≠ NUL) : q < input.data.length := by
  by_contra hlt
  apply h
  rw [Lexer.atPos_ch, List.drop_eq_nil_iff.mpr (by omega)]
  rfl

/-- A loop `for cond(l.ch) { l.readChar() }` started at an index within the
input stays within the input. -/
theorem Lexer.readWhile_in_range (cond : Char → Bool) (h0 : cond NUL = false) (input : String)
    (fuel : Nat) :
    ∀ q, ∃ k, Lexer.readWhile cond fuel (Lexer.atPos input q) = Lexer.atPos input (q + k) ∧
      (q ≤ input.data.length → q + k ≤ input.data.length) := by
  induction fuel with
  | zero => intro q; exact ⟨0, rfl, fun h => h⟩
  | succ n ih =>
    intro q
    rw [Lexer.readWhile]
    by_cases h : cond (Lexer.atPos input q).ch = true
    · simp only [h, if_true]
      have hne : (Lexer.atPos input q).ch ≠ NUL := by
        intro hc
        rw [hc, h0] at h
        exact Bool.false_ne_true h
      have hlt := Lexer.lt_length_of_ch input q hne
      obtain ⟨k, hk, hb⟩ := ih (q + 1)
      rw [Lexer.readChar_atPos, hk]
      exact ⟨1 + k, by rw [← Nat.add_assoc], fun _ => by have := hb (by omega); omega⟩
    · simp only [h, Bool.false_eq_true, if_false]
      exact ⟨0, rfl, fun h => h⟩

/-- The loop of `readString` started on a character of the input reads at least
one character and stays within the input. -/
theorem Lexer.readStringLoop_in_range (quote : Char) (input : String) (fuel : Nat) :
    ∀ q, q < input.data.length →
      ∃ k, Lexer.readStringLoop quote (fuel + 1) (Lexer.atPos input q)
          = Lexer.atPos input (q + 1 + k) ∧ q + 1 + k ≤ input.data.length := by
  induction fuel with
  | zero =>
    intro q hq
    refine ⟨0, ?_, by omega⟩
    rw [Lexer.readStringLoop, Lexer.readChar_atPos]
    simp only [Lexer.readStringLoop, ite_self]
  | succ n ih =>
    intro q hq
    rw [Lexer.readStringLoop, Lexer.readChar_atPos]
    by_cases h : (Lexer.atPos input (q + 1)).ch = quote ∨ (Lexer.atPos input (q + 1)).ch = NUL
    · simp only [h, if_true]
      exact ⟨0, rfl, by omega⟩
    · simp only [h, if_false]
      have hne : (Lexer.atPos input (q + 1)).ch ≠ NUL := fun hc => h (Or.inr hc)
      have hlt := Lexer.lt_length_of_ch input (q + 1) hne
      obtain ⟨k, hk, hb⟩ := ih (q + 1) hlt
      rw [hk]
      exact ⟨1 + k, by rw [← Nat.add_assoc], by omega⟩

theorem Lexer.readIdentifierChecked_of (l l1 : Lexer)
    (h : Lexer.readWhile isIdentifierChar (l.input.data.length + 1) l = l1)
    (h1 : l.position ≤ l1.position) (h2 : l1.position ≤ l1.input.data.length) :
    l.readIdentifierChecked = some (slice l1.input l.position l1.position, l1) ∧
    l.readIdentifier = (slice l1.input l.position l1.position, l1) := by
  constructor
  · unfold Lexer.readIdentifierChecked
    rw [Lexer.readWhileChecked_eq, h]
    simp only []
    rw [sliceChecked_eq _ _ _ h1 h2]
  · unfold Lexer.readIdentifier
    rw [h]

theorem Lexer.readNumberChecked_of (l l1 : Lexer)
    (h : Lexer.readWhile isDigit (l.input.data.length + 1) l = l1)
    (h1 : l.position ≤ l1.position) (h2 : l1.position ≤ l1.input.data.length) :
    l.readNumberChecked = some (slice l1.input l.position l1.position, l1) ∧
    l.readNumber = (slice l1.input l.position l1.position, l1) := by
  constructor
  · unfold Lexer.readNumberChecked
    rw [Lexer.readWhileChecked_eq, h]
    simp only []
    rw [sliceChecked_eq _ _ _ h1 h2]
  · unfold Lexer.readNumber
    rw [h]

theorem Lexer.readStringChecked_of (l l1 : Lexer) (quote : Char)
    (h : Lexer.readStringLoop quote (l.input.data.length + 1) l = l1)
    (h1 : l.position + 1 ≤ l1.position) (h2 : l1.position ≤ l1.input.data.length) :
    l.readStringChecked quote = some (slice l1.input (l.position + 1) l1.position, l1) ∧
    l.readString quote = (slice l1.input (l.position + 1) l1.position, l1) := by
  constructor
  · unfold Lexer.readStringChecked
    rw [Lexer.readStringLoopChecked_eq, h]
    simp only []
    rw [sliceChecked_eq _ _ _ h1 h2]
  · unfold Lexer.readString
    rw [h]

theorem Lexer.readIdentifierChecked_atPos (input : String) (q : Nat)
    (hq : q ≤ input.data.length) :
    ∃ k, (Lexer.atPos input q).readIdentifier
        = (slice input q (q + k), Lexer.atPos input (q + k)) ∧
      (Lexer.atPos input q).readIdentifierChecked
        = some (slice input q (q + k), Lexer.atPos input (q + k)) ∧
      q + k ≤ input.data.length := by
  obtain ⟨k, hk, hb⟩ := Lexer.readWhile_in_range isIdentifierChar (by decide) input
    (input.data.length + 1) q
  have hb := hb hq
  have h := Lexer.readIdentifierChecked_of (Lexer.atPos input q) (Lexer.atPos input (q + k)) hk
    (Nat.le_add_right q k) hb
  exact ⟨k, h.2, h.1, hb⟩

theorem Lexer.readNumberChecked_atPos (input : String) (q : Nat)
    (hq : q ≤ input.data.length) :
    ∃ k, (Lexer.atPos input q).readNumber
        = (slice input q (q + k), Lexer.atPos input (q + k)) ∧
      (Lexer.atPos input q).readNumberChecked
        = some (slice input q (q + k), Lexer.atPos input (q + k)) ∧
      q + k ≤ input.data.length := by
  obtain ⟨k, hk, hb⟩ := Lexer.readWhile_in_range isDigit (by decide) input
    (input.data.length + 1) q
  have hb := hb hq
  have h := Lexer.readNumberChecked_of (Lexer.atPos input q) (Lexer.atPos input (q + k)) hk
    (Nat.le_add_right q k) hb
  exact ⟨k, h.2, h.1, hb⟩

theorem Lexer.readStringChecked_atPos (input : String) (q : Nat) (quote : Char)
    (hq : q < input.data.length) :
    ∃ k, (Lexer.atPos input q).readString quote
        = (slice input (q + 1) (q + 1 + k), Lexer.atPos input (q + 1 + k)) ∧
      (Lexer.atPos input q).readStringChecked quote
        = some (slice input (q + 1) (q + 1 + k), Lexer.atPos input (q + 1 + k)) ∧
      q + 1 + k ≤ input.data.length := by
  obtain ⟨k, hk, hb⟩ := Lexer.readStringLoop_in_range quote input input.data.length q hq
  have h := Lexer.readStringChecked_of (Lexer.atPos input q) (Lexer.atPos input (q + 1 + k))
    quote hk (Nat.le_add_right (q + 1) k) hb
  exact ⟨k, h.2, h.1, hb⟩

theorem ite_eq_some_ite {α : Type} (c : Prop) [Decidable c] (x y : Option α) (a b : α)
    (h1 : c → x = some a) (h2 : ¬ c → y = some b) :
    (if c then x else y) = some (if c then a else b) := by
  by_cases h : c
  · rw [if_pos h, if_pos h]
    exact h1 h
  · rw [if_neg h, if_neg h]
    exact h2 h

/-- The method `NextToken` raises no panic: in every state that `NewLexer` or
`NextToken` produces, each index and slice expression it reaches is in range,
and the token and the lexer returned are those of `NextToken`. -/
theorem Lexer.NextTokenChecked_atPos (input : String) (q : Nat) :
    (Lexer.atPos input q).NextTokenChecked = some (Lexer.atPos input q).NextToken := by
  obtain ⟨k, hk, _⟩ := Lexer.readWhile_in_range isWhitespace (by decide) input
    (input.data.length + 1) q
  have hskip : (Lexer.atPos input q).skipWhitespace = Lexer.atPos input (q + k) := hk
  have hskipc : (Lexer.atPos input q).skipWhitespaceChecked
      = some (Lexer.atPos input (q + k)) := by
    unfold Lexer.skipWhitespaceChecked
    rw [Lexer.readWhileChecked_eq]
    exact congrArg some hk
  generalize hr : q + k = r at hskip hskipc
  simp only [Lexer.NextTokenChecked, Lexer.NextToken, hskipc, hskip]
  refine ite_eq_some_ite _ _ _ _ _ (fun _ => Lexer.oneOrTwoChecked_eq _ _ _) (fun h1 => ?_)
  refine ite_eq_some_ite _ _ _ _ _ (fun _ => Lexer.finishChecked_eq _ _) (fun h2 => ?_)
  refine ite_eq_some_ite _ _ _ _ _ (fun _ => Lexer.finishChecked_eq _ _) (fun h3 => ?_)
  refine ite_eq_some_ite _ _ _ _ _ (fun _ => Lexer.finishChecked_eq _ _) (fun h4 => ?_)
  refine ite_eq_some_ite _ _ _ _ _ (fun _ => Lexer.finishChecked_eq _ _) (fun h5 => ?_)
  refine ite_eq_some_ite _ _ _ _ _ (fun _ => Lexer.finishChecked_eq _ _) (fun h6 => ?_)
  refine ite_eq_some_ite _ _ _ _ _ (fun _ => Lexer.finishChecked_eq _ _) (fun h7 => ?_)
  refine ite_eq_some_ite _ _ _ _ _ (fun _ => Lexer.finishChecked_eq _ _) (fun h8 => ?_)
  refine ite_eq_some_ite _ _ _ _ _ (fun _ => Lexer.finishChecked_eq _ _) (fun h9 => ?_)
  refine ite_eq_some_ite _ _ _ _ _ (fun _ => Lexer.finishChecked_eq _ _) (fun h10 => ?_)
  refine ite_eq_some_ite _ _ _ _ _ (fun hdot => ?_) (fun h11 => ?_)
  · rw [Lexer.peekCharChecked_eq]
    refine ite_eq_some_ite _ _ _ _ _ (fun _ => Lexer.finishChecked_eq _ _) (fun _ => ?_)
    have hlt := Lexer.lt_length_of_ch input r (by rw [hdot]; decide)
    obtain ⟨m, hid, hidc, _⟩ := Lexer.readIdentifierChecked_atPos input r (le_of_lt hlt)
    rw [hidc, hid]
  refine ite_eq_some_ite _ _ _ _ _ (fun _ => Lexer.oneOrTwoChecked_eq _ _ _) (fun h12 => ?_)
  refine ite_eq_some_ite _ _ _ _ _ (fun _ => Lexer.oneOrTwoChecked_eq _ _ _) (fun h13 => ?_)
  refine ite_eq_some_ite _ _ _ _ _ (fun _ => Lexer.oneOrTwoChecked_eq _ _ _) (fun h14 => ?_)
  refine ite_eq_some_ite _ _ _ _ _ (fun hquote => ?_) (fun h15 => ?_)
  · have hlt := Lexer.lt_length_of_ch input r
      (by rcases hquote with h | h <;> rw [h] <;> decide)
    obtain ⟨m, hstr, hstrc, _⟩ := Lexer.readStringChecked_atPos input r
      (Lexer.atPos input r).ch hlt
    rw [hstrc, hstr]
    exact Lexer.finishChecked_eq _ _
  refine ite_eq_some_ite _ _ _ _ _ (fun _ => Lexer.finishChecked_eq _ _) (fun hnul => ?_)
  have hlt := Lexer.lt_length_of_ch input r hnul
  refine ite_eq_some_ite _ _ _ _ _ (fun _ => ?_) (fun _ => ?_)
  · obtain ⟨m, hid, hidc, _⟩ := Lexer.readIdentifierChecked_atPos input r (le_of_lt hlt)
    rw [hidc, hid]
  refine ite_eq_some_ite _ _ _ _ _ (fun _ => ?_) (fun _ => Lexer.finishChecked_eq _ _)
  obtain ⟨m, hnum, hnumc, _⟩ := Lexer.readNumberChecked_atPos input r (le_of_lt hlt)
  rw [hnumc, hnum]

theorem Parser.nextTokenChecked_eq (p : Parser) (hwf : p.l.WellFormed) :
    p.nextTokenChecked = some p.nextToken := by
  unfold Parser.nextTokenChecked Parser.nextToken
  rw [hwf, Lexer.NextTokenChecked_atPos]

theorem NewParserChecked_eq (input : String) :
    NewParserChecked (NewLexer input) = some (NewParser (NewLexer input)) := by
  obtain ⟨t1, q1, h1, _, _⟩ := Lexer.NextToken_progress input 0
  obtain ⟨t2, q2, h2, _, _⟩ := Lexer.NextToken_progress input q1
  have c1 := Lexer.NextTokenChecked_atPos input 0
  have c2 := Lexer.NextTokenChecked_atPos input q1
  rw [h1] at c1
  rw [h2] at c2
  rw [← NewLexer_eq_atPos] at h1 c1
  rw [NewParser_eq _ _ _ _ _ h1 h2]
  unfold NewParserChecked
  rw [c1]
  simp only []
  rw [c2]

theorem Parser.expectPeekChecked_eq (p : Parser) (t : TokenType) (hwf : p.l.WellFormed) :
    p.expectPeekChecked t = some (p.expectPeek t) := by
  unfold Parser.expectPeekChecked Parser.expectPeek
  rw [Parser.nextTokenChecked_eq p hwf]
  exact ite_eq_some_ite _ _ _ _ _ (fun _ => rfl) (fun _ => rfl)

theorem Parser.parsePathLoopChecked_eq (fuel : Nat) :
    ∀ (p : Parser) (path : String), p.l.WellFormed →
      Parser.parsePathLoopChecked fuel p path = some (Parser.parsePathLoop fuel p path) := by
  induction fuel with
  | zero => intro p path _; rfl
  | succ k ih =>
    intro p path hwf
    have hn := (Parser.nextToken_spec p hwf).1.wf
    rw [Parser.parsePathLoopChecked, Parser.parsePathLoop, Parser.nextTokenChecked_eq p hwf]
    refine ite_eq_some_ite _ _ _ _ _ (fun _ => ih _ _ hn) (fun _ => ?_)
    exact ite_eq_some_ite _ _ _ _ _ (fun _ => ih _ _ hn) (fun _ => rfl)

theorem Parser.parsePathExpressionChecked_eq (p : Parser) (hwf : p.l.WellFormed) :
    p.parsePathExpressionChecked = some p.parsePathExpression := by
  unfold Parser.parsePathExpressionChecked Parser.parsePathExpression
  rw [Parser.parsePathLoopChecked_eq _ _ _ hwf]

theorem Parser.parsePrimaryExpressionChecked_eq (p : Parser) (hwf : p.l.WellFormed) :
    p.parsePrimaryExpressionChecked = some p.parsePrimaryExpression := by
  have hpath := Parser.parsePathExpressionChecked_eq p hwf
  unfold Parser.parsePrimaryExpressionChecked Parser.parsePrimaryExpression
  cases h : p.curToken.type <;> first | rfl | exact hpath

theorem Parser.parseArgsLoopChecked_eq (fuel : Nat) :
    ∀ (p : Parser) (args : List Expression), p.l.WellFormed →
      Parser.parseArgsLoopChecked fuel p args = some (Parser.parseArgsLoop fuel p args) := by
  induction fuel with
  | zero => intro p args _; rfl
  | succ k ih =>
    intro p args hwf
    have hn := (Parser.nextToken_spec p hwf).1.wf
    have hprim := Parser.parsePrimaryExpressionChecked_eq p.nextToken hn
    have hwf1 := (Parser.parsePrimaryExpression_spec p.nextToken hn).1.wf
    rw [Parser.parseArgsLoopChecked, Parser.parseArgsLoop, Parser.nextTokenChecked_eq p hwf]
    refine ite_eq_some_ite _ _ _ _ _ (fun _ => ?_) (fun _ => rfl)
    simp only [hprim]
    cases hr : p.nextToken.parsePrimaryExpression with
    | mk r p1 =>
      rw [hr] at hwf1
      cases r with
      | none => exact ih p1 args hwf1
      | some arg => exact ih p1 (args ++ [arg]) hwf1

theorem Parser.parseCommandExpressionChecked_eq (p : Parser) (hwf : p.l.WellFormed) :
    p.parseCommandExpressionChecked = some p.parseCommandExpression := by
  unfold Parser.parseCommandExpressionChecked Parser.parseCommandExpression
  rw [Parser.parseArgsLoopChecked_eq _ _ _ hwf]
  exact ite_eq_some_ite _ _ _ _ _ (fun _ => rfl) (fun _ => rfl)

theorem Parser.parseFirstChecked_eq (p : Parser) (hwf : p.l.WellFormed) :
    (if p.isCommandStartToken then p.parseCommandExpressionChecked
      else p.parsePrimaryExpressionChecked)
      = some (if p.isCommandStartToken then p.parseCommandExpression
          else p.parsePrimaryExpression) :=
  ite_eq_some_ite _ _ _ _ _ (fun _ => Parser.parseCommandExpressionChecked_eq p hwf)
    (fun _ => Parser.parsePrimaryExpressionChecked_eq p hwf)

theorem Parser.parseExpressionFuelChecked_eq (fuel : Nat) :
    ∀ (p : Parser), p.l.WellFormed →
      Parser.parseExpressionFuelChecked fuel p = some (Parser.parseExpressionFuel fuel p) := by
  induction fuel with
  | zero => intro p _; rfl
  | succ k ih =>
    intro p hwf
    have hfirst := Parser.parseFirst_spec p hwf
    rw [Parser.parseExpressionFuelChecked, Parser.parseExpressionFuel,
      Parser.parseFirstChecked_eq p hwf]
    cases hres : (if p.isCommandStartToken then p.parseCommandExpression
        else p.parsePrimaryExpression) with
    | mk left p1 =>
      rw [hres] at hfirst
      have hwf1 : p1.l.WellFormed := hfirst.1.wf
      have hwf2 := (Parser.nextToken_spec p1 hwf1).1.wf
      have hwf3 := (Parser.nextToken_spec p1.nextToken hwf2).1.wf
      simp only []
      refine ite_eq_some_ite _ _ _ _ _ (fun _ => ?_) (fun _ => rfl)
      cases left with
      | none => rfl
      | some leftExpr =>
        simp only [Parser.nextTokenChecked_eq p1 hwf1, Parser.nextTokenChecked_eq p1.nextToken hwf2,
          ih p1.nextToken.nextToken hwf3]
        cases Parser.parseExpressionFuel k p1.nextToken.nextToken with
        | mk r p4 =>
          cases r with
          | none => rfl
          | some right => rfl

theorem Parser.parseExpressionChecked_eq (p : Parser) (hwf : p.l.WellFormed) :
    p.parseExpressionChecked = some p.parseExpression :=
  Parser.parseExpressionFuelChecked_eq p.fuel p hwf

theorem Parser.parseLetStatementChecked_eq (p : Parser) (hwf : p.l.WellFormed) :
    p.parseLetStatementChecked = some p.parseLetStatement := by
  have h1 := Parser.expectPeek_spec p .IDENT hwf
  unfold Parser.parseLetStatementChecked Parser.parseLetStatement
  rw [Parser.expectPeekChecked_eq p _ hwf]
  cases hr1 : p.expectPeek .IDENT with
  | mk b1 p1 =>
    rw [hr1] at h1
    have hwf1 : p1.l.WellFormed := h1.1.wf
    cases b1 with
    | false => rfl
    | true =>
      have h2 := Parser.expectPeek_spec p1 .ASSIGN hwf1
      dsimp only
      rw [Parser.expectPeekChecked_eq p1 _ hwf1]
      cases hr2 : p1.expectPeek .ASSIGN with
      | mk b2 p2 =>
        rw [hr2] at h2
        have hwf2 : p2.l.WellFormed := h2.1.wf
        have hwf3 := (Parser.nextToken_spec p2 hwf2).1.wf
        cases b2 with
        | false => rfl
        | true =>
          dsimp only
          rw [Parser.nextTokenChecked_eq p2 hwf2]
          dsimp only
          rw [Parser.parseExpressionChecked_eq p2.nextToken hwf3]
          cases p2.nextToken.parseExpression with
          | mk r p3 =>
            cases r with
            | none => rfl
            | some value => rfl

theorem Parser.parseExpressionStatementChecked_eq (p : Parser) (hwf : p.l.WellFormed) :
    p.parseExpressionStatementChecked = some p.parseExpressionStatement := by
  unfold Parser.parseExpressionStatementChecked Parser.parseExpressionStatement
  rw [Parser.parseExpressionChecked_eq p hwf]
  cases p.parseExpression with
  | mk r p1 =>
    cases r with
    | none => rfl
    | some e => rfl

theorem Parser.parseStatementChecked_eq (p : Parser) (hwf : p.l.WellFormed) :
    p.parseStatementChecked = some p.parseStatement := by
  have hl : (match p.parseLetStatementChecked with
      | none => none
      | some (some stmt, p1) =>
        some (some (Statement.letStatement stmt.token stmt.name stmt.value), p1)
      | some (none, p1) => some (some Statement.nilLetStatement, p1))
      = some (match p.parseLetStatement with
        | (some stmt, p1) => (some (Statement.letStatement stmt.token stmt.name stmt.value), p1)
        | (none, p1) => (some Statement.nilLetStatement, p1)) := by
    rw [Parser.parseLetStatementChecked_eq p hwf]
    cases p.parseLetStatement with
    | mk r p1 =>
      cases r with
      | none => rfl
      | some st => rfl
  have he : (match p.parseExpressionStatementChecked with
      | none => none
      | some (some stmt, p1) =>
        some (some (Statement.expressionStatement stmt.token stmt.expression), p1)
      | some (none, p1) => some (some Statement.nilExpressionStatement, p1))
      = some (match p.parseExpressionStatement with
        | (some stmt, p1) =>
          (some (Statement.expressionStatement stmt.token stmt.expression), p1)
        | (none, p1) => (some Statement.nilExpressionStatement, p1)) := by
    rw [Parser.parseExpressionStatementChecked_eq p hwf]
    cases p.parseExpressionStatement with
    | mk r p1 =>
      cases r with
      | none => rfl
      | some st => rfl
  unfold Parser.parseStatementChecked Parser.parseStatement
  cases h : p.curToken.type <;> first | exact hl | exact he

theorem Parser.parseProgramLoopChecked_eq (fuel : Nat) :
    ∀ (p : Parser) (stmts : List Statement), p.l.WellFormed →
      Parser.parseProgramLoopChecked fuel p stmts
        = some (Parser.parseProgramLoop fuel p stmts) := by
  induction fuel with
  | zero => intro p stmts _; rfl
  | succ k ih =>
    intro p stmts hwf
    have hst := Parser.parseStatement_spec p hwf
    rw [Parser.parseProgramLoopChecked, Parser.parseProgramLoop,
      Parser.parseStatementChecked_eq p hwf]
    refine ite_eq_some_ite _ _ _ _ _ (fun _ => ?_) (fun _ => rfl)
    cases hr : p.parseStatement with
    | mk r p1 =>
      rw [hr] at hst
      have hwf1 : p1.l.WellFormed := hst.1.wf
      have hwf2 := (Parser.nextToken_spec p1 hwf1).1.wf
      cases r with
      | none =>
        simp only [Parser.nextTokenChecked_eq p1 hwf1]
        exact ih _ _ hwf2
      | some stmt =>
        simp only [Parser.nextTokenChecked_eq p1 hwf1]
        exact ih _ _ hwf2

theorem Parser.ParseProgramChecked_eq (p : Parser) (hwf : p.l.WellFormed) :
    p.ParseProgramChecked = some p.ParseProgram := by
  unfold Parser.ParseProgramChecked Parser.ParseProgram
  rw [Parser.parseProgramLoopChecked_eq _ _ _ hwf]

theorem parseChecked_eq (input : String) :
    parseChecked input = some (NewParser (NewLexer input)).ParseProgram := by
  unfold parseChecked
  rw [NewLexerChecked_eq]
  simp only []
  rw [NewParserChecked_eq]
  exact Parser.ParseProgramChecked_eq _ (NewParser_spec input).1

/-- The functions with explicit panics do fail out of range: the index `2` and
the slices `[1:3]` and `[2:1]` of `ab` panic, and so does `readIdentifier` in a
lexer state that no call of `NextToken` produces, with `position` past the end
of the input and an identifier character as `ch`. -/
theorem checked_out_of_range :
    indexChecked "ab" 2 = none ∧ sliceChecked "ab" 1 3 = none ∧ sliceChecked "ab" 2 1 = none ∧
    sliceChecked "ab" 1 2 = some "b" ∧
    Lexer.readIdentifierChecked ⟨"ab", 5, 6, 'a'⟩ = none :=
  ⟨rfl, rfl, rfl, rfl, rfl⟩

end Faults

section Totality

/-- C21: command arguments. When the current token is a command name and the
tokens that follow are `toks`, each an `IDENT`, `STRING`, `INT`, `get`, `where`,
`select`, `true`, `false` or comparison-operator token, and then `tend`, a `|` or
the end of input, `parseCommandExpression` returns a `CommandExpression` named by
the current token whose arguments are the nodes of `toks` in source order, as
many as there are tokens, argument `i` carrying the literal of token `i` (a
`StringLiteral` for a `STRING` token, an `Identifier` otherwise); it records no
error and stops with `tend` as the next token. -/
theorem parseCommandExpression_arguments (p : Parser) (toks : List Token) (tend : Token)
    (hwf : p.l.WellFormed) (hcmd : p.isCommandStartToken = true)
    (hup : p.upcoming toks.length = toks ++ [tend])
    (hargs : ∀ t ∈ toks, isArgumentToken t.type = true)
    (hend : tend.type = .PIPE ∨ tend.type = .EOF) :
    p.parseCommandExpression.1
      = some (.commandExpression (.mk p.curToken (.identifier p.curToken p.curToken.literal)
          (toks.map argumentNode))) ∧
    (toks.map argumentNode).length = toks.length ∧
    p.parseCommandExpression.2.errors = p.errors ∧
    p.parseCommandExpression.2.peekToken = tend := by
  have hfuel := (Parser.parseArgsLoop_spec p.fuel p [] hwf
    (le_of_lt (Parser.remaining_lt_fuel p))).2.2 toks.length
  have hrun := Parser.parseArgsLoop_arguments tend hend toks p [] (p.fuel + toks.length)
    (by omega) hargs hup
  rw [hfuel] at hrun
  obtain ⟨a1, a2, a3⟩ := hrun
  unfold Parser.parseCommandExpression
  simp only [hcmd, Bool.not_true, Bool.false_eq_true, if_false]
  cases hr : Parser.parseArgsLoop p.fuel p [] with
  | mk args p1 =>
    rw [hr] at a1 a2 a3
    simp only [List.nil_append] at a1 a2 a3
    subst a1
    exact ⟨rfl, List.length_map _ _, a2, a3⟩

/-- C21, evaluated: `where .age >= 30` has the three arguments `.age`, `>=` and
`30`. -/
theorem parseCommandExpression_arguments_witness :
    (NewParser (NewLexer "where .age >= 30")).parseCommandExpression.1
      = some (.commandExpression (.mk ⟨.WHERE, "where"⟩
          (.identifier ⟨.WHERE, "where"⟩ "where")
          [.identifier ⟨.IDENT, ".age"⟩ ".age", .identifier ⟨.GTE, ">="⟩ ">=",
            .identifier ⟨.IDENT, "30"⟩ "30"])) ∧
    (NewParser (NewLexer "where .age >= 30")).parseCommandExpression.2.errors = [] :=
  match parseCommandExpression_arguments (NewParser (NewLexer "where .age >= 30"))
      [⟨.IDENT, ".age"⟩, ⟨.GTE, ">="⟩, ⟨.IDENT, "30"⟩] ⟨.EOF, ""⟩ rfl rfl rfl
      (by decide) (Or.inr rfl) with
  | ⟨h1, _, h3, _⟩ => ⟨h1, h3⟩

/-- C22: dotted-path folding. When the current token is `DOT` and the tokens that
follow are `toks`, of the form `IDENT a1, DOT, IDENT a2, ..., IDENT an`, and then
a token `tend` that is not a `DOT`, `parsePathExpression` consumes all of `toks`
and returns a single `Identifier` that carries the starting `DOT` token and
whose value is the literal of that token followed by the literals of `toks`,
the text `.a1.a2…an`; it records no error and stops on the last `IDENT` with
`tend` as the next token. -/
theorem parsePathExpression_folds (p : Parser) (toks : List Token) (tend : Token)
    (hwf : p.l.WellFormed) (hcur : p.curToken.type = .DOT)
    (halt : alternatesIdentDot toks = true)
    (hup : p.upcoming toks.length = toks ++ [tend]) (hend : tend.type ≠ .DOT) :
    p.parsePathExpression.1
      = some (.identifier p.curToken (p.curToken.literal ++ concatLiterals toks)) ∧
    p.parsePathExpression.2.errors = p.errors ∧
    p.parsePathExpression.2.curToken.type = .IDENT ∧
    p.parsePathExpression.2.peekToken = tend := by
  have hfuel := (Parser.parsePathLoop_spec p.fuel p p.curToken.literal hwf
    (le_of_lt (Parser.remaining_lt_fuel p))).2.2.2.2 toks.length
  have hrun := Parser.parsePathLoop_fold tend hend toks p p.curToken.literal
    (p.fuel + toks.length) (by omega) hcur halt hup
  rw [hfuel] at hrun
  obtain ⟨a1, a2, a3, a4⟩ := hrun
  unfold Parser.parsePathExpression
  cases hr : Parser.parsePathLoop p.fuel p p.curToken.literal with
  | mk path p1 =>
    rw [hr] at a1 a2 a3 a4
    simp only at a1 a2 a3 a4
    subst a1
    exact ⟨rfl, a2, a3, a4⟩

/-- C22, evaluated: in `get . data . items`, token sequence `GET DOT IDENT DOT
IDENT`, the path that starts at the first `DOT` folds to the one `Identifier`
`.data.items`, and the whole input parses without error to the command `get`
with that single argument. -/
theorem parsePathExpression_folds_witness :
    (NewParser (NewLexer "get . data . items")).nextToken.parsePathExpression.1
      = some (.identifier ⟨.DOT, "."⟩ ".data.items") ∧
    ((NewParser (NewLexer "get . data . items")).ParseProgram).1.statements
      = [.expressionStatement ⟨.GET, "get"⟩ (.commandExpression (.mk ⟨.GET, "get"⟩
          (.identifier ⟨.GET, "get"⟩ "get") [.identifier ⟨.DOT, "."⟩ ".data.items"]))] ∧
    ((NewParser (NewLexer "get . data . items")).ParseProgram).2.Errors = [] :=
  ⟨(parsePathExpression_folds (NewParser (NewLexer "get . data . items")).nextToken
      [⟨.IDENT, "data"⟩, ⟨.DOT, "."⟩, ⟨.IDENT, "items"⟩] ⟨.EOF, ""⟩ rfl rfl rfl rfl
      (by decide)).1, rfl, rfl⟩

theorem Parser.ParseProgram_snd (p : Parser) :
    p.ParseProgram.2 = (Parser.parseProgramLoop p.fuel p []).2 := by
  unfold Parser.ParseProgram
  cases Parser.parseProgramLoop p.fuel p [] with
  | mk stmts p1 => rfl

/-- C23: parsing is total. For every input string: every call of `NextToken`,
on an exhausted input or not, returns a token and moves the lexer to a later
index, so it consumes at least one byte; every token from number
`len(input) + 1` on is `EOF`; the loops of the lexer stop by their own
condition; `ParseProgram` on the parser that `NewParser` builds from `NewLexer`
stops with `EOF` as the current token and its statement loop does not use up
its rounds, more rounds give the same program. In every parser state that
`nextToken` produces, `nextToken` lowers the count of tokens left while it is
not zero, and the statement loop, the argument loop, the pipe recursion and the
path folding all stop before their rounds run out: more rounds give the same
result. No step raises a run-time panic: `parseChecked`, which runs `NewLexer`,
`NewParser` and `ParseProgram` with every index expression and every slice
expression failing where Go panics, returns the program and the parser of
`ParseProgram`; so does `NextTokenChecked` for `NextToken` at every index, and
`nextTokenChecked` and `ParseProgramChecked` in every parser state that
`nextToken` produces. At each slice `l.input[position:l.position]` of
`readIdentifier`, `readNumber` and `readString` the bounds satisfy
`position ≤ l.position ≤ len(input)`. -/
theorem parsing_total (input : String) :
    (∀ q, ∃ tok q', (Lexer.atPos input q).NextToken = (tok, Lexer.atPos input q') ∧ q < q') ∧
    (∀ n, input.data.length ≤ n →
      (Lexer.tokens (n + 1) (NewLexer input)).getLast? = some ⟨.EOF, ""⟩) ∧
    (∀ (cond : Char → Bool) (q : Nat), cond NUL = false →
      ∃ k, (∀ fuel, input.data.length + 1 ≤ fuel →
          Lexer.readWhile cond fuel (Lexer.atPos input q) = Lexer.atPos input (q + k)) ∧
        cond (Lexer.atPos input (q + k)).ch = false) ∧
    ((NewParser (NewLexer input)).ParseProgram).2.curToken.type = .EOF ∧
    (∀ n, Parser.parseProgramLoop ((NewParser (NewLexer input)).fuel + n)
        (NewParser (NewLexer input)) []
      = Parser.parseProgramLoop (NewParser (NewLexer input)).fuel
        (NewParser (NewLexer input)) []) ∧
    (∀ p : Parser, p.l.WellFormed →
      (p.remaining ≠ 0 → p.nextToken.remaining < p.remaining) ∧
      p.nextToken.l.WellFormed ∧
      (∀ n stmts, Parser.parseProgramLoop (p.fuel + n) p stmts
        = Parser.parseProgramLoop p.fuel p stmts) ∧
      (∀ n args, Parser.parseArgsLoop (p.fuel + n) p args
        = Parser.parseArgsLoop p.fuel p args) ∧
      (∀ n, Parser.parseExpressionFuel (p.fuel + n) p = Parser.parseExpressionFuel p.fuel p) ∧
      (∀ n path, Parser.parsePathLoop (p.fuel + n) p path
        = Parser.parsePathLoop p.fuel p path)) ∧
    parseChecked input = some (NewParser (NewLexer input)).ParseProgram ∧
    (∀ q, (Lexer.atPos input q).NextTokenChecked = some (Lexer.atPos input q).NextToken) ∧
    (∀ p : Parser, p.l.WellFormed →
      p.nextTokenChecked = some p.nextToken ∧ p.ParseProgramChecked = some p.ParseProgram) ∧
    (∀ q, q ≤ input.data.length →
      (∃ k, (Lexer.atPos input q).readIdentifier
          = (slice input q (q + k), Lexer.atPos input (q + k)) ∧
        q ≤ q + k ∧ q + k ≤ input.data.length ∧
        sliceChecked input q (q + k) = some (slice input q (q + k))) ∧
      (∃ k, (Lexer.atPos input q).readNumber
          = (slice input q (q + k), Lexer.atPos input (q + k)) ∧
        q ≤ q + k ∧ q + k ≤ input.data.length ∧
        sliceChecked input q (q + k) = some (slice input q (q + k)))) ∧
    (∀ q quote, q < input.data.length →
      ∃ k, (Lexer.atPos input q).readString quote
          = (slice input (q + 1) (q + 1 + k), Lexer.atPos input (q + 1 + k)) ∧
        q + 1 ≤ q + 1 + k ∧ q + 1 + k ≤ input.data.length ∧
        sliceChecked input (q + 1) (q + 1 + k) = some (slice input (q + 1) (q + 1 + k))) := by
  have hnew := NewParser_spec input
  have hloop := Parser.parseProgramLoop_spec (NewParser (NewLexer input)).fuel
    (NewParser (NewLexer input)) [] hnew.1 (le_of_lt (Parser.remaining_lt_fuel _))
  refine ⟨?_, ?_, ?_, ?_, hloop.2.2.2, ?_, parseChecked_eq input,
    Lexer.NextTokenChecked_atPos input, ?_, ?_, ?_⟩
  · intro q
    obtain ⟨tok, q', h, hlt, _⟩ := Lexer.NextToken_progress input q
    exact ⟨tok, q', h, hlt⟩
  · intro n hn
    rw [NewLexer_eq_atPos]
    exact Lexer.tokens_reach_eof input n 0 (by omega)
  · intro cond q h0
    obtain ⟨k, hk, hend, _, _⟩ := Lexer.readWhile_ends cond h0 input q
    exact ⟨k, hk, hend⟩
  · rw [Parser.ParseProgram_snd]
    exact hloop.1
  · intro p hwf
    have hle := le_of_lt (Parser.remaining_lt_fuel p)
    exact ⟨(Parser.nextToken_spec p hwf).2.2.2, (Parser.nextToken_spec p hwf).1.wf,
      fun n stmts => (Parser.parseProgramLoop_spec p.fuel p stmts hwf hle).2.2.2 n,
      fun n args => (Parser.parseArgsLoop_spec p.fuel p args hwf hle).2.2 n,
      (Parser.parseExpressionFuel_spec p.fuel p hwf (Parser.remaining_lt_fuel p)).2.2,
      fun n path => (Parser.parsePathLoop_spec p.fuel p path hwf hle).2.2.2.2 n⟩
  · intro p hwf
    exact ⟨Parser.nextTokenChecked_eq p hwf, Parser.ParseProgramChecked_eq p hwf⟩
  · intro q hq
    obtain ⟨k1, h1, _, b1⟩ := Lexer.readIdentifierChecked_atPos input q hq
    obtain ⟨k2, h2, _, b2⟩ := Lexer.readNumberChecked_atPos input q hq
    exact ⟨⟨k1, h1, Nat.le_add_right _ _, b1, sliceChecked_eq _ _ _ (Nat.le_add_right _ _) b1⟩,
      ⟨k2, h2, Nat.le_add_right _ _, b2, sliceChecked_eq _ _ _ (Nat.le_add_right _ _) b2⟩⟩
  · intro q quote hq
    obtain ⟨k, h, _, b⟩ := Lexer.readStringChecked_atPos input q quote hq
    exact ⟨k, h, Nat.le_add_right _ _, b, sliceChecked_eq _ _ _ (Nat.le_add_right _ _) b⟩

/-- C23, evaluated: on the input `ls | wc` token number `8` is `EOF`,
`ParseProgram` stops on `EOF`, the first `nextToken` lowers the count of tokens
left, and the run with explicit panics returns the program of `ParseProgram`. -/
theorem parsing_total_witness :
    (Lexer.tokens 8 (NewLexer "ls | wc")).getLast? = some ⟨.EOF, ""⟩ ∧
    ((NewParser (NewLexer "ls | wc")).ParseProgram).2.curToken.type = .EOF ∧
    (NewParser (NewLexer "ls | wc")).nextToken.remaining
      < (NewParser (NewLexer "ls | wc")).remaining ∧
    parseChecked "ls | wc" = some (NewParser (NewLexer "ls | wc")).ParseProgram :=
  ⟨(parsing_total "ls | wc").2.1 7 (by decide), (parsing_total "ls | wc").2.2.2.1,
    ((parsing_total "ls | wc").2.2.2.2.2.1 (NewParser (NewLexer "ls | wc")) rfl).1 (by decide),
    (parsing_total "ls | wc").2.2.2.2.2.2.1⟩

/-- C24: an empty error list certifies the program. For every input, if
`Errors()` is empty after `ParseProgram`, no statement parse failed: no entry of
`Program.Statements` holds a nil `*LetStatement` or a nil `*ExpressionStatement`,
so every `LetStatement` has its name and value, every `ExpressionStatement` its
expression and every `PipelineExpression` both sides. In every parser state
that `nextToken` produces, each of `parseExpression`, `parseLetStatement` and
`parseExpressionStatement` keeps the messages recorded so far, and appends at
least one when it returns nil. -/
theorem empty_errors_certify (input : String) :
    (((NewParser (NewLexer input)).ParseProgram).2.Errors = [] →
      ∀ s ∈ ((NewParser (NewLexer input)).ParseProgram).1.statements,
        s ≠ .nilLetStatement ∧ s ≠ .nilExpressionStatement) ∧
    (∀ p : Parser, p.l.WellFormed →
      (p.errors <+: p.parseExpression.2.errors ∧
        (p.parseExpression.1 = none →
          p.errors.length < p.parseExpression.2.errors.length)) ∧
      (p.errors <+: p.parseLetStatement.2.errors ∧
        (p.parseLetStatement.1 = none →
          p.errors.length < p.parseLetStatement.2.errors.length)) ∧
      (p.errors <+: p.parseExpressionStatement.2.errors ∧
        (p.parseExpressionStatement.1 = none →
          p.errors.length < p.parseExpressionStatement.2.errors.length))) := by
  constructor
  · intro herr
    have hnew := NewParser_spec input
    obtain ⟨_, _, ⟨new, hst, hnil⟩, _⟩ := Parser.parseProgramLoop_spec
      (NewParser (NewLexer input)).fuel (NewParser (NewLexer input)) [] hnew.1
      (le_of_lt (Parser.remaining_lt_fuel _))
    unfold Parser.ParseProgram Parser.Errors at herr
    unfold Parser.ParseProgram
    cases hr : Parser.parseProgramLoop (NewParser (NewLexer input)).fuel
        (NewParser (NewLexer input)) [] with
    | mk stmts p1 =>
      rw [hr] at hst hnil herr
      simp only [List.nil_append] at hst hnil herr
      subst hst
      exact hnil (by rw [herr]; exact Nat.zero_le _)
  · intro p hwf
    have h1 := Parser.parseExpression_spec p hwf
    have h2 := Parser.parseLetStatement_spec p hwf
    have h3 := Parser.parseExpressionStatement_spec p hwf
    exact ⟨⟨h1.1.errors, h1.2⟩, ⟨h2.1.errors, h2.2⟩, ⟨h3.1.errors, h3.2⟩⟩

/-- C24, evaluated: `ls | wc` parses with an empty error list, so its statements
hold no nil pointer; the parse of `)` returns nil and records a message. -/
theorem empty_errors_certify_witness :
    (∀ s ∈ ((NewParser (NewLexer "ls | wc")).ParseProgram).1.statements,
      s ≠ .nilLetStatement ∧ s ≠ .nilExpressionStatement) ∧
    (NewParser (NewLexer ")")).errors.length
      < (NewParser (NewLexer ")")).parseExpression.2.errors.length :=
  ⟨(empty_errors_certify "ls | wc").1 rfl,
    ((empty_errors_certify ")").2 (NewParser (NewLexer ")")) rfl).1.2 rfl⟩

end Totality

end Nxsh
